import Mathlib

/-! Nabla: concurrent object cache, asynchronous request dispatch, logical
device queues and descriptor sets.

A shallow embedding of `include/CConcurrentObjectCache.h`, of
`include/nbl/system/ISystem.h`, of the constructor and `getQueue` of
`include/nbl/video/ILogicalDevice.h` and of `src/nbl/video/IGPUDescriptorSet.cpp`,
followed by the properties proved about them.

Conventions of the embedding:
* the lock counter `ctr` is an integer; the value of the `BLOCKED` sentinel is a
  parameter `B` of every definition that needs it;
* a wrapper operation of `CMakeCacheConcurrent` is a function on the wrapper
  object; the object carries a ghost `trace` that records, in program order,
  every lock call and every base-cache call the operation makes;
* a spinning acquisition takes a `fuel` bound on its number of attempts and
  yields `none` when the bound is exhausted.
-/

namespace Nabla

/-! ## The lock primitives behind `m_lock` -/

/-- Modelled from the spec: `FW_AtomicCounterIncr` of `FW_Mutex.h` (not among the
sources). "`lockRead()` atomically increments the counter and returns". -/
def FW_AtomicCounterIncr (ctr : Int) : Int := ctr + 1

/-- Modelled from the spec: `FW_AtomicCounterDecr` of `FW_Mutex.h`.
"`unlockRead()` ... decrements". -/
def FW_AtomicCounterDecr (ctr : Int) : Int := ctr - 1

/-- Modelled from the spec: `FW_AtomicCounterBlock` of `FW_Mutex.h`. "Busy-waits
until the counter is exactly 0, then atomically transitions it to the BLOCKED
sentinel (attempt 0 -> BLOCKED repeatedly until it succeeds)". Each unit of
`fuel` is one compare-and-swap attempt; the counter seen by the attempts is
the one passed in, as no other thread runs in between. -/
def FW_AtomicCounterBlock (B : Int) : Nat → Int → Option Int
  | 0, _ => none
  | fuel + 1, ctr => if ctr = 0 then some B else FW_AtomicCounterBlock B fuel ctr

/-- Modelled from the spec: `FW_AtomicCounterUnBlock` of `FW_Mutex.h`.
"`unlockWrite()` resets the counter to 0". -/
def FW_AtomicCounterUnBlock (_ctr : Int) : Int := 0

/-! ## `impl::CMakeCacheConcurrent` -/

/-- A call of a base-cache member function together with its arguments. -/
inductive BaseCall (K T : Type) where
  | insert (_key : K) (_val : T)
  | contains (_object : T)
  | getSize
  | clear
  | swapObjectValue (_key : K) (_obj : T) (_val : T)
  | getKeyRangeOrReserve (_key : K)
  | findRange (_key : K)
  | removeObject (_object : T) (_key : K)
  | findAndStoreRange (_key : K) (_storageSize : Nat) (_out : List (K × T))
  | outputAll (_storageSize : Nat) (_out : List (K × T))
  | begin_
  | end_
  | cbegin
  | cend
  | crbegin
  | crend
  deriving DecidableEq, Repr

/-- One entry of the ghost trace of a wrapper operation. -/
inductive CacheEvent (K T : Type) where
  | lockRead
  | unlockRead
  | lockWrite
  | unlockWrite
  | base (call : BaseCall K T)
  deriving DecidableEq, Repr

/-- The member functions of the template parameter `CacheT` (`BaseCache`) that
the wrapper forwards to. `C` is the state of the base cache, `R` its
`RangeType`, `I` and `RI` its iterator and reverse-iterator types. A
non-`const` member returns the new base state next to its result; the members
that fill `_out` and `*_gotAll` return the count, the buffer and the flag. -/
structure BaseCacheOps (C K T R I RI : Type) where
  insert : C → K → T → Bool × C
  contains : C → T → Bool
  getSize : C → Nat
  clear : C → C
  swapObjectValue : C → K → T → T → Bool × C
  getKeyRangeOrReserve : C → K → (Bool × R) × C
  findRange : C → K → R
  removeObject : C → T → K → Bool × C
  findAndStoreRange : C → K → Nat → List (K × T) → Nat × List (K × T) × Bool
  outputAll : C → Nat → List (K × T) → Nat × List (K × T) × Bool
  begin_ : C → I
  end_ : C → I
  cbegin : C → I
  cend : C → I
  crbegin : C → RI
  crend : C → RI

/-- The wrapper object: the counter of `m_lock`, the `BaseCache` sub-object and
the ghost trace. -/
structure CMakeCacheConcurrent (C K T : Type) where
  ctr : Int
  base : C
  trace : List (CacheEvent K T)

namespace CMakeCacheConcurrent

variable {C K T R I RI : Type}

/-- `m_lock.lockRead()`. -/
def lockRead (self : CMakeCacheConcurrent C K T) : CMakeCacheConcurrent C K T :=
  { self with ctr := FW_AtomicCounterIncr self.ctr, trace := self.trace ++ [CacheEvent.lockRead] }

/-- `m_lock.unlockRead()`. -/
def unlockRead (self : CMakeCacheConcurrent C K T) : CMakeCacheConcurrent C K T :=
  { self with ctr := FW_AtomicCounterDecr self.ctr, trace := self.trace ++ [CacheEvent.unlockRead] }

/-- `m_lock.lockWrite()`: `none` when the spin used up its fuel. -/
def lockWrite (B : Int) (fuel : Nat) (self : CMakeCacheConcurrent C K T) :
    Option (CMakeCacheConcurrent C K T) :=
  (FW_AtomicCounterBlock B fuel self.ctr).map fun c =>
    { self with ctr := c, trace := self.trace ++ [CacheEvent.lockWrite] }

/-- `m_lock.unlockWrite()`. -/
def unlockWrite (self : CMakeCacheConcurrent C K T) : CMakeCacheConcurrent C K T :=
  { self with ctr := FW_AtomicCounterUnBlock self.ctr, trace := self.trace ++ [CacheEvent.unlockWrite] }

/-- A call of a `const` base member: the base state stays, the call is traced. -/
def callConst (self : CMakeCacheConcurrent C K T) (call : BaseCall K T) :
    CMakeCacheConcurrent C K T :=
  { self with trace := self.trace ++ [CacheEvent.base call] }

/-- A call of a non-`const` base member that leaves the base state `b`. -/
def callMut (self : CMakeCacheConcurrent C K T) (call : BaseCall K T) (b : C) :
    CMakeCacheConcurrent C K T :=
  { self with base := b, trace := self.trace ++ [CacheEvent.base call] }

/-- `threadSafeRead(_f)`: `lockRead`, one evaluation of `_f` on the base
sub-object, `unlockRead`. -/
def threadSafeRead {ρ : Type} (self : CMakeCacheConcurrent C K T) (call : BaseCall K T)
    (_f : C → ρ) : ρ × CMakeCacheConcurrent C K T :=
  let self := self.lockRead
  let r := _f self.base
  let self := self.callConst call
  let self := self.unlockRead
  (r, self)

/-- `begin()`. -/
def begin_ (ops : BaseCacheOps C K T R I RI) (self : CMakeCacheConcurrent C K T) :
    I × CMakeCacheConcurrent C K T :=
  self.threadSafeRead BaseCall.begin_ ops.begin_

/-- `end()`. -/
def end_ (ops : BaseCacheOps C K T R I RI) (self : CMakeCacheConcurrent C K T) :
    I × CMakeCacheConcurrent C K T :=
  self.threadSafeRead BaseCall.end_ ops.end_

/-- `cbegin()`. -/
def cbegin (ops : BaseCacheOps C K T R I RI) (self : CMakeCacheConcurrent C K T) :
    I × CMakeCacheConcurrent C K T :=
  self.threadSafeRead BaseCall.cbegin ops.cbegin

/-- `cend()`. -/
def cend (ops : BaseCacheOps C K T R I RI) (self : CMakeCacheConcurrent C K T) :
    I × CMakeCacheConcurrent C K T :=
  self.threadSafeRead BaseCall.cend ops.cend

/-- `crbegin()`. -/
def crbegin (ops : BaseCacheOps C K T R I RI) (self : CMakeCacheConcurrent C K T) :
    RI × CMakeCacheConcurrent C K T :=
  self.threadSafeRead BaseCall.crbegin ops.crbegin

/-- `crend()`. -/
def crend (ops : BaseCacheOps C K T R I RI) (self : CMakeCacheConcurrent C K T) :
    RI × CMakeCacheConcurrent C K T :=
  self.threadSafeRead BaseCall.crend ops.crend

/-- `insert(_key, _val)`. -/
def insert (ops : BaseCacheOps C K T R I RI) (B : Int) (fuel : Nat)
    (self : CMakeCacheConcurrent C K T) (_key : K) (_val : T) :
    Option (Bool × CMakeCacheConcurrent C K T) := do
  let self ← self.lockWrite B fuel
  let r := ops.insert self.base _key _val
  let self := self.callMut (BaseCall.insert _key _val) r.2
  let self := self.unlockWrite
  pure (r.1, self)

/-- `contains(_object)`. -/
def contains (ops : BaseCacheOps C K T R I RI) (self : CMakeCacheConcurrent C K T)
    (_object : T) : Bool × CMakeCacheConcurrent C K T :=
  let self := self.lockRead
  let r := ops.contains self.base _object
  let self := self.callConst (BaseCall.contains _object)
  let self := self.unlockRead
  (r, self)

/-- `getSize()`. -/
def getSize (ops : BaseCacheOps C K T R I RI) (self : CMakeCacheConcurrent C K T) :
    Nat × CMakeCacheConcurrent C K T :=
  let self := self.lockRead
  let r := ops.getSize self.base
  let self := self.callConst BaseCall.getSize
  let self := self.unlockRead
  (r, self)

/-- `clear()`. -/
def clear (ops : BaseCacheOps C K T R I RI) (B : Int) (fuel : Nat)
    (self : CMakeCacheConcurrent C K T) : Option (Unit × CMakeCacheConcurrent C K T) := do
  let self ← self.lockWrite B fuel
  let self := self.callMut BaseCall.clear (ops.clear self.base)
  let self := self.unlockWrite
  pure ((), self)

/-- `swapObjectValue(_key, _obj, _val)`. -/
def swapObjectValue (ops : BaseCacheOps C K T R I RI) (B : Int) (fuel : Nat)
    (self : CMakeCacheConcurrent C K T) (_key : K) (_obj _val : T) :
    Option (Bool × CMakeCacheConcurrent C K T) := do
  let self ← self.lockWrite B fuel
  let r := ops.swapObjectValue self.base _key _obj _val
  let self := self.callMut (BaseCall.swapObjectValue _key _obj _val) r.2
  let self := self.unlockWrite
  pure (r.1, self)

/-- `getKeyRangeOrReserve(_outrange, _key)`: the result pairs the returned flag
with the range written to `*_outrange`. -/
def getKeyRangeOrReserve (ops : BaseCacheOps C K T R I RI) (B : Int) (fuel : Nat)
    (self : CMakeCacheConcurrent C K T) (_key : K) :
    Option ((Bool × R) × CMakeCacheConcurrent C K T) := do
  let self ← self.lockWrite B fuel
  let r := ops.getKeyRangeOrReserve self.base _key
  let self := self.callMut (BaseCall.getKeyRangeOrReserve _key) r.2
  let self := self.unlockWrite
  pure (r.1, self)

/-- `findRange(_key)` (both overloads have this body). -/
def findRange (ops : BaseCacheOps C K T R I RI) (self : CMakeCacheConcurrent C K T)
    (_key : K) : R × CMakeCacheConcurrent C K T :=
  let self := self.lockRead
  let r := ops.findRange self.base _key
  let self := self.callConst (BaseCall.findRange _key)
  let self := self.unlockRead
  (r, self)

/-- `removeObject(_object, _key)`. -/
def removeObject (ops : BaseCacheOps C K T R I RI) (B : Int) (fuel : Nat)
    (self : CMakeCacheConcurrent C K T) (_object : T) (_key : K) :
    Option (Bool × CMakeCacheConcurrent C K T) := do
  let self ← self.lockWrite B fuel
  let r := ops.removeObject self.base _object _key
  let self := self.callMut (BaseCall.removeObject _object _key) r.2
  let self := self.unlockWrite
  pure (r.1, self)

/-- `findAndStoreRange(_key, _storageSize, _out, _gotAll)` (both overloads). -/
def findAndStoreRange (ops : BaseCacheOps C K T R I RI) (self : CMakeCacheConcurrent C K T)
    (_key : K) (_storageSize : Nat) (_out : List (K × T)) :
    (Nat × List (K × T) × Bool) × CMakeCacheConcurrent C K T :=
  let self := self.lockRead
  let r := ops.findAndStoreRange self.base _key _storageSize _out
  let self := self.callConst (BaseCall.findAndStoreRange _key _storageSize _out)
  let self := self.unlockRead
  (r, self)

/-- `outputAll(_storageSize, _out, _gotAll)`. -/
def outputAll (ops : BaseCacheOps C K T R I RI) (self : CMakeCacheConcurrent C K T)
    (_storageSize : Nat) (_out : List (K × T)) :
    (Nat × List (K × T) × Bool) × CMakeCacheConcurrent C K T :=
  let self := self.lockRead
  let r := ops.outputAll self.base _storageSize _out
  let self := self.callConst (BaseCall.outputAll _storageSize _out)
  let self := self.unlockRead
  (r, self)

end CMakeCacheConcurrent

/-! ## The lock as a transition system over interleaved threads -/

/-- A lock call issued by thread `t`. -/
inductive LockCall where
  | lockRead (t : Nat)
  | unlockRead (t : Nat)
  | lockWrite (t : Nat)
  | unlockWrite (t : Nat)
  deriving DecidableEq, Repr

/-- The counter of `m_lock` with the ghost record of who is inside: `readers`
lists the threads between their `lockRead` and `unlockRead` (a thread appears
once per nested `lockRead`), `writers` those between their `lockWrite` and
`unlockWrite`. -/
structure LockState where
  ctr : Int
  readers : List Nat
  writers : List Nat
  deriving DecidableEq, Repr

namespace LockState

/-- The state of a freshly constructed cache: `ctr = 0`, nobody inside. -/
def init : LockState := { ctr := 0, readers := [], writers := [] }

/-- One atomic step. `lockRead`/`unlockRead` apply the increment/decrement,
`lockWrite` is one successful compare-and-swap attempt (so it is enabled only
at counter 0), `unlockWrite` resets the counter. Pairing: a thread can unlock
only what it holds. `none` means the call cannot complete in this state. -/
def step (B : Int) (s : LockState) : LockCall → Option LockState
  | LockCall.lockRead t =>
      some { s with ctr := FW_AtomicCounterIncr s.ctr, readers := t :: s.readers }
  | LockCall.unlockRead t =>
      if t ∈ s.readers then
        some { s with ctr := FW_AtomicCounterDecr s.ctr, readers := s.readers.erase t }
      else none
  | LockCall.lockWrite t =>
      (FW_AtomicCounterBlock B 1 s.ctr).map fun c =>
        { s with ctr := c, writers := t :: s.writers }
  | LockCall.unlockWrite t =>
      if t ∈ s.writers then
        some { s with ctr := FW_AtomicCounterUnBlock s.ctr, writers := s.writers.erase t }
      else none

/-- The state after an interleaving of calls, `none` if one of them cannot
complete where it stands. -/
def run (B : Int) : LockState → List LockCall → Option LockState
  | s, [] => some s
  | s, c :: cs => (step B s c).bind fun s1 => run B s1 cs

/-- No `lockRead` of the interleaving is issued at a moment when the counter
holds the sentinel `B`. -/
def readsAvoidBlocked (B : Int) : LockState → List LockCall → Bool
  | _, [] => true
  | s, c :: cs =>
      (match c with
        | LockCall.lockRead _ => decide (s.ctr ≠ B)
        | _ => true) &&
      (match step B s c with
        | some s1 => readsAvoidBlocked B s1 cs
        | none => true)

/-- A writer inside has the lock to itself: no reader is inside and no second
writer is. -/
def exclusive (s : LockState) : Prop :=
  ∀ w ∈ s.writers, s.readers = [] ∧ s.writers = [w]

/-- The counter tells who is inside: it is the sentinel exactly when a writer
is inside, and otherwise it is the number of readers inside. -/
def counterTellsHolders (B : Int) (s : LockState) : Prop :=
  (s.ctr = B ↔ s.writers ≠ []) ∧ (s.ctr ≠ B → s.ctr = (s.readers.length : Int))

/-- The shape of every state reached without a `lockRead` at the sentinel:
readers only, counted by the counter, or one writer alone at the sentinel. -/
def wellFormed (B : Int) (s : LockState) : Prop :=
  (s.writers = [] ∧ s.ctr = (s.readers.length : Int)) ∨
    (∃ w, s.writers = [w] ∧ s.readers = [] ∧ s.ctr = B)

end LockState

/-! ## The base cache `CMultiObjectCache` (`CObjectCache.h`) -/

/-- Modelled from the spec: the class `CMultiObjectCache` of `CObjectCache.h`
(not among the sources). "Sorted multimap keyed by K, storing one-or-many
values per key"; its backing store `m_container` is the sequence of
(key, value) entries. -/
structure CMultiObjectCache (K T : Type) where
  m_container : List (K × T)
  deriving DecidableEq, Repr

namespace CMultiObjectCache

variable {K T : Type}

/-- Modelled from the spec: a newly constructed cache holds nothing. -/
def empty : CMultiObjectCache K T := { m_container := [] }

/-- Modelled from the spec: the first of "the two boundary searches" of
`findRange`, a binary search in `[lo, hi)` for the first entry whose key is not
less than `k`. `fuel` bounds the number of halvings. -/
def lowerBoundAux [LT K] [DecidableRel (α := K) (· < ·)] (xs : List (K × T)) (k : K) :
    Nat → Nat → Nat → Nat
  | 0, lo, _ => lo
  | fuel + 1, lo, hi =>
      if lo < hi then
        let mid := lo + (hi - lo) / 2
        match xs[mid]? with
        | some e =>
            if e.1 < k then lowerBoundAux xs k fuel (mid + 1) hi
            else lowerBoundAux xs k fuel lo mid
        | none => lo
      else lo

/-- Modelled from the spec: the second boundary search, a binary search in
`[lo, hi)` for the first entry whose key is greater than `k`. -/
def upperBoundAux [LT K] [DecidableRel (α := K) (· < ·)] (xs : List (K × T)) (k : K) :
    Nat → Nat → Nat → Nat
  | 0, lo, _ => lo
  | fuel + 1, lo, hi =>
      if lo < hi then
        let mid := lo + (hi - lo) / 2
        match xs[mid]? with
        | some e =>
            if k < e.1 then upperBoundAux xs k fuel lo mid
            else upperBoundAux xs k fuel (mid + 1) hi
        | none => lo
      else lo

/-- Modelled from the spec: lower boundary of the span of `k` in the whole store. -/
def lowerBound [LT K] [DecidableRel (α := K) (· < ·)] (xs : List (K × T)) (k : K) : Nat :=
  lowerBoundAux xs k xs.length 0 xs.length

/-- Modelled from the spec: upper boundary of the span of `k`, searched from
`first` to the end of the store. -/
def upperBound [LT K] [DecidableRel (α := K) (· < ·)] (xs : List (K × T)) (k : K)
    (first : Nat) : Nat :=
  upperBoundAux xs k xs.length first xs.length

/-- Modelled from the spec: `findRange(key) -> Range` "binary-searches the sorted
store for the contiguous span of entries matching `key`; returns an empty range
if absent". A range is the pair of positions `(first, second)` delimiting
`[first, second)`. -/
def findRange [LT K] [DecidableRel (α := K) (· < ·)] (self : CMultiObjectCache K T)
    (_key : K) : Nat × Nat :=
  let first := lowerBound self.m_container _key
  (first, upperBound self.m_container _key first)

/-- The entries a range of positions designates in the store. -/
def rangeEntries (self : CMultiObjectCache K T) (r : Nat × Nat) : List (K × T) :=
  (self.m_container.drop r.1).take (r.2 - r.1)

/-- The values a range of positions designates in the store. -/
def rangeValues (self : CMultiObjectCache K T) (r : Nat × Nat) : List T :=
  (rangeEntries self r).map Prod.snd

/-- Modelled from the spec: `insert(key, value) -> bool` "inserts a (key,value)
pair in sorted position; returns whether an actual insertion happened". The
multi-value cache suppresses nothing, so it always inserts; the position is the
lower boundary of the key. -/
def insert [LT K] [DecidableRel (α := K) (· < ·)] (self : CMultiObjectCache K T)
    (_key : K) (_val : T) : Bool × CMultiObjectCache K T :=
  let pos := lowerBound self.m_container _key
  (true, { m_container := self.m_container.take pos ++ (_key, _val) :: self.m_container.drop pos })

/-- Modelled from the spec: the scan of `n` positions from `i` on for the first
entry whose value is `v` ("values are compared by identity/handle"). -/
def scanRange [DecidableEq T] (xs : List (K × T)) (v : T) : Nat → Nat → Option Nat
  | 0, _ => none
  | n + 1, i =>
      match xs[i]? with
      | some e => if e.2 = v then some i else scanRange xs v n (i + 1)
      | none => none

/-- Modelled from the spec: `removeObject(value, key) -> bool` "removes one
specific value associated with `key`; returns false if not found". -/
def removeObject [LT K] [DecidableRel (α := K) (· < ·)] [DecidableEq T]
    (self : CMultiObjectCache K T) (_object : T) (_key : K) : Bool × CMultiObjectCache K T :=
  let range := findRange self _key
  match scanRange self.m_container _object (range.2 - range.1) range.1 with
  | some i => (true, { m_container := self.m_container.eraseIdx i })
  | none => (false, self)

/-- Modelled from the spec: `swapObjectValue(key, oldValue, newValue) -> bool`
"replaces `oldValue` with `newValue` under `key` if present; otherwise inserts
`newValue` fresh; returns true iff an insertion (rather than replacement)
occurred". -/
def swapObjectValue [LT K] [DecidableRel (α := K) (· < ·)] [DecidableEq T]
    (self : CMultiObjectCache K T) (_key : K) (_obj _val : T) : Bool × CMultiObjectCache K T :=
  let range := findRange self _key
  match scanRange self.m_container _obj (range.2 - range.1) range.1 with
  | some i => (false, { m_container := self.m_container.set i (_key, _val) })
  | none => (true, (insert self _key _val).2)

/-- Modelled from the spec: `getKeyRangeOrReserve(key) -> (Range, bool)` "returns
the existing range for `key`, or, if absent, reserves an empty insertion point
for that key and reports that a reservation occurred". The empty insertion
point is the empty range at the lower boundary of the key. -/
def getKeyRangeOrReserve [LT K] [DecidableRel (α := K) (· < ·)] (self : CMultiObjectCache K T)
    (_key : K) : (Bool × (Nat × Nat)) × CMultiObjectCache K T :=
  let range := findRange self _key
  ((decide (range.1 = range.2), range), self)

/-- Modelled from the spec: the copy loop of `outputAll`, which "copies up to
`capacity` entries into caller-provided storage": entry after entry goes to
`out[i]` while `i` is below the capacity. -/
def copyEntries : List (K × T) → Nat → Nat → List (K × T) → Nat × List (K × T)
  | [], i, _, out => (i, out)
  | e :: es, i, capacity, out =>
      if i < capacity then copyEntries es (i + 1) capacity (out.set i e) else (i, out)

/-- Modelled from the spec: `outputAll(capacity, outBuffer) -> (count, didFitAll)`
"copies up to `capacity` entries into caller-provided storage, reporting
whether everything fit". The result is the count, the buffer and the flag. -/
def outputAll (self : CMultiObjectCache K T) (_storageSize : Nat) (_out : List (K × T)) :
    Nat × List (K × T) × Bool :=
  let r := copyEntries self.m_container 0 _storageSize _out
  (r.1, r.2, decide (self.m_container.length ≤ _storageSize))

/-- Modelled from the spec: `findAndStoreRange`, the copy of `outputAll` applied
to the entries of `findRange(key)`. -/
def findAndStoreRange [LT K] [DecidableRel (α := K) (· < ·)] (self : CMultiObjectCache K T)
    (_key : K) (_storageSize : Nat) (_out : List (K × T)) : Nat × List (K × T) × Bool :=
  let es := rangeEntries self (findRange self _key)
  let r := copyEntries es 0 _storageSize _out
  (r.1, r.2, decide (es.length ≤ _storageSize))

/-- Modelled from the spec: `getSize() -> n`. -/
def getSize (self : CMultiObjectCache K T) : Nat := self.m_container.length

/-- Modelled from the spec: `clear()`. -/
def clear (_self : CMultiObjectCache K T) : CMultiObjectCache K T := { m_container := [] }

/-- Modelled from the spec: `contains(value) -> bool` "(linear scan by identity)". -/
def contains [DecidableEq T] (self : CMultiObjectCache K T) (_object : T) : Bool :=
  self.m_container.any fun e => decide (e.2 = _object)

/-- The multi-value cache as the `CacheT` argument of `CMakeCacheConcurrent`
(`CConcurrentMultiObjectCache`); iterators are positions in the store. -/
def ops [LT K] [DecidableRel (α := K) (· < ·)] [DecidableEq T] :
    BaseCacheOps (CMultiObjectCache K T) K T (Nat × Nat) Nat Nat where
  insert := insert
  contains := contains
  getSize := getSize
  clear := clear
  swapObjectValue := swapObjectValue
  getKeyRangeOrReserve := getKeyRangeOrReserve
  findRange := findRange
  removeObject := removeObject
  findAndStoreRange := findAndStoreRange
  outputAll := outputAll
  begin_ := fun _ => 0
  end_ := fun self => self.m_container.length
  cbegin := fun _ => 0
  cend := fun self => self.m_container.length
  crbegin := fun self => self.m_container.length
  crend := fun _ => 0

/-- The binary search shared by both boundary searches, over an arbitrary
test `p`: the first position of `[lo, hi)` whose entry fails `p`. -/
def partitionPointAux (p : K × T → Bool) (xs : List (K × T)) : Nat → Nat → Nat → Nat
  | 0, lo, _ => lo
  | fuel + 1, lo, hi =>
      if lo < hi then
        let mid := lo + (hi - lo) / 2
        match xs[mid]? with
        | some e =>
            if p e then partitionPointAux p xs fuel (mid + 1) hi
            else partitionPointAux p xs fuel lo mid
        | none => lo
      else lo

/-- The backing store is sorted by key (non-decreasing). -/
def sortedByKey [LE K] (self : CMultiObjectCache K T) : Prop :=
  self.m_container.Pairwise fun a b => a.1 ≤ b.1

/-- One call of a sequence of `insert` and `removeObject` calls. -/
inductive Update (K T : Type) where
  | insert (_key : K) (_val : T)
  | removeObject (_object : T) (_key : K)
  deriving DecidableEq, Repr

/-- The cache after one call made directly on it. -/
def applyUpdate [LT K] [DecidableRel (α := K) (· < ·)] [DecidableEq T]
    (self : CMultiObjectCache K T) : Update K T → CMultiObjectCache K T
  | Update.insert k v => (insert self k v).2
  | Update.removeObject v k => (removeObject self v k).2

/-- The caches observed after each call of a sequence made directly. -/
def observe [LT K] [DecidableRel (α := K) (· < ·)] [DecidableEq T]
    (self : CMultiObjectCache K T) : List (Update K T) → List (CMultiObjectCache K T)
  | [] => []
  | u :: us => applyUpdate self u :: observe (applyUpdate self u) us

/-- A concrete sorted cache: keys 1, 3, 3. -/
def demoCache : CMultiObjectCache Nat Nat := ⟨[(1, 10), (3, 30), (3, 31)]⟩

end CMultiObjectCache

/-- The wrapper object after one call made through `CConcurrentMultiObjectCache`. -/
def CMakeCacheConcurrent.applyUpdate {K T : Type} [LT K] [DecidableRel (α := K) (· < ·)]
    [DecidableEq T] (B : Int) (fuel : Nat)
    (self : CMakeCacheConcurrent (CMultiObjectCache K T) K T) :
    CMultiObjectCache.Update K T → Option (CMakeCacheConcurrent (CMultiObjectCache K T) K T)
  | CMultiObjectCache.Update.insert k v =>
      (CMakeCacheConcurrent.insert CMultiObjectCache.ops B fuel self k v).map Prod.snd
  | CMultiObjectCache.Update.removeObject v k =>
      (CMakeCacheConcurrent.removeObject CMultiObjectCache.ops B fuel self v k).map Prod.snd

/-- The base caches observed after each call of a sequence made through the
wrapper; `none` if a call did not get the lock within its fuel. -/
def CMakeCacheConcurrent.observe {K T : Type} [LT K] [DecidableRel (α := K) (· < ·)]
    [DecidableEq T] (B : Int) (fuel : Nat) :
    CMakeCacheConcurrent (CMultiObjectCache K T) K T → List (CMultiObjectCache.Update K T) →
      Option (List (CMultiObjectCache K T))
  | _, [] => some []
  | self, u :: us =>
      (CMakeCacheConcurrent.applyUpdate B fuel self u).bind fun s1 =>
        (CMakeCacheConcurrent.observe B fuel s1 us).map fun rest => s1.base :: rest

/-! ## `nbl::system::ISystem`: requests and their dispatch -/

/-- `ISystem::E_REQUEST_TYPE`. -/
inductive E_REQUEST_TYPE where
  | ERT_CREATE_FILE
  | ERT_READ
  | ERT_WRITE
  deriving DecidableEq, Repr

/-- `ISystem::CircularBufferSize`. -/
def CircularBufferSize : Nat := 256

/-- `SRequestParams_CREATE_FILE::MAX_FILENAME_LENGTH`. -/
def MAX_FILENAME_LENGTH : Nat := 4096

/-- `SRequestParams_CREATE_FILE`: the `char filename[MAX_FILENAME_LENGTH]` buffer
(one number per `char`) and the creation flags. -/
structure SRequestParams_CREATE_FILE where
  filename : List Nat
  flags : Nat
  deriving DecidableEq, Repr

/-- `SRequestParams_READ`; pointers are addresses. -/
structure SRequestParams_READ where
  file : Nat
  buffer : Nat
  offset : Nat
  size : Nat
  deriving DecidableEq, Repr

/-- `SRequestParams_WRITE`; pointers are addresses. -/
structure SRequestParams_WRITE where
  file : Nat
  buffer : Nat
  offset : Nat
  size : Nat
  deriving DecidableEq, Repr

/-- The `std::variant` of the three parameter structs held by `SRequestType::params`. -/
inductive RequestParams where
  | CREATE_FILE (p : SRequestParams_CREATE_FILE)
  | READ (p : SRequestParams_READ)
  | WRITE (p : SRequestParams_WRITE)
  deriving DecidableEq, Repr

/-- `SRequestParamsBase<RT>::type`, the tag each parameter struct carries. -/
def RequestParams.type : RequestParams → E_REQUEST_TYPE
  | RequestParams.CREATE_FILE _ => E_REQUEST_TYPE.ERT_CREATE_FILE
  | RequestParams.READ _ => E_REQUEST_TYPE.ERT_READ
  | RequestParams.WRITE _ => E_REQUEST_TYPE.ERT_WRITE

/-- `SRequestType`: the tag, the variant, and from `request_base_t` the future the
request is associated with (futures are identified by a number). -/
structure SRequestType where
  future : Nat
  type : E_REQUEST_TYPE
  params : RequestParams
  deriving DecidableEq, Repr

/-- The value a future is resolved with: a file handle that may be null
(`core::smart_refctd_ptr<IFile>`) or a byte count (`size_t`). -/
inductive FutureValue where
  | file (f : Option Nat)
  | size (n : Nat)
  deriving DecidableEq, Repr

/-- `ISystemCaller` over a world state `σ` the operations act on. `createFile` is
only declared in the header and `read_impl`/`write_impl` belong to `IFile`, so
the three are given. `sys` is the owning `ISystem`. -/
structure ISystemCaller (σ : Type) where
  createFile : σ → (sys : Nat) → (filename : List Nat) → (flags : Nat) → Option Nat × σ
  read_impl : σ → (file buffer offset size : Nat) → Nat × σ
  write_impl : σ → (file buffer offset size : Nat) → Nat × σ

/-- `ISystemCaller::read`. -/
def ISystemCaller.read {σ : Type} (self : ISystemCaller σ) (w : σ) (file buffer offset size : Nat) :
    Nat × σ :=
  self.read_impl w file buffer offset size

/-- `ISystemCaller::write`. -/
def ISystemCaller.write {σ : Type} (self : ISystemCaller σ) (w : σ)
    (file buffer offset size : Nat) : Nat × σ :=
  self.write_impl w file buffer offset size

/-- What the worker thread did, in order: the caller operations it invoked,
with their arguments, and the futures it resolved. -/
inductive DispatchEvent where
  | createFile (sys : Nat) (filename : List Nat) (flags : Nat)
  | read (file buffer offset size : Nat)
  | write (file buffer offset size : Nat)
  | notify_future (future : Nat) (value : FutureValue)
  deriving DecidableEq, Repr

/-- Whether an event is the invocation of a caller operation. -/
def DispatchEvent.isCall : DispatchEvent → Bool
  | DispatchEvent.notify_future _ _ => false
  | _ => true

/-- The string a `char` buffer holds: its content up to the first NUL. This is
what the conversion of `p.filename` to a path reads. -/
def c_str (buf : List Nat) : List Nat := buf.takeWhile fun ch => decide (ch ≠ 0)

/-- `strcpy(dest, src)`: the characters of the string `src`, then a NUL, written
over the start of `dest`. -/
def strcpy (dest src : List Nat) : List Nat :=
  c_str src ++ 0 :: dest.drop ((c_str src).length + 1)

/-- `std::bad_variant_access`, thrown by `std::get` on the wrong alternative. -/
inductive DispatchError where
  | bad_variant_access
  deriving DecidableEq, Repr

/-- Modelled from the spec: the request buffer of the base class
`ICancellableAsyncQueueDispatcher` (not among the sources), a "fixed-capacity
circular array of request slots, indices tracked as monotonically increasing
head/tail counters modulo capacity": `cb` holds the slots (`none` for an empty
one), `head` is advanced by the producers and `tail` by the worker, "the sole
consumer". -/
structure ICancellableAsyncQueueDispatcher where
  cb : List (Option SRequestType)
  head : Nat
  tail : Nat

/-- `ISystem::CAsyncQueue`: the base class and the member `m_owner`. `world` is
the state the member `m_caller` acts on and `trace` the ghost record of what
the worker did. -/
structure CAsyncQueue (σ : Type) extends ICancellableAsyncQueueDispatcher where
  m_owner : Nat
  world : σ
  trace : List DispatchEvent

namespace CAsyncQueue

variable {σ : Type}

/-- The queue as constructed: `capacity` empty slots, both counters 0. -/
def init (capacity : Nat) (m_owner : Nat) (w : σ) : CAsyncQueue σ :=
  { cb := List.replicate capacity none, head := 0, tail := 0, m_owner := m_owner, world := w,
    trace := [] }

/-- A slot before `request_impl` fills it: a default-constructed `SRequestType`
(the variant holds its first alternative; every field is overwritten by
`request_impl`). -/
def slotDefault : SRequestType :=
  ⟨0, E_REQUEST_TYPE.ERT_CREATE_FILE, RequestParams.CREATE_FILE ⟨[], 0⟩⟩

/-- `request_impl(req, future, params)`: sets the tag from the parameter struct,
moves the struct into the variant and associates the future. -/
def request_impl (req : SRequestType) (future : Nat) (params : RequestParams) : SRequestType :=
  { req with type := params.type, params := params, future := future }

/-- `process_request(req)`: the switch on `req.type`; each case reads its
alternative of the variant with `std::get`, invokes the caller operation and
passes the result to `notify_future`. -/
def process_request (m_caller : ISystemCaller σ) (self : CAsyncQueue σ) (req : SRequestType) :
    Except DispatchError (CAsyncQueue σ) :=
  match req.type with
  | E_REQUEST_TYPE.ERT_CREATE_FILE =>
      match req.params with
      | RequestParams.CREATE_FILE p =>
          let r := m_caller.createFile self.world self.m_owner (c_str p.filename) p.flags
          Except.ok { self with
            world := r.2,
            trace := self.trace ++ [DispatchEvent.createFile self.m_owner (c_str p.filename) p.flags,
              DispatchEvent.notify_future req.future (FutureValue.file r.1)] }
      | _ => Except.error DispatchError.bad_variant_access
  | E_REQUEST_TYPE.ERT_READ =>
      match req.params with
      | RequestParams.READ p =>
          let r := m_caller.read self.world p.file p.buffer p.offset p.size
          Except.ok { self with
            world := r.2,
            trace := self.trace ++ [DispatchEvent.read p.file p.buffer p.offset p.size,
              DispatchEvent.notify_future req.future (FutureValue.size r.1)] }
      | _ => Except.error DispatchError.bad_variant_access
  | E_REQUEST_TYPE.ERT_WRITE =>
      match req.params with
      | RequestParams.WRITE p =>
          let r := m_caller.write self.world p.file p.buffer p.offset p.size
          Except.ok { self with
            world := r.2,
            trace := self.trace ++ [DispatchEvent.write p.file p.buffer p.offset p.size,
              DispatchEvent.notify_future req.future (FutureValue.size r.1)] }
      | _ => Except.error DispatchError.bad_variant_access

/-- Modelled from the spec: `request(future, params)` of the base class, the
`submit` of the spec: "writes the request into the next free circular-buffer
slot; if the buffer is full, the caller blocks until a slot frees". The slot is
filled by `request_impl`. `none` means the caller is blocked. -/
def request (self : CAsyncQueue σ) (future : Nat) (params : RequestParams) :
    Option (CAsyncQueue σ) :=
  if self.head - self.tail < self.cb.length then
    let req := request_impl slotDefault future params
    some { self with
      cb := self.cb.set (self.head % self.cb.length) (some req),
      head := self.head + 1 }
  else none

/-- Modelled from the spec: one round of the worker loop of the base class:
"waits for a filled slot, dispatches on the request's type tag to the
type-specific executor call, captures the result, resolves the slot's Future,
recycles the slot". `none` means the worker is waiting (no filled slot) or the
processing threw. -/
def workerStep (m_caller : ISystemCaller σ) (self : CAsyncQueue σ) : Option (CAsyncQueue σ) :=
  if self.tail < self.head then
    match self.cb[self.tail % self.cb.length]? with
    | some (some req) =>
        match process_request m_caller self req with
        | Except.ok q =>
            some { q with
              cb := q.cb.set (self.tail % self.cb.length) none,
              tail := self.tail + 1 }
        | Except.error _ => none
    | _ => none
  else none

end CAsyncQueue

namespace ISystem

variable {σ : Type}

/-- The parameter struct `createFile` fills: the zero-initialised buffer with
the name copied in by `strcpy`, and the flags. -/
def createFileParams (filename : List Nat) (flags : Nat) : SRequestParams_CREATE_FILE :=
  { filename := strcpy (List.replicate MAX_FILENAME_LENGTH 0) filename, flags := flags }

/-- `ISystem::createFile(future, filename, flags)` on the member `m_dispatcher`:
`false` without a request when the name does not fit the buffer. `none` means
the call is blocked inside `request`. -/
def createFile (m_dispatcher : CAsyncQueue σ) (future : Nat) (filename : List Nat) (flags : Nat) :
    Option (Bool × CAsyncQueue σ) :=
  if filename.length ≥ MAX_FILENAME_LENGTH then some (false, m_dispatcher)
  else
    (m_dispatcher.request future (RequestParams.CREATE_FILE (createFileParams filename flags))).map
      fun q => (true, q)

/-- `ISystem::readFile(future, file, buffer, offset, size)`. -/
def readFile (m_dispatcher : CAsyncQueue σ) (future : Nat) (file buffer offset size : Nat) :
    Option (Bool × CAsyncQueue σ) :=
  (m_dispatcher.request future
    (RequestParams.READ { file := file, buffer := buffer, offset := offset, size := size })).map
    fun q => (true, q)

/-- `ISystem::writeFile(future, file, buffer, offset, size)`. -/
def writeFile (m_dispatcher : CAsyncQueue σ) (future : Nat) (file buffer offset size : Nat) :
    Option (Bool × CAsyncQueue σ) :=
  (m_dispatcher.request future
    (RequestParams.WRITE { file := file, buffer := buffer, offset := offset, size := size })).map
    fun q => (true, q)

/-- One step of an interleaving of submitting threads and the worker thread. -/
inductive Step where
  | createFile (future : Nat) (filename : List Nat) (flags : Nat)
  | readFile (future file buffer offset size : Nat)
  | writeFile (future file buffer offset size : Nat)
  | worker
  deriving DecidableEq, Repr

/-- The parameters a submitting step hands to `request`, if it submits. -/
def Step.params : Step → Option RequestParams
  | Step.createFile _ filename flags =>
      if filename.length ≥ MAX_FILENAME_LENGTH then none
      else some (RequestParams.CREATE_FILE (createFileParams filename flags))
  | Step.readFile _ file buffer offset size =>
      some (RequestParams.READ { file := file, buffer := buffer, offset := offset, size := size })
  | Step.writeFile _ file buffer offset size =>
      some (RequestParams.WRITE { file := file, buffer := buffer, offset := offset, size := size })
  | Step.worker => none

/-- The caller operation a request stands for, as it shows in the trace. -/
def callOf (m_owner : Nat) (params : RequestParams) : DispatchEvent :=
  match params with
  | RequestParams.CREATE_FILE p => DispatchEvent.createFile m_owner (c_str p.filename) p.flags
  | RequestParams.READ p => DispatchEvent.read p.file p.buffer p.offset p.size
  | RequestParams.WRITE p => DispatchEvent.write p.file p.buffer p.offset p.size

/-- The dispatcher together with the ghost list of the parameters of the
requests submitted so far, in submission order. -/
structure RunState (σ : Type) where
  m_dispatcher : CAsyncQueue σ
  submitted : List RequestParams

/-- The effect of one step; `none` when the step cannot complete where it
stands (a submitter blocked on a full buffer, the worker waiting). -/
def step (m_caller : ISystemCaller σ) (s : RunState σ) : Step → Option (RunState σ)
  | Step.createFile future filename flags =>
      (createFile s.m_dispatcher future filename flags).map fun r =>
        { m_dispatcher := r.2,
          submitted := s.submitted ++ (Step.params (Step.createFile future filename flags)).toList }
  | Step.readFile future file buffer offset size =>
      (readFile s.m_dispatcher future file buffer offset size).map fun r =>
        { m_dispatcher := r.2,
          submitted := s.submitted ++
            (Step.params (Step.readFile future file buffer offset size)).toList }
  | Step.writeFile future file buffer offset size =>
      (writeFile s.m_dispatcher future file buffer offset size).map fun r =>
        { m_dispatcher := r.2,
          submitted := s.submitted ++
            (Step.params (Step.writeFile future file buffer offset size)).toList }
  | Step.worker =>
      (CAsyncQueue.workerStep m_caller s.m_dispatcher).map fun q =>
        { s with m_dispatcher := q }

/-- The state after an interleaving. -/
def run (m_caller : ISystemCaller σ) : RunState σ → List Step → Option (RunState σ)
  | s, [] => some s
  | s, e :: es => (step m_caller s e).bind fun s1 => run m_caller s1 es

/-- The start: the dispatcher of `ISystem` as constructed, nothing submitted. -/
def start (m_owner : Nat) (w : σ) : RunState σ :=
  { m_dispatcher := CAsyncQueue.init CircularBufferSize m_owner w, submitted := [] }

/-- The caller operations the worker has invoked, in execution order. -/
def executed (s : RunState σ) : List DispatchEvent :=
  s.m_dispatcher.trace.filter DispatchEvent.isCall

/-- What holds of every state of an interleaving: the counters are in order
and at most a buffer apart, the slots from `tail` up to `head` hold the
requests submitted at those positions, and the caller operations executed so
far are those of the first `tail` submissions. -/
def RunState.consistent (m_owner : Nat) (s : RunState σ) : Prop :=
  0 < s.m_dispatcher.cb.length ∧ s.m_dispatcher.tail ≤ s.m_dispatcher.head ∧
    s.m_dispatcher.head - s.m_dispatcher.tail ≤ s.m_dispatcher.cb.length ∧
    s.submitted.length = s.m_dispatcher.head ∧ s.m_dispatcher.m_owner = m_owner ∧
    (∀ i : Nat, s.m_dispatcher.tail ≤ i → i < s.m_dispatcher.head →
      ∃ p future, s.submitted[i]? = some p ∧
        s.m_dispatcher.cb[i % s.m_dispatcher.cb.length]? = some (some ⟨future, p.type, p⟩)) ∧
    executed s = (s.submitted.take s.m_dispatcher.tail).map (callOf m_owner)

/-- A caller for concrete runs: the world counts the operations invoked. -/
def demoCaller : ISystemCaller Nat where
  createFile := fun w _ _ _ => (some 1, w + 1)
  read_impl := fun w _ _ _ size => (size, w + 1)
  write_impl := fun w _ _ _ size => (size, w + 1)

/-- A caller whose `createFile` opens nothing: it returns the null handle. Its
reads and writes are those of `demoCaller`. -/
def failingCaller : ISystemCaller Nat where
  createFile := fun w _ _ _ => (none, w + 1)
  read_impl := fun w _ _ _ size => (size, w + 1)
  write_impl := fun w _ _ _ size => (size, w + 1)

/-- A concrete interleaving: a read and a write are submitted, the worker runs
one round, a second read is submitted. -/
def demoSteps : List Step :=
  [Step.readFile 1 50 60 0 8, Step.writeFile 2 50 61 8 4, Step.worker, Step.readFile 3 50 62 0 2]

/-- The state `demoSteps` leads to from the start with owner 7 and world 0. -/
def demoFinal : RunState Nat where
  m_dispatcher :=
    { cb := ((((List.replicate CircularBufferSize none).set 0
          (some ⟨1, E_REQUEST_TYPE.ERT_READ, RequestParams.READ ⟨50, 60, 0, 8⟩⟩)).set 1
          (some ⟨2, E_REQUEST_TYPE.ERT_WRITE, RequestParams.WRITE ⟨50, 61, 8, 4⟩⟩)).set 0
          none).set 2 (some ⟨3, E_REQUEST_TYPE.ERT_READ, RequestParams.READ ⟨50, 62, 0, 2⟩⟩)
      head := 3
      tail := 1
      m_owner := 7
      world := 1
      trace := [DispatchEvent.read 50 60 0 8,
        DispatchEvent.notify_future 1 (FutureValue.size 8)] }
  submitted := [RequestParams.READ ⟨50, 60, 0, 8⟩, RequestParams.WRITE ⟨50, 61, 8, 4⟩,
    RequestParams.READ ⟨50, 62, 0, 2⟩]

end ISystem

/-! ## Requests and notifications along an interleaving -/

namespace ISystem

variable {σ : Type}

/-- The futures the worker has resolved, in the order of its `notify_future`
calls. -/
def notifications : List DispatchEvent → List Nat
  | [] => []
  | DispatchEvent.notify_future future _ :: es => future :: notifications es
  | _ :: es => notifications es

/-- The future a submitting step passes in. -/
def Step.future : Step → Nat
  | Step.createFile future _ _ => future
  | Step.readFile future _ _ _ _ => future
  | Step.writeFile future _ _ _ _ => future
  | Step.worker => 0

/-- The request a submitting step leaves in its slot, as `request_impl` fills
it; `none` for a step that submits nothing. -/
def Step.request (e : Step) : Option SRequestType :=
  (Step.params e).map fun p => CAsyncQueue.request_impl CAsyncQueue.slotDefault (Step.future e) p

/-- The requests submitted by an interleaving, in submission order. -/
def requestsOf (es : List Step) : List SRequestType :=
  es.filterMap Step.request

/-- What holds of a state reached after the requests `R` were submitted: the
ghost list agrees with `R`, every request of `R` carries the tag of its
parameters, the slots from `tail` up to `head` hold the requests of `R` at
those positions, and the futures resolved so far are those of the first
`tail` requests of `R`, in order. -/
def RunState.tracked (R : List SRequestType) (s : RunState σ) : Prop :=
  s.submitted = R.map (fun r => r.params) ∧
    (∀ r ∈ R, r.type = r.params.type) ∧
    (∀ i : Nat, s.m_dispatcher.tail ≤ i → i < s.m_dispatcher.head →
      ∃ r, R[i]? = some r ∧
        s.m_dispatcher.cb[i % s.m_dispatcher.cb.length]? = some (some r)) ∧
    notifications s.m_dispatcher.trace =
      (R.take s.m_dispatcher.tail).map (fun r => r.future)

end ISystem

/-! ## Futures and cancellation -/

/-- Modelled from the spec: the states of `Future<T>` of the absent base class,
"Pending -> {Ready(T), Cancelled}; terminal once resolved". -/
inductive FutureState where
  | Pending
  | Ready (value : FutureValue)
  | Cancelled
  deriving DecidableEq, Repr

/-- Modelled from the spec: `CancellableRequestQueue`, the cancellation side of
the absent `ICancellableAsyncQueueDispatcher`: the request queue "extended with
a cancellation signal", with the state of every future (by number). -/
structure CancellableRequestQueue (σ : Type) where
  queue : CAsyncQueue σ
  cancelled : Bool
  futures : Nat → FutureState

namespace CancellableRequestQueue

variable {σ : Type}

/-- Modelled from the spec: the requests still queued, those of the slots from
`tail` up to `head`, oldest first. -/
def queued (self : CancellableRequestQueue σ) : List SRequestType :=
  (List.range (self.queue.head - self.queue.tail)).filterMap fun j =>
    (self.queue.cb[(self.queue.tail + j) % self.queue.cb.length]?).join

/-- Modelled from the spec: `cancelAll()` "sets the flag, causing (a) the worker
to stop dequeuing new requests, (b) all Futures still Pending in the buffer to
transition to Cancelled, (c) `submit()` calls made after cancellation to fail
immediately rather than block". -/
def cancelAll (self : CancellableRequestQueue σ) : CancellableRequestQueue σ :=
  { self with
    cancelled := true,
    futures := fun f =>
      if f ∈ (queued self).map (fun r => r.future) ∧ self.futures f = FutureState.Pending then
        FutureState.Cancelled
      else self.futures f }

/-- Modelled from the spec: `request(future, params)` of the cancellable queue:
after cancellation it fails immediately (`false`, nothing enqueued); before, it
is the `request` of the queue, and the future associated is Pending. `none`
means the caller is blocked on a full buffer. -/
def request (self : CancellableRequestQueue σ) (future : Nat) (params : RequestParams) :
    Option (Bool × CancellableRequestQueue σ) :=
  if self.cancelled then some (false, self)
  else
    (self.queue.request future params).map fun q =>
      (true, { self with
        queue := q,
        futures := fun f => if f = future then FutureState.Pending else self.futures f })

/-- Modelled from the spec: the resolution of a future by `notify_future`, a
transition out of Pending; a future already resolved keeps its state. -/
def resolve (futures : Nat → FutureState) : Option DispatchEvent → Nat → FutureState
  | some (DispatchEvent.notify_future future value) => fun f =>
      if f = future ∧ futures f = FutureState.Pending then FutureState.Ready value
      else futures f
  | _ => futures

/-- Modelled from the spec: one round of the worker of the cancellable queue.
The flag is "checked by the worker between requests": once cancelled the
worker dequeues nothing. -/
def workerStep (m_caller : ISystemCaller σ) (self : CancellableRequestQueue σ) :
    Option (CancellableRequestQueue σ) :=
  if self.cancelled then none
  else
    (CAsyncQueue.workerStep m_caller self.queue).map fun q =>
      { self with queue := q, futures := resolve self.futures q.trace.getLast? }

end CancellableRequestQueue

namespace ISystem.Cancellable

variable {σ : Type}

/-- `ISystem::createFile` with `m_dispatcher` the cancellable queue: the result
of `request` is not looked at, the function returns true. -/
def createFile (m_dispatcher : CancellableRequestQueue σ) (future : Nat) (filename : List Nat)
    (flags : Nat) : Option (Bool × CancellableRequestQueue σ) :=
  if filename.length ≥ MAX_FILENAME_LENGTH then some (false, m_dispatcher)
  else
    (m_dispatcher.request future
      (RequestParams.CREATE_FILE (createFileParams filename flags))).map fun r => (true, r.2)

/-- `ISystem::readFile` with `m_dispatcher` the cancellable queue. -/
def readFile (m_dispatcher : CancellableRequestQueue σ) (future : Nat)
    (file buffer offset size : Nat) : Option (Bool × CancellableRequestQueue σ) :=
  (m_dispatcher.request future
    (RequestParams.READ { file := file, buffer := buffer, offset := offset, size := size })).map
    fun r => (true, r.2)

/-- `ISystem::writeFile` with `m_dispatcher` the cancellable queue. -/
def writeFile (m_dispatcher : CancellableRequestQueue σ) (future : Nat)
    (file buffer offset size : Nat) : Option (Bool × CancellableRequestQueue σ) :=
  (m_dispatcher.request future
    (RequestParams.WRITE { file := file, buffer := buffer, offset := offset, size := size })).map
    fun r => (true, r.2)

/-- A concrete cancellable dispatcher: the state `demoFinal` (requests with
futures 2 and 3 still queued), not cancelled, futures 2 and 3 Pending. -/
def demoQueue : CancellableRequestQueue Nat where
  queue := demoFinal.m_dispatcher
  cancelled := false
  futures := fun f =>
    if f = 1 then FutureState.Ready (FutureValue.size 8) else FutureState.Pending

end ISystem.Cancellable

/-! ## `ISystem`: archive loaders and mounted archives -/

/-- The declarations used by the archive side of `ISystem` that are not among
the sources, taken as given. `S` is `std::string`, `P` is `system::path`;
files, loaders and archives are handles. `getAssociatedFileExtensions` gives
the entries before the terminating null. `createArchive` receives the handle
passed as `std::move(file)` and returns the archive together with what the
call leaves in that handle. `insertTakesHandle` tells whether
`CMultiObjectCache::insert`, declared in `CObjectCache.h`, takes over a handle
passed to it as `std::move(handle)` and leaves it null (`true`), or stores a
handle of its own and leaves the one passed as it was (`false`). -/
structure ISystemEnv (S P : Type) where
  ECF_READ : Nat
  ECF_MAPPABLE : Nat
  getFlags : (file : Nat) → Nat
  getFileName : (file : Nat) → P
  extension_wo_dot : P → S
  absolute_generic : P → P
  asFile : (archive : Nat) → Nat
  getAssociatedFileExtensions : (loader : Nat) → List S
  createArchive : (loader : Nat) → (file : Option Nat) → (password : List Nat) →
    Option Nat × Option Nat
  string : P → List Nat
  empty : P → Bool
  insertTakesHandle : Bool

/-- `ISystem::Loaders`: the loader vector and the per-extension index, a
`core::CMultiObjectCache<std::string, smart_refctd_ptr<IArchiveLoader>>`. -/
structure Loaders (S : Type) where
  vector : List Nat
  perFileExt : CMultiObjectCache S Nat

/-- What `openFileArchive` yields: the archive (null is `none`), the calls it
made on the per-extension index and the `createArchive` calls it made, each
with the loader, the handle passed and the password. -/
structure OpenResult (S : Type) where
  archive : Option Nat
  cacheCalls : List (CacheEvent S Nat)
  loaderCalls : List (Nat × Option Nat × List Nat)

/-- Every cache call of a trace stands between the lock calls of its kind:
`lockWrite`, call, `unlockWrite` or `lockRead`, call, `unlockRead`. -/
def lockGuarded {K T : Type} : List (CacheEvent K T) → Bool
  | [] => true
  | CacheEvent.lockWrite :: CacheEvent.base _ :: CacheEvent.unlockWrite :: rest =>
      lockGuarded rest
  | CacheEvent.lockRead :: CacheEvent.base _ :: CacheEvent.unlockRead :: rest =>
      lockGuarded rest
  | _ => false

/-- Whether an event is a base-cache call (not a lock call). -/
def CacheEvent.isBase {K T : Type} : CacheEvent K T → Bool
  | CacheEvent.base _ => true
  | _ => false

namespace ISystem

variable {σ S P : Type}

/-- The `while` loop of `addArchiveLoader` over the extension list (a C array
of fewer than 2^32 entries, indexed by a `uint32_t`): one `insert` of a copy of
the loader per extension. The second component is the trace of cache calls. -/
def addArchiveLoaderLoop [LT S] [DecidableRel (α := S) (· < ·)] (loader : Nat) :
    List S → CMultiObjectCache S Nat × List (CacheEvent S Nat) →
      CMultiObjectCache S Nat × List (CacheEvent S Nat)
  | [], acc => acc
  | e :: exts, acc =>
      addArchiveLoaderLoop loader exts
        ((CMultiObjectCache.insert acc.1 e loader).2,
          acc.2 ++ [CacheEvent.base (BaseCall.insert e loader)])

/-- `ISystem::addArchiveLoader(loader)`: the result is the `uint32_t` returned,
the new `m_loaders` and the trace of cache calls. -/
def addArchiveLoader [LT S] [DecidableRel (α := S) (· < ·)] (env : ISystemEnv S P)
    (m_loaders : Loaders S) (loader : Nat) : Nat × Loaders S × List (CacheEvent S Nat) :=
  let exts := env.getAssociatedFileExtensions loader
  let r := addArchiveLoaderLoop loader exts (m_loaders.perFileExt, [])
  let vector := m_loaders.vector ++ [loader]
  ((vector.length - 1) % 2 ^ 32, { vector := vector, perFileExt := r.1 }, r.2)

/-- `ISystem::mount(archive, pathAlias)` on the member `m_cachedArchiveFiles`, a
`core::CMultiObjectCache<system::path, smart_refctd_ptr<IFileArchive>>` (a null
handle is `none`). Both `insert` calls are handed `std::move(archive)`, a cast:
the second is handed what the first left in `archive`, which is the archive
unless `insert` takes the handle over (`env.insertTakesHandle`). The result is
the cache and the trace of cache calls. -/
def mount [LT P] [DecidableRel (α := P) (· < ·)] (env : ISystemEnv S P)
    (m_cachedArchiveFiles : CMultiObjectCache P (Option Nat)) (archive : Nat) (pathAlias : P) :
    CMultiObjectCache P (Option Nat) × List (CacheEvent P (Option Nat)) :=
  let handle : Option Nat := some archive
  let path := env.absolute_generic (env.getFileName (env.asFile archive))
  let c1 := (CMultiObjectCache.insert m_cachedArchiveFiles path handle).2
  let handle : Option Nat := if env.insertTakesHandle then none else handle
  if env.empty pathAlias then (c1, [CacheEvent.base (BaseCall.insert path (some archive))])
  else
    ((CMultiObjectCache.insert c1 pathAlias handle).2,
      [CacheEvent.base (BaseCall.insert path (some archive)),
        CacheEvent.base (BaseCall.insert pathAlias handle)])

/-- The `for` loop of `openFileArchive` over the range of loaders: each loader
is handed `std::move(file)`, that is what the earlier calls left in `file`; the
first non-null archive is returned. The second component lists the
`createArchive` calls made. -/
def openFileArchiveLoop (env : ISystemEnv S P) (password : List Nat) :
    List (S × Nat) → Option Nat → List (Nat × Option Nat × List Nat) →
      Option Nat × List (Nat × Option Nat × List Nat)
  | [], _, calls => (none, calls)
  | loader :: rest, file, calls =>
      let r := env.createArchive loader.2 file password
      match r.1 with
      | none => openFileArchiveLoop env password rest r.2 (calls ++ [(loader.2, file, password)])
      | some arch => (some arch, calls ++ [(loader.2, file, password)])

/-- `ISystem::openFileArchive(file, password)`. The condition of the first `if`
is `file->getFlags() & IFile::ECF_READ == 0`, in which `==` binds tighter than
`&`: the flags are and-ed with the truth value of `ECF_READ == 0`. -/
def openFileArchive_file [LT S] [DecidableRel (α := S) (· < ·)] (env : ISystemEnv S P)
    (m_loaders : Loaders S) (file : Nat) (password : List Nat) : OpenResult S :=
  if env.getFlags file &&& (if env.ECF_READ = 0 then 1 else 0) ≠ 0 then
    { archive := none, cacheCalls := [], loaderCalls := [] }
  else
    let ext := env.extension_wo_dot (env.getFileName file)
    let loaders := CMultiObjectCache.findRange m_loaders.perFileExt ext
    let r := openFileArchiveLoop env password
      (CMultiObjectCache.rangeEntries m_loaders.perFileExt loaders) (some file) []
    { archive := r.1, cacheCalls := [CacheEvent.base (BaseCall.findRange ext)],
      loaderCalls := r.2 }

/-- Rounds of the worker, one after the other. -/
def workerRounds (m_caller : ISystemCaller σ) : Nat → CAsyncQueue σ → Option (CAsyncQueue σ)
  | 0, q => some q
  | n + 1, q => (CAsyncQueue.workerStep m_caller q).bind fun q1 => workerRounds m_caller n q1

/-- The value of the last `notify_future` for `future` in a trace. -/
def lastNotified (future : Nat) : List DispatchEvent → Option FutureValue
  | [] => none
  | DispatchEvent.notify_future f v :: es =>
      match lastNotified future es with
      | some v1 => some v1
      | none => if f = future then some v else none
  | _ :: es => lastNotified future es

/-- Modelled from the spec: `Future::get()` of the absent base class, which
"blocks the calling thread until the state leaves Pending": meanwhile the
worker serves the requests pending, the last of which is the caller's; the
value is the one the future was resolved with. -/
def futureGet (m_caller : ISystemCaller σ) (m_dispatcher : CAsyncQueue σ) (future : Nat) :
    Option (FutureValue × CAsyncQueue σ) :=
  (workerRounds m_caller (m_dispatcher.head - m_dispatcher.tail) m_dispatcher).bind fun q =>
    (lastNotified future q.trace).map fun v => (v, q)

/-- `ISystem::openFileArchive(filename, password)`, the blocking overload;
`future` numbers its local future. `none` means the call is blocked. -/
def openFileArchive_filename [LT S] [DecidableRel (α := S) (· < ·)] (env : ISystemEnv S P)
    (m_caller : ISystemCaller σ) (m_loaders : Loaders S) (m_dispatcher : CAsyncQueue σ)
    (future : Nat) (filename : P) (password : List Nat) :
    Option (OpenResult S × CAsyncQueue σ) :=
  match createFile m_dispatcher future (env.string filename)
      (env.ECF_READ ||| env.ECF_MAPPABLE) with
  | none => none
  | some (false, q) => some ({ archive := none, cacheCalls := [], loaderCalls := [] }, q)
  | some (true, q1) =>
      match futureGet m_caller q1 future with
      | none => none
      | some (FutureValue.file (some file), q2) =>
          some (openFileArchive_file env m_loaders file password, q2)
      | some (_, q2) => some ({ archive := none, cacheCalls := [], loaderCalls := [] }, q2)

end ISystem

namespace ISystem

/-- A concrete environment, strings and paths being numbers. File 20 is
write-only, every other file read-only; the extension of a path is its last
digit. Loader 1 serves the extensions 0 and 3, loader 2 the extension 0.
Loader 1 takes the file handle and produces no archive; loader 2 produces the
archive numbered 500 above the file it is handed. `insert` leaves the handle
passed to it as it was. -/
def demoEnv : ISystemEnv Nat Nat where
  ECF_READ := 1
  ECF_MAPPABLE := 4
  getFlags := fun file => if file = 20 then 2 else 1
  getFileName := fun file => file + 100
  extension_wo_dot := fun p => p % 10
  absolute_generic := fun p => p + 1000
  asFile := fun archive => archive + 1
  getAssociatedFileExtensions := fun loader =>
    if loader = 1 then [0, 3] else if loader = 2 then [0] else []
  createArchive := fun loader file _ =>
    if loader = 1 then (none, none) else (file.map (fun f => f + 500), none)
  string := fun p => [p]
  empty := fun p => decide (p = 0)
  insertTakesHandle := false

/-- The loaders after `addArchiveLoader` of loader 2 alone. -/
def demoLoaders2 : Loaders Nat := { vector := [2], perFileExt := ⟨[(0, 2)]⟩ }

/-- The loaders after `addArchiveLoader` of loader 2 and then of loader 1. -/
def demoLoaders21 : Loaders Nat := { vector := [2, 1], perFileExt := ⟨[(0, 1), (0, 2), (3, 1)]⟩ }

end ISystem

/-! ## `nbl::video::ILogicalDevice`: queues and their offsets -/

/-- `ILogicalDevice::SQueueCreationParams`; `flags` and the `priorities`
pointer are numbers. `familyIndex` and `count` are `uint32_t`. -/
structure SQueueCreationParams where
  flags : Nat
  familyIndex : Nat
  count : Nat
  priorities : Nat
  deriving DecidableEq, Repr

/-- The members of `ILogicalDevice` the constructor fills: `m_queues`, an array
of queue handles (null is `none`), and `m_offsets`, an array of `uint32_t`. -/
structure ILogicalDevice where
  m_queues : List (Option Nat)
  m_offsets : List Nat
  deriving DecidableEq, Repr

namespace ILogicalDevice

/-- The first loop of the constructor over `params.queueCreateInfos`, from the
values of `qcnt` and `greatestFamNum` given; both are `uint32_t`. The result
is `(qcnt, greatestFamNum)`. -/
def countQueues : List SQueueCreationParams → Nat → Nat → Nat × Nat
  | [], qcnt, greatestFamNum => (qcnt, greatestFamNum)
  | qci :: rest, qcnt, greatestFamNum =>
      countQueues rest ((qcnt + qci.count) % 2 ^ 32) (max greatestFamNum qci.familyIndex)

/-- The second loop of the constructor: every entry whose family is not
`greatestFamNum` stores its count at `familyIndex + 1u`. `none` is a store
outside the array. -/
def assignCounts (greatestFamNum : Nat) : List SQueueCreationParams → List Nat → Option (List Nat)
  | [], m_offsets => some m_offsets
  | qci :: rest, m_offsets =>
      if qci.familyIndex = greatestFamNum then assignCounts greatestFamNum rest m_offsets
      else if (qci.familyIndex + 1) % 2 ^ 32 < m_offsets.length then
        assignCounts greatestFamNum rest
          (m_offsets.set ((qci.familyIndex + 1) % 2 ^ 32) qci.count)
      else none

/-- The third loop of the constructor, "compute prefix sum": for `i` from 1 up
to the size of the array, `m_offsets[i] += m_offsets[i - 1]` in `uint32_t`. -/
def prefixSum (m_offsets : List Nat) : List Nat :=
  (List.range' 1 (m_offsets.length - 1)).foldl
    (fun o i => o.set i ((o.getD i 0 + o.getD (i - 1) 0) % 2 ^ 32)) m_offsets

/-- The constructor `ILogicalDevice::ILogicalDevice` on
`params.queueCreateInfos` (`queueParamsCount` is the length of the list).
`m_queues` has `qcnt` null handles, `m_offsets` has `greatestFamNum + 1u`
zeros before the second loop. `none` is a store outside `m_offsets`. -/
def construct (queueCreateInfos : List SQueueCreationParams) : Option ILogicalDevice :=
  let c := countQueues queueCreateInfos 0 0
  let qcnt := c.1
  let greatestFamNum := c.2
  let m_queues : List (Option Nat) := List.replicate qcnt none
  let m_offsets := List.replicate ((greatestFamNum + 1) % 2 ^ 32) 0
  (assignCounts greatestFamNum queueCreateInfos m_offsets).map fun o =>
    { m_queues := m_queues, m_offsets := prefixSum o }

/-- `ILogicalDevice::getQueue(_familyIx, _ix)`: the index read in `m_queues`,
`offset + _ix` in `uint32_t`, and the handle found there. `none` is a read
outside `m_offsets` or outside `m_queues`. -/
def getQueue (self : ILogicalDevice) (_familyIx _ix : Nat) : Option (Nat × Option Nat) :=
  match self.m_offsets[_familyIx]? with
  | none => none
  | some offset =>
      match self.m_queues[(offset + _ix) % 2 ^ 32]? with
      | none => none
      | some queue => some ((offset + _ix) % 2 ^ 32, queue)

/-- The sum of the counts of the entries with family index below `f`. -/
def countBelow (queueCreateInfos : List SQueueCreationParams) (f : Nat) : Nat :=
  ((queueCreateInfos.filter fun qci => decide (qci.familyIndex < f)).map fun qci => qci.count).sum

/-- The sum of the counts of the entries with family index `f`. -/
def countAt (queueCreateInfos : List SQueueCreationParams) (f : Nat) : Nat :=
  ((queueCreateInfos.filter fun qci => decide (qci.familyIndex = f)).map fun qci => qci.count).sum

/-- Three families: family 0 with 2 queues, family 2 with 3, family 1 with 1. -/
def demoInfos : List SQueueCreationParams :=
  [⟨0, 0, 2, 0⟩, ⟨0, 2, 3, 0⟩, ⟨0, 1, 1, 0⟩]

end ILogicalDevice

/-! ## `nbl::video::IGPUDescriptorSet`

The header of the class, the layout and the pool are not among the sources.
What the functions of `IGPUDescriptorSet.cpp` use of them is taken as given:
the constants are the fields of `DescriptorEnv`, the accessors of a set are
fields of the set. A pointer into the descriptor storage or into the
mutable-sampler storage is the number of a slot, `none` is the null pointer; a
`smart_refctd_ptr` is `none` when null and `some` of its object otherwise. -/

/-- What ends a call that does not return normally: a failed `assert`, a member
call through a null pointer, a read past the end of the `info` array, the
overflow of a signed counter. -/
inductive Fault where
  | assertion
  | nullDereference
  | outOfBounds
  | signedOverflow
  deriving DecidableEq, Repr

/-- The messages handed to `m_pool->m_logger.log`, all at `ELL_ERROR`. `named`
tells which of the two formats is used, the one with the debug names or the
one without. -/
inductive LogMessage where
  | doesntAllowDescriptor (named : Bool) (set binding : Nat)
  | immutableSamplersFound (named : Bool) (set binding : Nat)
  | samplerNotCompatible (named : Bool) (sampler dstSet : Nat)
  | doesntAllowMutableSamplers (named : Bool) (set binding : Nat)
  | incompatibleCopy (named : Bool) (srcSet srcBinding dstSet dstBinding : Nat)
  deriving DecidableEq, Repr

/-- Whether a message is the "Incompatible copy ..." error. -/
def LogMessage.isIncompatibleCopy : LogMessage → Bool
  | LogMessage.incompatibleCopy _ _ _ _ _ => true
  | _ => false

/-- Whether a message is the "Sampler ... does not exist or is not
device-compatible ..." error. -/
def LogMessage.isSamplerNotCompatible : LogMessage → Bool
  | LogMessage.samplerNotCompatible _ _ _ => true
  | _ => false

/-- The declarations outside the class that the functions use:
`asset::IDescriptor::E_TYPE` (types are numbers below `ET_COUNT`), whether
`_NBL_DEBUG` is defined, `isCompatibleDevicewise` and `getDebugName` of a
sampler, and the effect of `incrementVersion()` on `m_version`. -/
structure DescriptorEnv where
  ET_COUNT : Nat
  ET_COMBINED_IMAGE_SAMPLER : Nat
  _NBL_DEBUG : Bool
  isCompatibleDevicewise : (sampler : Nat) → (dstSet : Nat) → Bool
  getSamplerDebugName : (sampler : Nat) → Option Nat
  incrementVersion : Nat → Nat

/-- A descriptor set: its address (`this`), `m_version`,
`m_storageOffsets.data`, the results of the accessors it inherits or declares
in its header, and the descriptor and mutable-sampler storage its pointers
point into. -/
structure IGPUDescriptorSet where
  address : Nat
  m_version : Nat
  m_storageOffsets : Nat → Nat
  getDebugName : Option Nat
  getTotalDescriptorCount : (type : Nat) → Nat
  getTotalMutableSamplerCount : Nat
  getImmutableSamplerCount : (binding : Nat) → Nat
  getAllDescriptors : (type : Nat) → Option Nat
  getAllMutableSamplers : Option Nat
  getDescriptors : (type : Nat) → (binding : Nat) → Option Nat
  getMutableSamplers : (binding : Nat) → Option Nat
  descriptors : Nat → Option Nat
  mutableSamplers : Nat → Option Nat

/-- `IGPUDescriptorSet::SDescriptorInfo`, as far as it is used: `desc` and
`info.image.sampler`. -/
structure SDescriptorInfo where
  desc : Option Nat
  sampler : Option Nat
  deriving DecidableEq, Repr

/-- `IGPUDescriptorSet::SWriteDescriptorSet`, as far as it is used. `info`
points to the elements listed; `count` is a `uint32_t`. -/
structure SWriteDescriptorSet where
  dstSet : Nat
  binding : Nat
  count : Nat
  descriptorType : Nat
  info : List SDescriptorInfo
  deriving DecidableEq, Repr

/-- `IGPUDescriptorSet::SCopyDescriptorSet`, as far as it is used. `srcSet` is
the set pointed to. -/
structure SCopyDescriptorSet where
  dstSet : Nat
  srcSet : IGPUDescriptorSet
  srcBinding : Nat
  dstBinding : Nat
  count : Nat

namespace IGPUDescriptorSet

/-- `std::uninitialized_default_construct_n(first, n)` on an array of
`smart_refctd_ptr`: the `n` slots from `first` on hold null. -/
def uninitialized_default_construct_n (storage : Nat → Option Nat) (first n : Nat) :
    Nat → Option Nat :=
  fun a => if first ≤ a ∧ a < first + n then none else storage a

/-- `std::copy_n(first, count, result)` from one storage into another, the
ranges not overlapping. -/
def copy_n (src : Nat → Option Nat) (first count : Nat) (dst : Nat → Option Nat)
    (result : Nat) : Nat → Option Nat :=
  fun a => if result ≤ a ∧ a < result + count then src (first + (a - result)) else dst a

/-- The `for` loop of the constructor over the descriptor types listed. -/
def constructLoop : List Nat → IGPUDescriptorSet → Except Fault IGPUDescriptorSet
  | [], self => Except.ok self
  | i :: rest, self =>
      if self.m_storageOffsets i = 4294967295 then constructLoop rest self
      else
        match self.getAllDescriptors i with
        | none => Except.error Fault.assertion
        | some descriptors =>
            constructLoop rest { self with
              descriptors := uninitialized_default_construct_n self.descriptors descriptors
                (self.getTotalDescriptorCount i) }

/-- The constructor `IGPUDescriptorSet::IGPUDescriptorSet`. `self` is the object
with its bases and members initialised from the arguments and its storage as
allocated; `m_version(0ull)` and the body follow. -/
def construct (env : DescriptorEnv) (self : IGPUDescriptorSet) :
    Except Fault IGPUDescriptorSet :=
  match constructLoop (List.range env.ET_COUNT) { self with m_version := 0 } with
  | Except.error f => Except.error f
  | Except.ok s =>
      let mutableSamplerCount := s.getTotalMutableSamplerCount
      if mutableSamplerCount > 0 then
        match s.getAllMutableSamplers with
        | none => Except.error Fault.assertion
        | some mutableSamplers =>
            Except.ok { s with
              mutableSamplers := uninitialized_default_construct_n s.mutableSamplers
                mutableSamplers mutableSamplerCount }
      else Except.ok s

/-- The `for` loop of the `_NBL_DEBUG` part of `validateWrite` over the indices
listed: the message logged when a sampler fails the test, `none` when all
pass. A null sampler makes the test `!sampler || ...` true, and the branch
starts with `sampler->getDebugName()`. -/
def validateWriteSamplers (env : DescriptorEnv) (self : IGPUDescriptorSet)
    (write : SWriteDescriptorSet) : List Nat → Except Fault (Option LogMessage)
  | [] => Except.ok none
  | i :: rest =>
      match write.info[i]? with
      | none => Except.error Fault.outOfBounds
      | some e =>
          match e.sampler with
          | none => Except.error Fault.nullDereference
          | some sampler =>
              if !env.isCompatibleDevicewise sampler write.dstSet then
                Except.ok (some (LogMessage.samplerNotCompatible
                  ((env.getSamplerDebugName sampler).isSome && self.getDebugName.isSome)
                  sampler write.dstSet))
              else validateWriteSamplers env self write rest

/-- `IGPUDescriptorSet::validateWrite(write)`: the result and the messages
logged. -/
def validateWrite (env : DescriptorEnv) (self : IGPUDescriptorSet) (write : SWriteDescriptorSet) :
    Except Fault (Bool × List LogMessage) :=
  if write.dstSet ≠ self.address then Except.error Fault.assertion
  else
    match self.getDescriptors write.descriptorType write.binding with
    | none =>
        Except.ok (false,
          [LogMessage.doesntAllowDescriptor self.getDebugName.isSome self.address write.binding])
    | some _ =>
        if write.descriptorType = env.ET_COMBINED_IMAGE_SAMPLER then
          match write.info[0]? with
          | none => Except.error Fault.outOfBounds
          | some first =>
              if first.sampler.isSome then
                let checkMutable : Except Fault (Bool × List LogMessage) :=
                  match self.getMutableSamplers write.binding with
                  | none =>
                      Except.ok (false,
                        [LogMessage.doesntAllowMutableSamplers self.getDebugName.isSome
                          self.address write.binding])
                  | some _ => Except.ok (true, [])
                if env._NBL_DEBUG then
                  if self.getImmutableSamplerCount write.binding ≠ 0 then
                    Except.ok (false,
                      [LogMessage.immutableSamplersFound self.getDebugName.isSome self.address
                        write.binding])
                  else
                    match validateWriteSamplers env self write (List.range write.count) with
                    | Except.error f => Except.error f
                    | Except.ok (some msg) => Except.ok (false, [msg])
                    | Except.ok none => checkMutable
                else checkMutable
              else Except.ok (true, [])
        else Except.ok (true, [])

/-- The `for` loop of `processWrite`, with `n` iterations left. The counter is
declared `auto j = 0`, an `int`, and compared with the `uint32_t` count as an
unsigned number; `++j` at `INT_MAX` overflows. -/
def processWriteLoop (write : SWriteDescriptorSet) (descriptors : Nat)
    (mutableSamplers : Option Nat) : Nat → Nat → IGPUDescriptorSet → Except Fault IGPUDescriptorSet
  | 0, _, self => Except.ok self
  | n + 1, j, self =>
      match write.info[j]? with
      | none => Except.error Fault.outOfBounds
      | some e =>
          let s1 : IGPUDescriptorSet := { self with
            descriptors := fun a => if a = descriptors + j then e.desc else self.descriptors a }
          let s2 : IGPUDescriptorSet :=
            match mutableSamplers with
            | none => s1
            | some p => { s1 with
                mutableSamplers := fun a =>
                  if a = p + j then e.sampler else s1.mutableSamplers a }
          if j = 2147483647 then Except.error Fault.signedOverflow
          else processWriteLoop write descriptors mutableSamplers n (j + 1) s2

/-- `IGPUDescriptorSet::processWrite(write)`. -/
def processWrite (env : DescriptorEnv) (self : IGPUDescriptorSet) (write : SWriteDescriptorSet) :
    Except Fault IGPUDescriptorSet :=
  if write.dstSet ≠ self.address then Except.error Fault.assertion
  else
    match self.getDescriptors write.descriptorType write.binding with
    | none => Except.error Fault.assertion
    | some descriptors =>
        let selected : Except Fault (Option Nat) :=
          if write.descriptorType = env.ET_COMBINED_IMAGE_SAMPLER then
            match write.info[0]? with
            | none => Except.error Fault.outOfBounds
            | some first =>
                if first.sampler.isSome then
                  match self.getMutableSamplers write.binding with
                  | none => Except.error Fault.assertion
                  | some p => Except.ok (some p)
                else Except.ok none
          else Except.ok none
        match selected with
        | Except.error f => Except.error f
        | Except.ok mutableSamplers =>
            match processWriteLoop write descriptors mutableSamplers write.count 0 self with
            | Except.error f => Except.error f
            | Except.ok s => Except.ok { s with m_version := env.incrementVersion s.m_version }

/-- The `for` loop of `validateCopy` over the descriptor types listed. -/
def validateCopyLoop (self : IGPUDescriptorSet) (copy : SCopyDescriptorSet) :
    List Nat → Bool × List LogMessage
  | [] => (true, [])
  | type :: rest =>
      let srcDescriptors := copy.srcSet.getDescriptors type copy.srcBinding
      let dstDescriptors := self.getDescriptors type copy.dstBinding
      let srcSamplers := copy.srcSet.getMutableSamplers copy.srcBinding
      let dstSamplers := self.getMutableSamplers copy.dstBinding
      if (srcDescriptors.isNone != dstDescriptors.isNone) ||
          (srcSamplers.isNone != dstSamplers.isNone) then
        (false, [LogMessage.incompatibleCopy
          (copy.srcSet.getDebugName.isSome && self.getDebugName.isSome)
          copy.srcSet.address copy.srcBinding copy.dstSet copy.dstBinding])
      else validateCopyLoop self copy rest

/-- `IGPUDescriptorSet::validateCopy(copy)`: the result and the messages
logged. -/
def validateCopy (env : DescriptorEnv) (self : IGPUDescriptorSet) (copy : SCopyDescriptorSet) :
    Except Fault (Bool × List LogMessage) :=
  if copy.dstSet ≠ self.address then Except.error Fault.assertion
  else Except.ok (validateCopyLoop self copy (List.range env.ET_COUNT))

/-- The `for` loop of `processCopy` over the descriptor types listed. -/
def processCopyLoop (copy : SCopyDescriptorSet) :
    List Nat → IGPUDescriptorSet → Except Fault IGPUDescriptorSet
  | [], self => Except.ok self
  | type :: rest, self =>
      let srcDescriptors := copy.srcSet.getDescriptors type copy.srcBinding
      let dstDescriptors := self.getDescriptors type copy.dstBinding
      if srcDescriptors.isNone != dstDescriptors.isNone then Except.error Fault.assertion
      else
        let srcSamplers := copy.srcSet.getMutableSamplers copy.srcBinding
        let dstSamplers := self.getMutableSamplers copy.dstBinding
        if srcSamplers.isNone != dstSamplers.isNone then Except.error Fault.assertion
        else
          let s1 : IGPUDescriptorSet :=
            match srcDescriptors, dstDescriptors with
            | some src, some dst => { self with
                descriptors := copy_n copy.srcSet.descriptors src copy.count self.descriptors dst }
            | _, _ => self
          let s2 : IGPUDescriptorSet :=
            match srcSamplers, dstSamplers with
            | some src, some dst => { s1 with
                mutableSamplers :=
                  copy_n copy.srcSet.mutableSamplers src copy.count s1.mutableSamplers dst }
            | _, _ => s1
          processCopyLoop copy rest s2

/-- `IGPUDescriptorSet::processCopy(copy)`. -/
def processCopy (env : DescriptorEnv) (self : IGPUDescriptorSet) (copy : SCopyDescriptorSet) :
    Except Fault IGPUDescriptorSet :=
  if copy.dstSet ≠ self.address then Except.error Fault.assertion
  else
    match processCopyLoop copy (List.range env.ET_COUNT) self with
    | Except.error f => Except.error f
    | Except.ok s => Except.ok { s with m_version := env.incrementVersion s.m_version }

/-- A concrete environment: three descriptor types, type 0 the combined image
sampler, a debug build; sampler 6 is of another device; `incrementVersion`
adds one. -/
def demoEnv : DescriptorEnv where
  ET_COUNT := 3
  ET_COMBINED_IMAGE_SAMPLER := 0
  _NBL_DEBUG := true
  isCompatibleDevicewise := fun sampler _ => decide (sampler ≠ 6)
  getSamplerDebugName := fun _ => none
  incrementVersion := fun v => v + 1

/-- A concrete set at address 100 with descriptors of type 0 (4 slots from slot
0, binding 0 at slot 0 and binding 1 at slot 2) and of type 2 (2 slots from
slot 4, binding 2), no descriptors of type 1, and 4 mutable samplers. Slot `a`
of either storage holds object `a + 50`. -/
def demoSet : IGPUDescriptorSet where
  address := 100
  m_version := 3
  m_storageOffsets := fun type => if type = 0 then 0 else if type = 2 then 4 else 4294967295
  getDebugName := none
  getTotalDescriptorCount := fun type => if type = 0 then 4 else if type = 2 then 2 else 0
  getTotalMutableSamplerCount := 4
  getImmutableSamplerCount := fun _ => 0
  getAllDescriptors := fun type => if type = 0 then some 0 else if type = 2 then some 4 else none
  getAllMutableSamplers := some 0
  getDescriptors := fun type binding =>
    if type = 0 ∧ binding = 0 then some 0
    else if type = 0 ∧ binding = 1 then some 2
    else if type = 2 ∧ binding = 2 then some 4
    else none
  getMutableSamplers := fun binding =>
    if binding = 0 then some 0 else if binding = 1 then some 2 else none
  descriptors := fun a => some (a + 50)
  mutableSamplers := fun a => some (a + 50)

end IGPUDescriptorSet

namespace IGPUDescriptorSet

/-- A write of two combined image samplers to binding 0 of `demoSet`. -/
def demoWrite : SWriteDescriptorSet :=
  ⟨100, 0, 2, 0, [⟨some 1, some 5⟩, ⟨some 2, some 7⟩]⟩

/-- The write `demoWrite` with a null sampler in its second info. -/
def demoWriteNullSampler : SWriteDescriptorSet :=
  ⟨100, 0, 2, 0, [⟨some 1, some 5⟩, ⟨some 2, none⟩]⟩

/-- The write `demoWrite` with sampler 6, of another device, in its second
info. -/
def demoWriteForeignSampler : SWriteDescriptorSet :=
  ⟨100, 0, 2, 0, [⟨some 1, some 5⟩, ⟨some 2, some 6⟩]⟩

/-- A copy within `demoSet` from binding 0 to binding 1, of two descriptors. -/
def demoCopy : SCopyDescriptorSet := ⟨100, demoSet, 0, 1, 2⟩

/-- A copy within `demoSet` from binding 0 (type 0, with mutable samplers) to
binding 2 (type 2, without). -/
def demoCopyIncompatible : SCopyDescriptorSet := ⟨100, demoSet, 0, 2, 1⟩

/-- The set `demoSet` with `2^31 + 1` descriptors of type 2. -/
def hugeSet : IGPUDescriptorSet :=
  { demoSet with
    getTotalDescriptorCount := fun type => if type = 2 then 2147483649 else 4 }

/-- A write of `2^31 + 1` descriptors of type 2 to binding 2 of `hugeSet`. -/
def hugeWrite : SWriteDescriptorSet :=
  ⟨100, 2, 2147483649, 2, List.replicate 2147483649 ⟨some 1, none⟩⟩

end IGPUDescriptorSet

/-! # Properties -/

section ConcurrentWrapper

open CMakeCacheConcurrent

variable {C K T R I RI : Type}

theorem FW_AtomicCounterBlock_eq (B : Int) (fuel : Nat) (c : Int) :
    FW_AtomicCounterBlock B fuel c = if c = 0 ∧ fuel ≠ 0 then some B else none := by
  induction fuel with
  | zero => simp [FW_AtomicCounterBlock]
  | succ n ih =>
      by_cases h : c = 0
      · simp [FW_AtomicCounterBlock, h]
      · simp [FW_AtomicCounterBlock, h, ih]

theorem lockWrite_eq (B : Int) (fuel : Nat) (self : CMakeCacheConcurrent C K T) :
    self.lockWrite B fuel =
      if self.ctr = 0 ∧ fuel ≠ 0 then
        some { self with ctr := B, trace := self.trace ++ [CacheEvent.lockWrite] }
      else none := by
  unfold CMakeCacheConcurrent.lockWrite
  rw [FW_AtomicCounterBlock_eq]
  split <;> simp

/-- C1: every mutating operation of the concurrent cache (`insert`,
`removeObject`, `swapObjectValue`, `getKeyRangeOrReserve`, `clear`), for every
base cache, every argument, every earlier trace and every counter value `c`,
returns once the lock is free (`c = 0`, with at least one acquisition attempt)
and then has appended to the trace exactly `lockWrite`, the same-named base
call with the same arguments, `unlockWrite`; its result is the base result, the
base state is the one the base call left, and the counter is `c` again. With
the lock not free the operation is still spinning (`none`). -/
theorem mutating_operations_hold_write_lock (ops : BaseCacheOps C K T R I RI) (B : Int)
    (fuel : Nat) (c : Int) (b : C) (tr : List (CacheEvent K T)) (k : K) (v o : T) :
    (CMakeCacheConcurrent.insert ops B fuel ⟨c, b, tr⟩ k v =
      if c = 0 ∧ fuel ≠ 0 then
        some ((ops.insert b k v).1, ⟨c, (ops.insert b k v).2,
          tr ++ [CacheEvent.lockWrite, CacheEvent.base (BaseCall.insert k v),
            CacheEvent.unlockWrite]⟩)
      else none) ∧
    (CMakeCacheConcurrent.removeObject ops B fuel ⟨c, b, tr⟩ v k =
      if c = 0 ∧ fuel ≠ 0 then
        some ((ops.removeObject b v k).1, ⟨c, (ops.removeObject b v k).2,
          tr ++ [CacheEvent.lockWrite, CacheEvent.base (BaseCall.removeObject v k),
            CacheEvent.unlockWrite]⟩)
      else none) ∧
    (CMakeCacheConcurrent.swapObjectValue ops B fuel ⟨c, b, tr⟩ k o v =
      if c = 0 ∧ fuel ≠ 0 then
        some ((ops.swapObjectValue b k o v).1, ⟨c, (ops.swapObjectValue b k o v).2,
          tr ++ [CacheEvent.lockWrite, CacheEvent.base (BaseCall.swapObjectValue k o v),
            CacheEvent.unlockWrite]⟩)
      else none) ∧
    (CMakeCacheConcurrent.getKeyRangeOrReserve ops B fuel ⟨c, b, tr⟩ k =
      if c = 0 ∧ fuel ≠ 0 then
        some ((ops.getKeyRangeOrReserve b k).1, ⟨c, (ops.getKeyRangeOrReserve b k).2,
          tr ++ [CacheEvent.lockWrite, CacheEvent.base (BaseCall.getKeyRangeOrReserve k),
            CacheEvent.unlockWrite]⟩)
      else none) ∧
    (CMakeCacheConcurrent.clear ops B fuel ⟨c, b, tr⟩ =
      if c = 0 ∧ fuel ≠ 0 then
        some ((), ⟨c, ops.clear b,
          tr ++ [CacheEvent.lockWrite, CacheEvent.base BaseCall.clear,
            CacheEvent.unlockWrite]⟩)
      else none) := by
  refine ⟨?_, ?_, ?_, ?_, ?_⟩
  all_goals
    simp only [CMakeCacheConcurrent.insert, CMakeCacheConcurrent.removeObject,
      CMakeCacheConcurrent.swapObjectValue, CMakeCacheConcurrent.getKeyRangeOrReserve,
      CMakeCacheConcurrent.clear, lockWrite_eq]
    by_cases h : c = 0 ∧ fuel ≠ 0
    · obtain ⟨h0, _⟩ := h
      subst h0
      simp [*, callMut, unlockWrite, FW_AtomicCounterUnBlock]
    · simp [h]

/-- C2: every read-only operation of the concurrent cache (`findRange`,
`getSize`, `contains`, `outputAll`, `findAndStoreRange`, and the accessors
`begin`, `end`, `cbegin`, `cend`, `crbegin`, `crend`), for every base cache,
every argument, every earlier trace and every counter value `c`, appends to
the trace exactly `lockRead`, the same-named base call, `unlockRead` (so no
`lockWrite`), returns the base result, leaves the base state as it was, and
leaves the counter at `c`. -/
theorem read_operations_hold_read_lock (ops : BaseCacheOps C K T R I RI) (c : Int) (b : C)
    (tr : List (CacheEvent K T)) (k : K) (v : T) (n : Nat) (out : List (K × T)) :
    (CMakeCacheConcurrent.findRange ops ⟨c, b, tr⟩ k =
      (ops.findRange b k, ⟨c, b, tr ++ [CacheEvent.lockRead,
        CacheEvent.base (BaseCall.findRange k), CacheEvent.unlockRead]⟩)) ∧
    (CMakeCacheConcurrent.getSize ops ⟨c, b, tr⟩ =
      (ops.getSize b, ⟨c, b, tr ++ [CacheEvent.lockRead,
        CacheEvent.base BaseCall.getSize, CacheEvent.unlockRead]⟩)) ∧
    (CMakeCacheConcurrent.contains ops ⟨c, b, tr⟩ v =
      (ops.contains b v, ⟨c, b, tr ++ [CacheEvent.lockRead,
        CacheEvent.base (BaseCall.contains v), CacheEvent.unlockRead]⟩)) ∧
    (CMakeCacheConcurrent.outputAll ops ⟨c, b, tr⟩ n out =
      (ops.outputAll b n out, ⟨c, b, tr ++ [CacheEvent.lockRead,
        CacheEvent.base (BaseCall.outputAll n out), CacheEvent.unlockRead]⟩)) ∧
    (CMakeCacheConcurrent.findAndStoreRange ops ⟨c, b, tr⟩ k n out =
      (ops.findAndStoreRange b k n out, ⟨c, b, tr ++ [CacheEvent.lockRead,
        CacheEvent.base (BaseCall.findAndStoreRange k n out), CacheEvent.unlockRead]⟩)) ∧
    (CMakeCacheConcurrent.begin_ ops ⟨c, b, tr⟩ =
      (ops.begin_ b, ⟨c, b, tr ++ [CacheEvent.lockRead,
        CacheEvent.base BaseCall.begin_, CacheEvent.unlockRead]⟩)) ∧
    (CMakeCacheConcurrent.end_ ops ⟨c, b, tr⟩ =
      (ops.end_ b, ⟨c, b, tr ++ [CacheEvent.lockRead,
        CacheEvent.base BaseCall.end_, CacheEvent.unlockRead]⟩)) ∧
    (CMakeCacheConcurrent.cbegin ops ⟨c, b, tr⟩ =
      (ops.cbegin b, ⟨c, b, tr ++ [CacheEvent.lockRead,
        CacheEvent.base BaseCall.cbegin, CacheEvent.unlockRead]⟩)) ∧
    (CMakeCacheConcurrent.cend ops ⟨c, b, tr⟩ =
      (ops.cend b, ⟨c, b, tr ++ [CacheEvent.lockRead,
        CacheEvent.base BaseCall.cend, CacheEvent.unlockRead]⟩)) ∧
    (CMakeCacheConcurrent.crbegin ops ⟨c, b, tr⟩ =
      (ops.crbegin b, ⟨c, b, tr ++ [CacheEvent.lockRead,
        CacheEvent.base BaseCall.crbegin, CacheEvent.unlockRead]⟩)) ∧
    (CMakeCacheConcurrent.crend ops ⟨c, b, tr⟩ =
      (ops.crend b, ⟨c, b, tr ++ [CacheEvent.lockRead,
        CacheEvent.base BaseCall.crend, CacheEvent.unlockRead]⟩)) := by
  refine ⟨?_, ?_, ?_, ?_, ?_, ?_, ?_, ?_, ?_, ?_, ?_⟩
  all_goals
    simp [CMakeCacheConcurrent.findRange, CMakeCacheConcurrent.getSize,
      CMakeCacheConcurrent.contains, CMakeCacheConcurrent.outputAll,
      CMakeCacheConcurrent.findAndStoreRange, CMakeCacheConcurrent.begin_,
      CMakeCacheConcurrent.end_, CMakeCacheConcurrent.cbegin, CMakeCacheConcurrent.cend,
      CMakeCacheConcurrent.crbegin, CMakeCacheConcurrent.crend, threadSafeRead, lockRead,
      unlockRead, callConst, FW_AtomicCounterIncr, FW_AtomicCounterDecr]

end ConcurrentWrapper

section Lock

open LockState

theorem LockState.wellFormed_init (B : Int) : LockState.wellFormed B LockState.init := by
  left
  simp [LockState.init]

theorem LockState.wellFormed_step (B : Int) (hB : B ≠ 0) (s s1 : LockState) (c : LockCall)
    (hs : LockState.wellFormed B s) (hstep : LockState.step B s c = some s1)
    (hguard : ∀ t, c = LockCall.lockRead t → s.ctr ≠ B) : LockState.wellFormed B s1 := by
  cases c with
  | lockRead t =>
      have hne := hguard t rfl
      simp only [LockState.step, Option.some.injEq] at hstep
      subst hstep
      rcases hs with ⟨hw, hc⟩ | ⟨w, _, _, hc⟩
      · left
        simp [hw, hc, FW_AtomicCounterIncr]
      · exact absurd hc hne
  | unlockRead t =>
      simp only [LockState.step] at hstep
      split at hstep
      · rename_i hmem
        simp only [Option.some.injEq] at hstep
        subst hstep
        rcases hs with ⟨hw, hc⟩ | ⟨w, _, hr, _⟩
        · left
          have hpos : 0 < s.readers.length := List.length_pos_of_mem hmem
          refine ⟨hw, ?_⟩
          simp only [FW_AtomicCounterDecr, hc, List.length_erase_of_mem hmem]
          omega
        · rw [hr] at hmem
          simp at hmem
      · simp at hstep
  | lockWrite t =>
      simp only [LockState.step, FW_AtomicCounterBlock] at hstep
      split at hstep
      · rename_i h0
        simp only [Option.map_some', Option.some.injEq] at hstep
        subst hstep
        rcases hs with ⟨hw, hc⟩ | ⟨w, _, _, hc⟩
        · right
          refine ⟨t, by simp [hw], ?_, rfl⟩
          rw [h0] at hc
          exact List.length_eq_zero.mp (by exact_mod_cast hc.symm)
        · exact absurd (hc.symm.trans h0) hB
      · simp at hstep
  | unlockWrite t =>
      simp only [LockState.step] at hstep
      split at hstep
      · rename_i hmem
        simp only [Option.some.injEq] at hstep
        subst hstep
        rcases hs with ⟨hw, _⟩ | ⟨w, hw, hr, _⟩
        · rw [hw] at hmem
          simp at hmem
        · left
          rw [hw] at hmem
          have htw : t = w := by simpa using hmem
          subst htw
          simp [hw, hr, FW_AtomicCounterUnBlock]
      · simp at hstep

theorem LockState.wellFormed_run (B : Int) (hB : B ≠ 0) (cs : List LockCall) :
    ∀ s s1 : LockState, LockState.wellFormed B s → LockState.run B s cs = some s1 →
      LockState.readsAvoidBlocked B s cs = true → LockState.wellFormed B s1 := by
  induction cs with
  | nil =>
      intro s s1 hs hrun _
      simp only [LockState.run, Option.some.injEq] at hrun
      exact hrun ▸ hs
  | cons c cs ih =>
      intro s s1 hs hrun hav
      simp only [LockState.run] at hrun
      cases hstep : LockState.step B s c with
      | none => simp [hstep] at hrun
      | some s2 =>
          simp only [hstep, Option.some_bind] at hrun
          simp only [LockState.readsAvoidBlocked, hstep, Bool.and_eq_true] at hav
          refine ih s2 s1 (LockState.wellFormed_step B hB s s2 c hs hstep ?_) hrun hav.2
          intro t ht
          subst ht
          simpa using hav.1

/-- C3 (as amended): in the interleaving of lock calls started from counter 0,
where a thread unlocks only what it holds, `lockWrite` succeeds only at
counter 0, and no `lockRead` is issued while the counter holds the sentinel
(`B ≠ 0`), every reachable state is exclusive: a writer inside has no reader
and no other writer inside with it. -/
theorem write_lock_excludes_when_reads_avoid_blocked (B : Int) (hB : B ≠ 0)
    (cs : List LockCall) (s : LockState)
    (hrun : LockState.run B LockState.init cs = some s)
    (hav : LockState.readsAvoidBlocked B LockState.init cs = true) :
    LockState.exclusive s := by
  have h := LockState.wellFormed_run B hB cs _ s (LockState.wellFormed_init B) hrun hav
  intro w hw
  rcases h with ⟨hnil, _⟩ | ⟨w1, hw1, hr, _⟩
  · rw [hnil] at hw
    simp at hw
  · refine ⟨hr, ?_⟩
    rw [hw1] at hw ⊢
    have : w = w1 := by simpa using hw
    rw [this]

/-- Witness for C3 (as amended): two readers, then a writer alone. -/
theorem write_lock_excludes_when_reads_avoid_blocked_witness :
    LockState.exclusive
      { ctr := -2147483648, readers := [], writers := [3] } :=
  write_lock_excludes_when_reads_avoid_blocked (-2147483648) (by decide)
    [LockCall.lockRead 1, LockCall.lockRead 2, LockCall.unlockRead 1, LockCall.unlockRead 2,
      LockCall.lockWrite 3]
    { ctr := -2147483648, readers := [], writers := [3] } (by decide) (by decide)

/-- C3 (counterexample): with `lockRead` a plain increment, thread 1 enters its
read section while thread 0 is between `lockWrite` and `unlockWrite`; the
reached state is not exclusive, and this holds for every sentinel value. -/
theorem reader_enters_while_writer_inside :
    (LockState.run (-2147483648) LockState.init [LockCall.lockWrite 0, LockCall.lockRead 1] =
        some { ctr := -2147483647, readers := [1], writers := [0] } ∧
      ¬ LockState.exclusive { ctr := -2147483647, readers := [1], writers := [0] }) ∧
    ¬ ∃ B : Int, ∀ cs s, LockState.run B LockState.init cs = some s → LockState.exclusive s := by
  refine ⟨⟨by decide, ?_⟩, ?_⟩
  · intro h
    have := (h 0 (by simp)).1
    simp at this
  · rintro ⟨B, h⟩
    have := (h [LockCall.lockWrite 0, LockCall.lockRead 1]
      { ctr := B + 1, readers := [1], writers := [0] }
      (by simp [LockState.run, LockState.step, LockState.init, FW_AtomicCounterBlock,
        FW_AtomicCounterIncr]) 0 (by simp)).1
    simp at this

/-- C4 (as amended): the counter starts at 0 and, in every state reached by an
interleaving of correctly paired lock calls in which no `lockRead` is issued
while the counter holds the sentinel (a negative `B`), the counter is the
sentinel exactly when a writer is inside and is otherwise the number of
readers inside, which is non-negative. -/
theorem counter_tells_holders_when_reads_avoid_blocked (B : Int) (hB : B < 0)
    (cs : List LockCall) (s : LockState)
    (hrun : LockState.run B LockState.init cs = some s)
    (hav : LockState.readsAvoidBlocked B LockState.init cs = true) :
    LockState.init.ctr = 0 ∧ LockState.counterTellsHolders B s ∧ (s.ctr = B ∨ 0 ≤ s.ctr) := by
  have h := LockState.wellFormed_run B (by omega) cs _ s (LockState.wellFormed_init B) hrun hav
  refine ⟨rfl, ?_, ?_⟩
  · rcases h with ⟨hnil, hc⟩ | ⟨w1, hw1, _, hc⟩
    · refine ⟨?_, fun _ => hc⟩
      have : s.ctr ≠ B := by omega
      simp [hnil, this]
    · refine ⟨?_, fun hne => absurd hc hne⟩
      simp [hw1, hc]
  · rcases h with ⟨_, hc⟩ | ⟨_, _, _, hc⟩
    · right
      omega
    · left
      exact hc

/-- Witness for C4 (as amended): two readers inside, counter 2. -/
theorem counter_tells_holders_when_reads_avoid_blocked_witness :
    LockState.init.ctr = 0 ∧
      LockState.counterTellsHolders (-2147483648) { ctr := 2, readers := [2, 1], writers := [] } ∧
      ((2 : Int) = -2147483648 ∨ (0 : Int) ≤ 2) :=
  counter_tells_holders_when_reads_avoid_blocked (-2147483648) (by decide)
    [LockCall.lockWrite 7, LockCall.unlockWrite 7, LockCall.lockRead 1, LockCall.lockRead 2]
    { ctr := 2, readers := [2, 1], writers := [] } (by decide) (by decide)

/-- C4 (counterexample): after thread 1 has entered its read section during the
write section of thread 0 and thread 0 has unlocked, the counter is 0 while one
reader is inside; the counter neither is the sentinel nor counts the readers. -/
theorem counter_zero_with_reader_inside :
    LockState.run (-2147483648) LockState.init
        [LockCall.lockWrite 0, LockCall.lockRead 1, LockCall.unlockWrite 0] =
        some { ctr := 0, readers := [1], writers := [] } ∧
      ¬ LockState.counterTellsHolders (-2147483648) { ctr := 0, readers := [1], writers := [] } := by
  refine ⟨by decide, ?_⟩
  intro h
  have := h.2 (by decide)
  simp at this

end Lock

section MultiCache

open CMultiObjectCache

variable {K T : Type}

theorem lowerBoundAux_eq_partitionPointAux [LT K] [DecidableRel (α := K) (· < ·)]
    (xs : List (K × T)) (k : K) (fuel : Nat) :
    ∀ lo hi, lowerBoundAux xs k fuel lo hi =
      partitionPointAux (fun e => decide (e.1 < k)) xs fuel lo hi := by
  induction fuel with
  | zero => intro lo hi; rfl
  | succ n ih =>
      intro lo hi
      simp only [lowerBoundAux, partitionPointAux, ih, decide_eq_true_eq]

theorem upperBoundAux_eq_partitionPointAux [LT K] [DecidableRel (α := K) (· < ·)]
    (xs : List (K × T)) (k : K) (fuel : Nat) :
    ∀ lo hi, upperBoundAux xs k fuel lo hi =
      partitionPointAux (fun e => !decide (k < e.1)) xs fuel lo hi := by
  induction fuel with
  | zero => intro lo hi; rfl
  | succ n ih =>
      intro lo hi
      simp only [upperBoundAux, partitionPointAux, ih]
      split
      · split
        · split <;> simp_all
        · rfl
      · rfl

/-- The binary search returns the boundary of a test that holds on an initial
part of the store and fails on the rest. -/
theorem partitionPointAux_spec (p : K × T → Bool) (xs : List (K × T))
    (hmono : ∀ (i j : Nat) (a b : K × T), i ≤ j → xs[i]? = some a → xs[j]? = some b →
      p b = true → p a = true)
    (fuel : Nat) :
    ∀ lo hi, lo ≤ hi → hi ≤ xs.length → hi - lo ≤ fuel →
      (∀ (i : Nat) (e : K × T), i < lo → xs[i]? = some e → p e = true) →
      (∀ (i : Nat) (e : K × T), hi ≤ i → xs[i]? = some e → p e = false) →
      lo ≤ partitionPointAux p xs fuel lo hi ∧ partitionPointAux p xs fuel lo hi ≤ hi ∧
        (∀ (i : Nat) (e : K × T), i < partitionPointAux p xs fuel lo hi → xs[i]? = some e →
          p e = true) ∧
        (∀ (i : Nat) (e : K × T), partitionPointAux p xs fuel lo hi ≤ i → xs[i]? = some e →
          p e = false) := by
  induction fuel with
  | zero =>
      intro lo hi hle _ hf hlo hhi
      have : hi = lo := by omega
      subst this
      exact ⟨le_refl _, le_refl _, hlo, hhi⟩
  | succ n ih =>
      intro lo hi hle hlen hf hlo hhi
      simp only [partitionPointAux]
      by_cases hlt : lo < hi
      · simp only [hlt, if_true]
        have hmid1 : lo ≤ lo + (hi - lo) / 2 := by omega
        have hmid2 : lo + (hi - lo) / 2 < hi := by omega
        have hmidlen : lo + (hi - lo) / 2 < xs.length := by omega
        rw [List.getElem?_eq_getElem hmidlen]
        simp only
        by_cases hp : p xs[lo + (hi - lo) / 2] = true
        · simp only [hp, if_true]
          have hrec := ih (lo + (hi - lo) / 2 + 1) hi (by omega) hlen (by omega)
            (fun i e hi1 he =>
              hmono i (lo + (hi - lo) / 2) e _ (by omega) he
                (List.getElem?_eq_getElem hmidlen) hp)
            hhi
          exact ⟨by omega, hrec.2.1, hrec.2.2.1, hrec.2.2.2⟩
        · have hp1 : p xs[lo + (hi - lo) / 2] = false := by simpa using hp
          simp only [hp1, Bool.false_eq_true, if_false]
          have hrec := ih lo (lo + (hi - lo) / 2) hmid1 (by omega) (by omega) hlo
            (fun i e hi1 he => by
              by_contra hpe
              exact hp (hmono (lo + (hi - lo) / 2) i _ e hi1
                (List.getElem?_eq_getElem hmidlen) he (by simpa using hpe)))
          exact ⟨hrec.1, by omega, hrec.2.2.1, hrec.2.2.2⟩
      · simp only [hlt, if_false]
        have : hi = lo := by omega
        subst this
        exact ⟨le_refl _, le_refl _, hlo, hhi⟩

theorem mem_take_index {α : Type} {xs : List α} {n : Nat} {e : α} (h : e ∈ xs.take n) :
    ∃ i : Nat, i < n ∧ xs[i]? = some e := by
  obtain ⟨i, hi⟩ := List.mem_iff_getElem?.mp h
  rw [List.getElem?_take] at hi
  by_cases hlt : i < n
  · exact ⟨i, hlt, by simpa [hlt] using hi⟩
  · simp [hlt] at hi

theorem mem_drop_index {α : Type} {xs : List α} {n : Nat} {e : α} (h : e ∈ xs.drop n) :
    ∃ i : Nat, n ≤ i ∧ xs[i]? = some e := by
  obtain ⟨i, hi⟩ := List.mem_iff_getElem?.mp h
  rw [List.getElem?_drop] at hi
  exact ⟨n + i, by omega, hi⟩

theorem sortedByKey_index [LinearOrder K] {self : CMultiObjectCache K T}
    (hs : sortedByKey self) (i j : Nat) (a b : K × T) (hij : i ≤ j)
    (ha : self.m_container[i]? = some a) (hb : self.m_container[j]? = some b) : a.1 ≤ b.1 := by
  rcases Nat.eq_or_lt_of_le hij with heq | hlt
  · subst heq
    rw [ha] at hb
    cases hb
    exact le_refl _
  · obtain ⟨hi, hai⟩ := List.getElem?_eq_some_iff.mp ha
    obtain ⟨hj, hbj⟩ := List.getElem?_eq_some_iff.mp hb
    have := (List.pairwise_iff_getElem.mp hs) i j hi hj hlt
    rw [hai, hbj] at this
    exact this

/-- On a sorted store the lower boundary of `k` splits the entries with a key
below `k` from the rest. -/
theorem lowerBound_spec [LinearOrder K] {self : CMultiObjectCache K T}
    (hs : sortedByKey self) (k : K) :
    lowerBound self.m_container k ≤ self.m_container.length ∧
      (∀ (i : Nat) (e : K × T), i < lowerBound self.m_container k →
        self.m_container[i]? = some e → e.1 < k) ∧
      (∀ (i : Nat) (e : K × T), lowerBound self.m_container k ≤ i →
        self.m_container[i]? = some e → k ≤ e.1) := by
  have h := partitionPointAux_spec (fun e => decide (e.1 < k)) self.m_container
    (fun i j a b hij ha hb hpb => by
      have hle := sortedByKey_index hs i j a b hij ha hb
      have hbk : b.1 < k := by simpa using hpb
      simpa using lt_of_le_of_lt hle hbk)
    self.m_container.length 0 self.m_container.length (Nat.zero_le _) (le_refl _) (by omega)
    (fun i e hi _ => absurd hi (Nat.not_lt_zero i))
    (fun i e hi he => by
      have := (List.getElem?_eq_some_iff.mp he).1
      omega)
  rw [← lowerBoundAux_eq_partitionPointAux] at h
  refine ⟨h.2.1, fun i e hi he => by simpa using h.2.2.1 i e hi he, fun i e hi he => ?_⟩
  have := h.2.2.2 i e hi he
  simpa using this

/-- On a sorted store the upper boundary of `k`, searched from the lower one,
splits the entries with a key up to `k` from those with a greater key. -/
theorem upperBound_spec [LinearOrder K] {self : CMultiObjectCache K T}
    (hs : sortedByKey self) (k : K) :
    lowerBound self.m_container k ≤
        upperBound self.m_container k (lowerBound self.m_container k) ∧
      upperBound self.m_container k (lowerBound self.m_container k) ≤ self.m_container.length ∧
      (∀ (i : Nat) (e : K × T),
        i < upperBound self.m_container k (lowerBound self.m_container k) →
        self.m_container[i]? = some e → e.1 ≤ k) ∧
      (∀ (i : Nat) (e : K × T),
        upperBound self.m_container k (lowerBound self.m_container k) ≤ i →
        self.m_container[i]? = some e → k < e.1) := by
  have hl := lowerBound_spec hs k
  have h := partitionPointAux_spec (fun e => !decide (k < e.1)) self.m_container
    (fun i j a b hij ha hb hpb => by
      have hle := sortedByKey_index hs i j a b hij ha hb
      have hbk : b.1 ≤ k := by simpa using hpb
      simpa using le_trans hle hbk)
    self.m_container.length (lowerBound self.m_container k) self.m_container.length
    hl.1 (le_refl _) (by omega)
    (fun i e hi he => by simpa using le_of_lt (hl.2.1 i e hi he))
    (fun i e hi he => by
      have := (List.getElem?_eq_some_iff.mp he).1
      omega)
  rw [← upperBoundAux_eq_partitionPointAux] at h
  refine ⟨h.1, h.2.1, fun i e hi he => by simpa using h.2.2.1 i e hi he, fun i e hi he => ?_⟩
  have := h.2.2.2 i e hi he
  simpa using this

/-- On a sorted store `findRange(k)` cuts the store in three: the entries with
a smaller key, the range, whose entries all have key `k`, and the entries with
a greater key. -/
theorem findRange_spec [LinearOrder K] {self : CMultiObjectCache K T}
    (hs : sortedByKey self) (k : K) :
    (findRange self k).1 ≤ (findRange self k).2 ∧
      (findRange self k).2 ≤ self.m_container.length ∧
      (∀ e ∈ self.m_container.take (findRange self k).1, e.1 < k) ∧
      (∀ e ∈ rangeEntries self (findRange self k), e.1 = k) ∧
      (∀ e ∈ self.m_container.drop (findRange self k).2, k < e.1) ∧
      self.m_container = self.m_container.take (findRange self k).1 ++
        rangeEntries self (findRange self k) ++ self.m_container.drop (findRange self k).2 := by
  have hl := lowerBound_spec hs k
  have hu := upperBound_spec hs k
  simp only [findRange, rangeEntries]
  refine ⟨hu.1, hu.2.1, ?_, ?_, ?_, ?_⟩
  · intro e he
    obtain ⟨i, hi, hie⟩ := mem_take_index he
    exact hl.2.1 i e hi hie
  · intro e he
    obtain ⟨j, hj, hje⟩ := mem_take_index he
    rw [List.getElem?_drop] at hje
    exact le_antisymm (hu.2.2.1 _ e (by omega) hje) (hl.2.2 _ e (by omega) hje)
  · intro e he
    obtain ⟨i, hi, hie⟩ := mem_drop_index he
    exact hu.2.2.2 i e hi hie
  · have h1 : List.drop (upperBound self.m_container k (lowerBound self.m_container k))
        self.m_container =
        List.drop (upperBound self.m_container k (lowerBound self.m_container k) -
          lowerBound self.m_container k) (List.drop (lowerBound self.m_container k)
            self.m_container) := by
      rw [List.drop_drop]
      congr 1
      omega
    rw [h1, List.append_assoc, List.take_append_drop, List.take_append_drop]

/-- On a sorted store the entries of `findRange(k)` are exactly the entries with
key `k`, in store order. -/
theorem rangeEntries_findRange [LinearOrder K] {self : CMultiObjectCache K T}
    (hs : sortedByKey self) (k : K) :
    rangeEntries self (findRange self k) =
      self.m_container.filter fun e => decide (e.1 = k) := by
  obtain ⟨_, _, h1, h2, h3, h4⟩ := findRange_spec hs k
  conv_rhs => rw [h4]
  rw [List.filter_append, List.filter_append]
  have e1 : List.filter (fun e => decide (e.1 = k))
      (self.m_container.take (findRange self k).1) = [] := by
    rw [List.filter_eq_nil_iff]
    intro a ha
    simpa using ne_of_lt (h1 a ha)
  have e2 : List.filter (fun e => decide (e.1 = k)) (rangeEntries self (findRange self k)) =
      rangeEntries self (findRange self k) := by
    rw [List.filter_eq_self]
    intro a ha
    simpa using h2 a ha
  have e3 : List.filter (fun e => decide (e.1 = k))
      (self.m_container.drop (findRange self k).2) = [] := by
    rw [List.filter_eq_nil_iff]
    intro a ha
    simpa using ne_of_gt (h3 a ha)
  rw [e1, e2, e3]
  simp

/-- `insert` keeps a sorted store sorted. -/
theorem insert_sortedByKey [LinearOrder K] {self : CMultiObjectCache K T}
    (hs : sortedByKey self) (k : K) (v : T) : sortedByKey (insert self k v).2 := by
  have hl := lowerBound_spec hs k
  simp only [sortedByKey, CMultiObjectCache.insert]
  rw [List.pairwise_append]
  refine ⟨hs.sublist (List.take_sublist _ _), ?_, ?_⟩
  · rw [List.pairwise_cons]
    refine ⟨?_, hs.sublist (List.drop_sublist _ _)⟩
    intro b hb
    obtain ⟨i, hi, hib⟩ := mem_drop_index hb
    exact hl.2.2 i b hi hib
  · intro a ha b hb
    obtain ⟨i, hi, hia⟩ := mem_take_index ha
    have hak : a.1 < k := hl.2.1 i a hi hia
    rcases List.mem_cons.mp hb with hbe | hbd
    · subst hbe
      exact le_of_lt hak
    · obtain ⟨j, hj, hjb⟩ := mem_drop_index hbd
      exact le_trans (le_of_lt hak) (hl.2.2 j b hj hjb)

/-- `removeObject` keeps a sorted store sorted. -/
theorem removeObject_sortedByKey [LinearOrder K] [DecidableEq T] {self : CMultiObjectCache K T}
    (hs : sortedByKey self) (v : T) (k : K) : sortedByKey (removeObject self v k).2 := by
  simp only [CMultiObjectCache.removeObject]
  split
  · exact hs.sublist (List.eraseIdx_sublist _ _)
  · exact hs

theorem applyUpdate_sortedByKey [LinearOrder K] [DecidableEq T] {self : CMultiObjectCache K T}
    (hs : sortedByKey self) (u : Update K T) : sortedByKey (applyUpdate self u) := by
  cases u with
  | insert k v => exact insert_sortedByKey hs k v
  | removeObject v k => exact removeObject_sortedByKey hs v k

theorem observe_sortedByKey [LinearOrder K] [DecidableEq T] (us : List (Update K T)) :
    ∀ self : CMultiObjectCache K T, sortedByKey self →
      ∀ c ∈ observe self us, sortedByKey c := by
  induction us with
  | nil => intro self _ c hc; simp [observe] at hc
  | cons u us ih =>
      intro self hs c hc
      simp only [observe, List.mem_cons] at hc
      rcases hc with rfl | hc
      · exact applyUpdate_sortedByKey hs u
      · exact ih _ (applyUpdate_sortedByKey hs u) c hc

theorem wrapper_applyUpdate_eq [LT K] [DecidableRel (α := K) (· < ·)] [DecidableEq T] (B : Int)
    (fuel : Nat) (b : CMultiObjectCache K T) (tr : List (CacheEvent K T)) (u : Update K T) :
    ∃ tr1, CMakeCacheConcurrent.applyUpdate B (fuel + 1) ⟨0, b, tr⟩ u =
      some ⟨0, applyUpdate b u, tr1⟩ := by
  cases u with
  | insert k v =>
      exact ⟨_, by
        simp [CMakeCacheConcurrent.applyUpdate, CMakeCacheConcurrent.insert, lockWrite_eq,
          CMakeCacheConcurrent.callMut, CMakeCacheConcurrent.unlockWrite,
          FW_AtomicCounterUnBlock, applyUpdate, ops]
        rfl⟩
  | removeObject v k =>
      exact ⟨_, by
        simp [CMakeCacheConcurrent.applyUpdate, CMakeCacheConcurrent.removeObject, lockWrite_eq,
          CMakeCacheConcurrent.callMut, CMakeCacheConcurrent.unlockWrite,
          FW_AtomicCounterUnBlock, applyUpdate, ops]
        rfl⟩

theorem wrapper_observe_eq [LT K] [DecidableRel (α := K) (· < ·)] [DecidableEq T] (B : Int)
    (fuel : Nat) (us : List (Update K T)) :
    ∀ (b : CMultiObjectCache K T) (tr : List (CacheEvent K T)),
      CMakeCacheConcurrent.observe B (fuel + 1) ⟨0, b, tr⟩ us = some (observe b us) := by
  induction us with
  | nil => intro b tr; rfl
  | cons u us ih =>
      intro b tr
      obtain ⟨tr1, h1⟩ := wrapper_applyUpdate_eq B fuel b tr u
      simp only [CMakeCacheConcurrent.observe, h1, Option.some_bind, ih, Option.map_some',
        observe]

/-- C5: for every finite sequence of `insert` and `removeObject` calls applied
to an initially empty multi-object cache, the backing store is sorted by key
after every call of the sequence; made through the concurrent wrapper (lock
free at the start, at least one acquisition attempt per call), the calls all
return and the base caches observed after each call are the same ones. -/
theorem store_sorted_after_every_update [LinearOrder K] [DecidableEq T]
    (us : List (Update K T)) :
    (∀ c ∈ observe (empty : CMultiObjectCache K T) us, sortedByKey c) ∧
      ∀ (B : Int) (fuel : Nat) (tr : List (CacheEvent K T)),
        CMakeCacheConcurrent.observe B (fuel + 1) ⟨0, empty, tr⟩ us =
          some (observe (empty : CMultiObjectCache K T) us) :=
  ⟨observe_sortedByKey us empty (by simp [sortedByKey, empty]),
    fun B fuel tr => wrapper_observe_eq B fuel us empty tr⟩

/-- Witness for C5: three inserts and a removal on natural-number keys. -/
theorem store_sorted_after_every_update_witness :
    (∀ c ∈ observe (empty : CMultiObjectCache Nat Nat)
        [Update.insert 5 50, Update.insert 2 20, Update.insert 5 51, Update.removeObject 50 5],
        sortedByKey c) ∧
      ∀ (B : Int) (fuel : Nat) (tr : List (CacheEvent Nat Nat)),
        CMakeCacheConcurrent.observe B (fuel + 1) ⟨0, empty, tr⟩
          [Update.insert 5 50, Update.insert 2 20, Update.insert 5 51,
            Update.removeObject 50 5] =
          some (observe (empty : CMultiObjectCache Nat Nat)
            [Update.insert 5 50, Update.insert 2 20, Update.insert 5 51,
              Update.removeObject 50 5]) :=
  store_sorted_after_every_update
    [Update.insert 5 50, Update.insert 2 20, Update.insert 5 51, Update.removeObject 50 5]

/-- A successful scan of the segment `E` that follows `L` stops on the first
entry of `E` whose value is `v`. -/
theorem scanRange_some [DecidableEq T] (v : T) (G : List (K × T)) :
    ∀ (E L : List (K × T)) (i : Nat),
      scanRange (L ++ E ++ G) v E.length L.length = some i →
      ∃ E1 e E2, E = E1 ++ e :: E2 ∧ e.2 = v ∧ (∀ a ∈ E1, a.2 ≠ v) ∧
        i = L.length + E1.length := by
  intro E
  induction E with
  | nil => intro L i h; simp [scanRange] at h
  | cons e E ih =>
      intro L i h
      have hget : (L ++ e :: E ++ G)[L.length]? = some e := by
        rw [List.append_assoc, List.getElem?_append_right (le_refl _)]
        simp
      simp only [List.length_cons, scanRange, hget] at h
      by_cases hev : e.2 = v
      · simp only [hev, if_true, Option.some.injEq] at h
        exact ⟨[], e, E, rfl, hev, by simp, by simp [h]⟩
      · simp only [hev, if_false] at h
        have h2 : scanRange ((L ++ [e]) ++ E ++ G) v E.length (L ++ [e]).length = some i := by
          simpa using h
        obtain ⟨E1, e1, E2, hE, he1, hE1, hi⟩ := ih (L ++ [e]) i h2
        refine ⟨e :: E1, e1, E2, by simp [hE], he1, ?_, ?_⟩
        · intro a ha
          rcases List.mem_cons.mp ha with rfl | ha
          · exact hev
          · exact hE1 a ha
        · simp only [List.length_append, List.length_singleton] at hi
          simp only [List.length_cons]
          omega

/-- A failed scan of the segment `E` means no entry of `E` has value `v`. -/
theorem scanRange_none [DecidableEq T] (v : T) (G : List (K × T)) :
    ∀ (E L : List (K × T)),
      scanRange (L ++ E ++ G) v E.length L.length = none → ∀ a ∈ E, a.2 ≠ v := by
  intro E
  induction E with
  | nil => intro L _ a ha; simp at ha
  | cons e E ih =>
      intro L h
      have hget : (L ++ e :: E ++ G)[L.length]? = some e := by
        rw [List.append_assoc, List.getElem?_append_right (le_refl _)]
        simp
      simp only [List.length_cons, scanRange, hget] at h
      by_cases hev : e.2 = v
      · simp [hev] at h
      · simp only [hev, if_false] at h
        have h2 : scanRange ((L ++ [e]) ++ E ++ G) v E.length (L ++ [e]).length = none := by
          simpa using h
        intro a ha
        rcases List.mem_cons.mp ha with rfl | ha
        · exact hev
        · exact ih (L ++ [e]) h2 a ha

/-- On a sorted store, the scan of `findRange(k)` for `v`, when it succeeds at
position `i`, has found the first entry `(k, v)` of the store. -/
theorem scan_findRange_some [LinearOrder K] [DecidableEq T] {self : CMultiObjectCache K T}
    (hs : sortedByKey self) (k : K) (v : T) (i : Nat)
    (h : scanRange self.m_container v ((findRange self k).2 - (findRange self k).1)
      (findRange self k).1 = some i) :
    ∃ P S, self.m_container = P ++ (k, v) :: S ∧ i = P.length ∧ (k, v) ∉ P := by
  obtain ⟨h12, h2len, hL, hE, _, hsplit⟩ := findRange_spec hs k
  have hlenL : (self.m_container.take (findRange self k).1).length = (findRange self k).1 := by
    rw [List.length_take]
    omega
  have hlenE : (rangeEntries self (findRange self k)).length =
      (findRange self k).2 - (findRange self k).1 := by
    simp only [rangeEntries, List.length_take, List.length_drop]
    omega
  have h1 : scanRange (self.m_container.take (findRange self k).1 ++
      rangeEntries self (findRange self k) ++ self.m_container.drop (findRange self k).2) v
      (rangeEntries self (findRange self k)).length
      (self.m_container.take (findRange self k).1).length = some i := by
    rw [hlenL, hlenE, ← hsplit]
    exact h
  obtain ⟨E1, e, E2, hEeq, hev, hE1, hi⟩ := scanRange_some v _ _ _ i h1
  have hek : e.1 = k := hE e (by rw [hEeq]; simp)
  have heq : e = (k, v) := Prod.ext hek hev
  subst heq
  refine ⟨self.m_container.take (findRange self k).1 ++ E1, E2 ++
    self.m_container.drop (findRange self k).2, ?_, by simp [hi], ?_⟩
  · conv_lhs => rw [hsplit, hEeq]
    simp
  · intro hmem
    rcases List.mem_append.mp hmem with hm | hm
    · exact absurd (hL _ hm) (lt_irrefl k)
    · exact hE1 _ hm rfl

/-- On a sorted store, the scan of `findRange(k)` for `v` fails only when the
store holds no entry `(k, v)`. -/
theorem scan_findRange_none [LinearOrder K] [DecidableEq T] {self : CMultiObjectCache K T}
    (hs : sortedByKey self) (k : K) (v : T)
    (h : scanRange self.m_container v ((findRange self k).2 - (findRange self k).1)
      (findRange self k).1 = none) :
    (k, v) ∉ self.m_container := by
  obtain ⟨h12, h2len, hL, hE, hG, hsplit⟩ := findRange_spec hs k
  have hlenL : (self.m_container.take (findRange self k).1).length = (findRange self k).1 := by
    rw [List.length_take]
    omega
  have hlenE : (rangeEntries self (findRange self k)).length =
      (findRange self k).2 - (findRange self k).1 := by
    simp only [rangeEntries, List.length_take, List.length_drop]
    omega
  have h1 : scanRange (self.m_container.take (findRange self k).1 ++
      rangeEntries self (findRange self k) ++ self.m_container.drop (findRange self k).2) v
      (rangeEntries self (findRange self k)).length
      (self.m_container.take (findRange self k).1).length = none := by
    rw [hlenL, hlenE, ← hsplit]
    exact h
  have hno := scanRange_none v _ _ _ h1
  intro hmem
  rw [hsplit] at hmem
  rcases List.mem_append.mp hmem with hm | hm
  · rcases List.mem_append.mp hm with hm | hm
    · exact absurd (hL _ hm) (lt_irrefl k)
    · exact hno _ hm rfl
  · exact absurd (hG _ hm) (lt_irrefl k)

/-- On a sorted store the values of `findRange(k)` are the values of the
entries with key `k`. -/
theorem rangeValues_findRange [LinearOrder K] {self : CMultiObjectCache K T}
    (hs : sortedByKey self) (k : K) :
    rangeValues self (findRange self k) =
      (self.m_container.filter fun e => decide (e.1 = k)).map Prod.snd := by
  rw [rangeValues, rangeEntries_findRange hs k]

theorem mem_rangeValues_findRange [LinearOrder K] {self : CMultiObjectCache K T}
    (hs : sortedByKey self) (k : K) (v : T) :
    v ∈ rangeValues self (findRange self k) ↔ (k, v) ∈ self.m_container := by
  rw [rangeValues_findRange hs k]
  simp only [List.mem_map, List.mem_filter, decide_eq_true_eq]
  constructor
  · rintro ⟨a, ⟨ha, hak⟩, hav⟩
    have : a = (k, v) := Prod.ext hak hav
    exact this ▸ ha
  · intro h
    exact ⟨(k, v), ⟨h, rfl⟩, rfl⟩

theorem mem_rangeValues_insert [LinearOrder K] {self : CMultiObjectCache K T}
    (hs : sortedByKey self) (k : K) (v : T) :
    v ∈ rangeValues (insert self k v).2 (findRange (insert self k v).2 k) := by
  rw [mem_rangeValues_findRange (insert_sortedByKey hs k v)]
  simp [CMultiObjectCache.insert]

theorem rangeValues_removeObject [LinearOrder K] [DecidableEq T] {self : CMultiObjectCache K T}
    (hs : sortedByKey self) (k : K) (v : T) :
    rangeValues (removeObject self v k).2 (findRange (removeObject self v k).2 k) =
      (rangeValues self (findRange self k)).erase v := by
  rw [rangeValues_findRange (removeObject_sortedByKey hs v k), rangeValues_findRange hs]
  cases hscan : scanRange self.m_container v ((findRange self k).2 - (findRange self k).1)
      (findRange self k).1 with
  | none =>
      have hno := scan_findRange_none hs k v hscan
      have hnv : v ∉ (self.m_container.filter fun e => decide (e.1 = k)).map Prod.snd := by
        rw [← rangeValues_findRange hs k, mem_rangeValues_findRange hs]
        exact hno
      simp only [CMultiObjectCache.removeObject, hscan]
      rw [List.erase_of_not_mem hnv]
  | some i =>
      obtain ⟨P, S, hxs, hi, hP⟩ := scan_findRange_some hs k v i hscan
      have hnv : v ∉ (P.filter fun e => decide (e.1 = k)).map Prod.snd := by
        simp only [List.mem_map, List.mem_filter, decide_eq_true_eq]
        rintro ⟨a, ⟨ha, hak⟩, hav⟩
        have : a = (k, v) := Prod.ext hak hav
        exact hP (this ▸ ha)
      simp only [CMultiObjectCache.removeObject, hscan]
      rw [hxs, hi, List.eraseIdx_append_of_length_le (le_refl _)]
      simp only [Nat.sub_self, List.eraseIdx_cons_zero, List.filter_append, List.map_append,
        List.filter_cons_of_pos (p := fun e : K × T => decide (e.1 = k)) (a := (k, v))
          (by simp), List.map_cons]
      rw [List.erase_append_right _ hnv, List.erase_cons_head]

theorem wrapper_insert_free [LT K] [DecidableRel (α := K) (· < ·)] [DecidableEq T] (B : Int)
    (fuel : Nat) (b : CMultiObjectCache K T) (tr : List (CacheEvent K T)) (k : K) (v : T) :
    ∃ tr1, CMakeCacheConcurrent.insert ops B (fuel + 1) ⟨0, b, tr⟩ k v =
      some ((insert b k v).1, ⟨0, (insert b k v).2, tr1⟩) :=
  ⟨_, by
    simp [CMakeCacheConcurrent.insert, lockWrite_eq, CMakeCacheConcurrent.callMut,
      CMakeCacheConcurrent.unlockWrite, FW_AtomicCounterUnBlock, ops]
    rfl⟩

theorem wrapper_removeObject_free [LT K] [DecidableRel (α := K) (· < ·)] [DecidableEq T] (B : Int)
    (fuel : Nat) (b : CMultiObjectCache K T) (tr : List (CacheEvent K T)) (v : T) (k : K) :
    ∃ tr1, CMakeCacheConcurrent.removeObject ops B (fuel + 1) ⟨0, b, tr⟩ v k =
      some ((removeObject b v k).1, ⟨0, (removeObject b v k).2, tr1⟩) :=
  ⟨_, by
    simp [CMakeCacheConcurrent.removeObject, lockWrite_eq, CMakeCacheConcurrent.callMut,
      CMakeCacheConcurrent.unlockWrite, FW_AtomicCounterUnBlock, ops]
    rfl⟩

theorem wrapper_swapObjectValue_free [LT K] [DecidableRel (α := K) (· < ·)] [DecidableEq T]
    (B : Int) (fuel : Nat) (b : CMultiObjectCache K T) (tr : List (CacheEvent K T)) (k : K)
    (o n : T) :
    ∃ tr1, CMakeCacheConcurrent.swapObjectValue ops B (fuel + 1) ⟨0, b, tr⟩ k o n =
      some ((swapObjectValue b k o n).1, ⟨0, (swapObjectValue b k o n).2, tr1⟩) :=
  ⟨_, by
    simp [CMakeCacheConcurrent.swapObjectValue, lockWrite_eq, CMakeCacheConcurrent.callMut,
      CMakeCacheConcurrent.unlockWrite, FW_AtomicCounterUnBlock, ops]
    rfl⟩

theorem wrapper_findRange_eq [LT K] [DecidableRel (α := K) (· < ·)] [DecidableEq T]
    (s : CMakeCacheConcurrent (CMultiObjectCache K T) K T) (k : K) :
    (CMakeCacheConcurrent.findRange ops s k).1 = findRange s.base k := by
  simp [CMakeCacheConcurrent.findRange, CMakeCacheConcurrent.lockRead, ops]

/-- C6 (as amended): for every sorted cache state, key `k` and value `v`, the
range returned by `findRange(k)` immediately after `insert(k, v)` contains `v`;
the range returned by `findRange(k)` immediately after `removeObject(v, k)`
holds the values it held before minus the first occurrence of `v`, so it does
not contain `v` when `v` was stored at most once under `k`. The same holds for
the calls made through the concurrent wrapper with the lock free. -/
theorem findRange_after_insert_and_removeObject [LinearOrder K] [DecidableEq T]
    (self : CMultiObjectCache K T) (hs : sortedByKey self) (k : K) (v : T) :
    v ∈ rangeValues (insert self k v).2 (findRange (insert self k v).2 k) ∧
      rangeValues (removeObject self v k).2 (findRange (removeObject self v k).2 k) =
        (rangeValues self (findRange self k)).erase v ∧
      ((rangeValues self (findRange self k)).count v ≤ 1 →
        v ∉ rangeValues (removeObject self v k).2 (findRange (removeObject self v k).2 k)) ∧
      ∀ (B : Int) (fuel : Nat) (tr : List (CacheEvent K T)),
        ∃ s1 s2,
          (CMakeCacheConcurrent.insert ops B (fuel + 1) ⟨0, self, tr⟩ k v).map Prod.snd =
            some s1 ∧
          v ∈ rangeValues s1.base (CMakeCacheConcurrent.findRange ops s1 k).1 ∧
          (CMakeCacheConcurrent.removeObject ops B (fuel + 1) ⟨0, self, tr⟩ v k).map Prod.snd =
            some s2 ∧
          rangeValues s2.base (CMakeCacheConcurrent.findRange ops s2 k).1 =
            (rangeValues self (findRange self k)).erase v := by
  refine ⟨mem_rangeValues_insert hs k v, rangeValues_removeObject hs k v, ?_, ?_⟩
  · intro hc
    rw [rangeValues_removeObject hs k v, ← List.count_eq_zero, List.count_erase_self]
    omega
  · intro B fuel tr
    obtain ⟨t1, h1⟩ := wrapper_insert_free B fuel self tr k v
    obtain ⟨t2, h2⟩ := wrapper_removeObject_free B fuel self tr v k
    refine ⟨_, _, by rw [h1]; rfl, ?_, by rw [h2]; rfl, ?_⟩
    · rw [wrapper_findRange_eq]
      exact mem_rangeValues_insert hs k v
    · rw [wrapper_findRange_eq]
      exact rangeValues_removeObject hs k v

/-- Witness for C6 (as amended): `demoCache`, key 3, value 30. -/
theorem findRange_after_insert_and_removeObject_witness :
    sortedByKey demoCache ∧
    ((30 : Nat) ∈ rangeValues (insert demoCache 3 30).2 (findRange (insert demoCache 3 30).2 3) ∧
      rangeValues (removeObject demoCache 30 3).2 (findRange (removeObject demoCache 30 3).2 3) =
        (rangeValues demoCache (findRange demoCache 3)).erase 30 ∧
      ((rangeValues demoCache (findRange demoCache 3)).count 30 ≤ 1 →
        (30 : Nat) ∉ rangeValues (removeObject demoCache 30 3).2
          (findRange (removeObject demoCache 30 3).2 3)) ∧
      ∀ (B : Int) (fuel : Nat) (tr : List (CacheEvent Nat Nat)),
        ∃ s1 s2,
          (CMakeCacheConcurrent.insert ops B (fuel + 1) ⟨0, demoCache, tr⟩ 3 30).map Prod.snd =
            some s1 ∧
          (30 : Nat) ∈ rangeValues s1.base (CMakeCacheConcurrent.findRange ops s1 3).1 ∧
          (CMakeCacheConcurrent.removeObject ops B (fuel + 1) ⟨0, demoCache, tr⟩ 30 3).map
            Prod.snd = some s2 ∧
          rangeValues s2.base (CMakeCacheConcurrent.findRange ops s2 3).1 =
            (rangeValues demoCache (findRange demoCache 3)).erase 30) :=
  ⟨by simp [sortedByKey, demoCache],
    findRange_after_insert_and_removeObject demoCache (by simp [sortedByKey, demoCache]) 3 30⟩

/-- C6 (counterexample): `insert(1, 7)` twice on the empty cache stores `7`
twice under key `1`; `removeObject(7, 1)` removes one of the two and reports
success, and `findRange(1)` immediately afterwards still contains `7`. -/
theorem findRange_still_contains_removed_value :
    (insert (insert (empty : CMultiObjectCache Nat Nat) 1 7).2 1 7).2 = ⟨[(1, 7), (1, 7)]⟩ ∧
      removeObject (⟨[(1, 7), (1, 7)]⟩ : CMultiObjectCache Nat Nat) 7 1 = (true, ⟨[(1, 7)]⟩) ∧
      findRange (⟨[(1, 7)]⟩ : CMultiObjectCache Nat Nat) 1 = (0, 1) ∧
      (7 : Nat) ∈ rangeValues (removeObject (⟨[(1, 7), (1, 7)]⟩ : CMultiObjectCache Nat Nat) 7 1).2
        (findRange (removeObject (⟨[(1, 7), (1, 7)]⟩ : CMultiObjectCache Nat Nat) 7 1).2 1) := by
  decide

theorem sortedByKey_replace [LinearOrder K] {P S : List (K × T)} {k : K} {o n : T}
    (h : (P ++ (k, o) :: S).Pairwise fun a b => a.1 ≤ b.1) :
    (P ++ (k, n) :: S).Pairwise fun a b => a.1 ≤ b.1 := by
  have h1 := (List.pairwise_map (f := Prod.fst) (R := fun a b : K => a ≤ b)).mpr h
  refine (List.pairwise_map (f := Prod.fst) (R := fun a b : K => a ≤ b)).mp ?_
  simpa using h1

/-- C7: for every sorted cache state, key `k`, old value `o` and new value
`n`: if `(k, o)` is stored, `swapObjectValue(k, o, n)` returns false, the store
is the old one with the first entry `(k, o)` replaced by `(k, n)`, so that the
values of `findRange(k)` are the old ones with that occurrence of `o` replaced
by `n`, `n` is among them, and the size is unchanged; if `(k, o)` is not
stored, the call returns true, leaves the store of `insert(k, n)`, whose
`findRange(k)` contains `n`, and the size has grown by one. The concurrent
wrapper, with the lock free, returns the base result and leaves the base
state. -/
theorem swapObjectValue_replaces_or_inserts [LinearOrder K] [DecidableEq T]
    (self : CMultiObjectCache K T) (hs : sortedByKey self) (k : K) (o n : T) :
    ((k, o) ∈ self.m_container →
        (swapObjectValue self k o n).1 = false ∧
        (∃ P S, (k, o) ∉ P ∧ self.m_container = P ++ (k, o) :: S ∧
          (swapObjectValue self k o n).2.m_container = P ++ (k, n) :: S) ∧
        (∃ A C, o ∉ A ∧ rangeValues self (findRange self k) = A ++ o :: C ∧
          rangeValues (swapObjectValue self k o n).2
            (findRange (swapObjectValue self k o n).2 k) = A ++ n :: C) ∧
        n ∈ rangeValues (swapObjectValue self k o n).2
          (findRange (swapObjectValue self k o n).2 k) ∧
        getSize (swapObjectValue self k o n).2 = getSize self) ∧
      ((k, o) ∉ self.m_container →
        (swapObjectValue self k o n).1 = true ∧
        (swapObjectValue self k o n).2 = (insert self k n).2 ∧
        n ∈ rangeValues (swapObjectValue self k o n).2
          (findRange (swapObjectValue self k o n).2 k) ∧
        getSize (swapObjectValue self k o n).2 = getSize self + 1) ∧
      ∀ (B : Int) (fuel : Nat) (tr : List (CacheEvent K T)),
        ∃ tr1, CMakeCacheConcurrent.swapObjectValue ops B (fuel + 1) ⟨0, self, tr⟩ k o n =
          some ((swapObjectValue self k o n).1, ⟨0, (swapObjectValue self k o n).2, tr1⟩) := by
  refine ⟨?_, ?_, fun B fuel tr => wrapper_swapObjectValue_free B fuel self tr k o n⟩
  · intro hmem
    cases hscan : scanRange self.m_container o ((findRange self k).2 - (findRange self k).1)
        (findRange self k).1 with
    | none => exact absurd hmem (scan_findRange_none hs k o hscan)
    | some i =>
        obtain ⟨P, S, hxs, hi, hP⟩ := scan_findRange_some hs k o i hscan
        have hnew : (swapObjectValue self k o n).2.m_container = P ++ (k, n) :: S := by
          simp only [CMultiObjectCache.swapObjectValue, hscan]
          rw [hxs, hi, List.set_append_right _ _ (le_refl _)]
          simp
        have hsorted : sortedByKey (swapObjectValue self k o n).2 := by
          rw [sortedByKey, hnew]
          have hs1 := hs
          rw [sortedByKey, hxs] at hs1
          exact sortedByKey_replace hs1
        have hA : o ∉ (P.filter fun e => decide (e.1 = k)).map Prod.snd := by
          simp only [List.mem_map, List.mem_filter, decide_eq_true_eq]
          rintro ⟨a, ⟨ha, hak⟩, hav⟩
          have : a = (k, o) := Prod.ext hak hav
          exact hP (this ▸ ha)
        have hvals : rangeValues (swapObjectValue self k o n).2
            (findRange (swapObjectValue self k o n).2 k) =
            (P.filter fun e => decide (e.1 = k)).map Prod.snd ++
              n :: (S.filter fun e => decide (e.1 = k)).map Prod.snd := by
          rw [rangeValues_findRange hsorted, hnew]
          simp
        refine ⟨by simp [CMultiObjectCache.swapObjectValue, hscan], ⟨P, S, hP, hxs, hnew⟩,
          ⟨_, _, hA, ?_, hvals⟩, ?_, ?_⟩
        · rw [rangeValues_findRange hs, hxs]
          simp
        · rw [hvals]
          simp
        · simp [getSize, hnew, hxs]
  · intro hmem
    cases hscan : scanRange self.m_container o ((findRange self k).2 - (findRange self k).1)
        (findRange self k).1 with
    | some i =>
        obtain ⟨P, S, hxs, _, _⟩ := scan_findRange_some hs k o i hscan
        exact absurd (by rw [hxs]; simp) hmem
    | none =>
        have heq : (swapObjectValue self k o n).2 = (insert self k n).2 := by
          simp [CMultiObjectCache.swapObjectValue, hscan]
        refine ⟨by simp [CMultiObjectCache.swapObjectValue, hscan], heq, ?_, ?_⟩
        · rw [heq]
          exact mem_rangeValues_insert hs k n
        · rw [heq]
          have := (lowerBound_spec hs k).1
          simp only [getSize, CMultiObjectCache.insert, List.length_append, List.length_take,
            List.length_cons, List.length_drop]
          omega

/-- Witness for C7: `demoCache`, swapping value 30 under key 3 for 99. -/
theorem swapObjectValue_replaces_or_inserts_witness :
    sortedByKey demoCache ∧
    ((((3 : Nat), (30 : Nat)) ∈ demoCache.m_container →
        (swapObjectValue demoCache 3 30 99).1 = false ∧
        (∃ P S, ((3 : Nat), (30 : Nat)) ∉ P ∧ demoCache.m_container = P ++ (3, 30) :: S ∧
          (swapObjectValue demoCache 3 30 99).2.m_container = P ++ (3, 99) :: S) ∧
        (∃ A C, (30 : Nat) ∉ A ∧ rangeValues demoCache (findRange demoCache 3) = A ++ 30 :: C ∧
          rangeValues (swapObjectValue demoCache 3 30 99).2
            (findRange (swapObjectValue demoCache 3 30 99).2 3) = A ++ 99 :: C) ∧
        (99 : Nat) ∈ rangeValues (swapObjectValue demoCache 3 30 99).2
          (findRange (swapObjectValue demoCache 3 30 99).2 3) ∧
        getSize (swapObjectValue demoCache 3 30 99).2 = getSize demoCache) ∧
      (((3 : Nat), (30 : Nat)) ∉ demoCache.m_container →
        (swapObjectValue demoCache 3 30 99).1 = true ∧
        (swapObjectValue demoCache 3 30 99).2 = (insert demoCache 3 99).2 ∧
        (99 : Nat) ∈ rangeValues (swapObjectValue demoCache 3 30 99).2
          (findRange (swapObjectValue demoCache 3 30 99).2 3) ∧
        getSize (swapObjectValue demoCache 3 30 99).2 = getSize demoCache + 1) ∧
      ∀ (B : Int) (fuel : Nat) (tr : List (CacheEvent Nat Nat)),
        ∃ tr1, CMakeCacheConcurrent.swapObjectValue ops B (fuel + 1) ⟨0, demoCache, tr⟩ 3 30 99 =
          some ((swapObjectValue demoCache 3 30 99).1,
            ⟨0, (swapObjectValue demoCache 3 30 99).2, tr1⟩)) :=
  ⟨by simp [sortedByKey, demoCache],
    swapObjectValue_replaces_or_inserts demoCache (by simp [sortedByKey, demoCache]) 3 30 99⟩

theorem take_succ_set {α : Type} (out : List α) (i : Nat) (e : α) (h : i < out.length) :
    (out.set i e).take (i + 1) = out.take i ++ [e] := by
  rw [List.take_succ, List.getElem?_set_self (by simpa using h)]
  congr 1
  apply List.ext_getElem?
  intro j
  rw [List.getElem?_take, List.getElem?_take]
  split
  · rw [List.getElem?_set_ne (by omega)]
  · rfl

/-- The copy loop started at position `i` writes the entries that fit to
`out[i ..]` and stops at the capacity. -/
theorem copyEntries_spec (capacity : Nat) :
    ∀ (es : List (K × T)) (i : Nat) (out : List (K × T)), i ≤ capacity →
      capacity ≤ out.length →
      copyEntries es i capacity out =
        (min (i + es.length) capacity,
          out.take i ++ es.take (capacity - i) ++ out.drop (min (i + es.length) capacity)) := by
  intro es
  induction es with
  | nil =>
      intro i out hi _
      simp [copyEntries, Nat.min_eq_left hi]
  | cons e es ih =>
      intro i out hi hcap
      by_cases hlt : i < capacity
      · have hset : capacity ≤ (out.set i e).length := by simpa using hcap
        simp only [copyEntries, hlt, if_true]
        rw [ih (i + 1) (out.set i e) hlt hset, take_succ_set out i e (by omega)]
        have hmin : min (i + 1 + es.length) capacity = min (i + (e :: es).length) capacity := by
          simp only [List.length_cons]
          congr 1
          omega
        have hdrop : List.drop (min (i + (e :: es).length) capacity) (out.set i e) =
            List.drop (min (i + (e :: es).length) capacity) out := by
          apply List.drop_set_of_lt
          simp only [List.length_cons]
          omega
        have htake : (e :: es).take (capacity - i) = e :: es.take (capacity - (i + 1)) := by
          have : capacity - i = (capacity - (i + 1)) + 1 := by omega
          rw [this, List.take_succ_cons]
        rw [hmin, hdrop, htake]
        simp
      · have hic : i = capacity := by omega
        subst hic
        simp [copyEntries]

/-- C8: for every cache holding `n` entries, every capacity `c` and every
caller buffer `out` of at least `c` slots, `outputAll(c, out)` returns
`min(n, c)`, leaves in `out[0 .. min(n, c))` the first `min(n, c)` entries of
the cache and the old content of `out` beyond, and reports `didFitAll = true`
exactly when `n <= c`; the concurrent wrapper returns exactly the base result
and leaves the base cache as it was. -/
theorem outputAll_copies_what_fits [LT K] [DecidableRel (α := K) (· < ·)] [DecidableEq T]
    (self : CMultiObjectCache K T) (c : Nat) (out : List (K × T)) (hout : c ≤ out.length) :
    (outputAll self c out).1 = min (getSize self) c ∧
      (outputAll self c out).2.1 =
        self.m_container.take (min (getSize self) c) ++ out.drop (min (getSize self) c) ∧
      ((outputAll self c out).2.1).length = out.length ∧
      ((outputAll self c out).2.2 = true ↔ getSize self ≤ c) ∧
      ∀ (ctr : Int) (tr : List (CacheEvent K T)),
        (CMakeCacheConcurrent.outputAll ops ⟨ctr, self, tr⟩ c out).1 = outputAll self c out ∧
        (CMakeCacheConcurrent.outputAll ops ⟨ctr, self, tr⟩ c out).2.base = self := by
  have h := copyEntries_spec c self.m_container 0 out (Nat.zero_le _) hout
  have hbuf : (outputAll self c out).2.1 =
      self.m_container.take (min (getSize self) c) ++ out.drop (min (getSize self) c) := by
    simp only [CMultiObjectCache.outputAll, h, getSize, Nat.zero_add, List.take_zero,
      List.nil_append, Nat.sub_zero]
    congr 1
    rw [List.take_eq_take]
    simp [Nat.min_comm]
  refine ⟨by simp [CMultiObjectCache.outputAll, h, getSize], hbuf, ?_,
    by simp [CMultiObjectCache.outputAll, getSize], fun ctr tr => ⟨?_, ?_⟩⟩
  · rw [hbuf]
    simp only [List.length_append, List.length_take, List.length_drop, getSize]
    omega
  · simp [CMakeCacheConcurrent.outputAll, CMakeCacheConcurrent.lockRead, ops]
  · simp [CMakeCacheConcurrent.outputAll, CMakeCacheConcurrent.lockRead,
      CMakeCacheConcurrent.callConst, CMakeCacheConcurrent.unlockRead]

/-- Witness for C8: `demoCache` (three entries), capacity two, a buffer of four
slots. -/
theorem outputAll_copies_what_fits_witness :
    (2 ≤ [(0, 0), (0, 0), (0, 0), (9, 9)].length) ∧
    ((outputAll demoCache 2 [(0, 0), (0, 0), (0, 0), (9, 9)]).1 = min (getSize demoCache) 2 ∧
      (outputAll demoCache 2 [(0, 0), (0, 0), (0, 0), (9, 9)]).2.1 =
        demoCache.m_container.take (min (getSize demoCache) 2) ++
          [(0, 0), (0, 0), (0, 0), (9, 9)].drop (min (getSize demoCache) 2) ∧
      ((outputAll demoCache 2 [(0, 0), (0, 0), (0, 0), (9, 9)]).2.1).length =
        [(0, 0), (0, 0), (0, 0), (9, 9)].length ∧
      ((outputAll demoCache 2 [(0, 0), (0, 0), (0, 0), (9, 9)]).2.2 = true ↔
        getSize demoCache ≤ 2) ∧
      ∀ (ctr : Int) (tr : List (CacheEvent Nat Nat)),
        (CMakeCacheConcurrent.outputAll ops ⟨ctr, demoCache, tr⟩ 2
            [(0, 0), (0, 0), (0, 0), (9, 9)]).1 =
          outputAll demoCache 2 [(0, 0), (0, 0), (0, 0), (9, 9)] ∧
        (CMakeCacheConcurrent.outputAll ops ⟨ctr, demoCache, tr⟩ 2
            [(0, 0), (0, 0), (0, 0), (9, 9)]).2.base = demoCache) :=
  ⟨by decide,
    outputAll_copies_what_fits demoCache 2 [(0, 0), (0, 0), (0, 0), (9, 9)] (by decide)⟩

end MultiCache

section Dispatch

open CAsyncQueue ISystem

variable {σ : Type}

/-- C9: for every request whose type tag is `ERT_CREATE_FILE`, `ERT_READ` or
`ERT_WRITE` and whose variant holds the parameters of that type,
`process_request` invokes exactly the matching caller operation on the
request's own parameters (`createFile(owner, filename, flags)`,
`read(file, buffer, offset, size)`, `write(file, buffer, offset, size)`) and no
other, and resolves the request's future with exactly the value that call
returned; the world is the one that call left. -/
theorem process_request_resolves_with_caller_result (m_caller : ISystemCaller σ)
    (self : CAsyncQueue σ) (future : Nat) (pc : SRequestParams_CREATE_FILE)
    (pr : SRequestParams_READ) (pw : SRequestParams_WRITE) :
    (process_request m_caller self
        ⟨future, E_REQUEST_TYPE.ERT_CREATE_FILE, RequestParams.CREATE_FILE pc⟩ =
      Except.ok { self with
        world := (m_caller.createFile self.world self.m_owner (c_str pc.filename) pc.flags).2,
        trace := self.trace ++
          [DispatchEvent.createFile self.m_owner (c_str pc.filename) pc.flags,
            DispatchEvent.notify_future future (FutureValue.file
              (m_caller.createFile self.world self.m_owner (c_str pc.filename) pc.flags).1)] }) ∧
    (process_request m_caller self ⟨future, E_REQUEST_TYPE.ERT_READ, RequestParams.READ pr⟩ =
      Except.ok { self with
        world := (m_caller.read self.world pr.file pr.buffer pr.offset pr.size).2,
        trace := self.trace ++
          [DispatchEvent.read pr.file pr.buffer pr.offset pr.size,
            DispatchEvent.notify_future future (FutureValue.size
              (m_caller.read self.world pr.file pr.buffer pr.offset pr.size).1)] }) ∧
    (process_request m_caller self ⟨future, E_REQUEST_TYPE.ERT_WRITE, RequestParams.WRITE pw⟩ =
      Except.ok { self with
        world := (m_caller.write self.world pw.file pw.buffer pw.offset pw.size).2,
        trace := self.trace ++
          [DispatchEvent.write pw.file pw.buffer pw.offset pw.size,
            DispatchEvent.notify_future future (FutureValue.size
              (m_caller.write self.world pw.file pw.buffer pw.offset pw.size).1)] }) :=
  ⟨rfl, rfl, rfl⟩

theorem mod_ne_of_lt_of_sub_lt {i j n : Nat} (hij : i < j) (hn : j - i < n) : i % n ≠ j % n := by
  intro h
  have h0 : (j - i) % n = 0 := Nat.sub_mod_eq_zero_of_mod_eq h.symm
  have hdvd : n ∣ j - i := Nat.dvd_of_mod_eq_zero h0
  have := Nat.le_of_dvd (by omega) hdvd
  omega

/-- The trace of `process_request` on a request as `request_impl` builds it. -/
theorem process_request_built (m_caller : ISystemCaller σ) (q : CAsyncQueue σ) (future : Nat)
    (p : RequestParams) :
    ∃ q1, process_request m_caller q ⟨future, p.type, p⟩ = Except.ok q1 ∧
      q1.cb = q.cb ∧ q1.head = q.head ∧ q1.tail = q.tail ∧ q1.m_owner = q.m_owner ∧
      ∃ v, q1.trace = q.trace ++ [callOf q.m_owner p, DispatchEvent.notify_future future v] := by
  cases p with
  | CREATE_FILE pc => exact ⟨_, rfl, rfl, rfl, rfl, rfl, _, rfl⟩
  | READ pr => exact ⟨_, rfl, rfl, rfl, rfl, rfl, _, rfl⟩
  | WRITE pw => exact ⟨_, rfl, rfl, rfl, rfl, rfl, _, rfl⟩

theorem isCall_callOf (m_owner : Nat) (p : RequestParams) :
    (callOf m_owner p).isCall = true := by
  cases p <;> rfl

theorem consistent_start (m_owner : Nat) (w : σ) :
    RunState.consistent m_owner (start m_owner w) := by
  refine ⟨?_, le_refl _, ?_, rfl, rfl, ?_, ?_⟩
  · simp only [start, CAsyncQueue.init, List.length_replicate, CircularBufferSize]
    omega
  · simp only [start, CAsyncQueue.init, List.length_replicate, CircularBufferSize]
    omega
  · intro i h1 h2
    simp only [start, CAsyncQueue.init] at h1 h2
    omega
  · simp [executed, start, CAsyncQueue.init]

/-- A successful `request` keeps the state consistent, the new request being
the last submitted. -/
theorem consistent_request (m_owner : Nat) (s : RunState σ) (future : Nat) (p : RequestParams)
    (q : CAsyncQueue σ) (hs : RunState.consistent m_owner s)
    (hq : s.m_dispatcher.request future p = some q) :
    RunState.consistent m_owner { m_dispatcher := q, submitted := s.submitted ++ [p] } := by
  obtain ⟨hlen, hth, hcap, hsub, hown, hslots, hexec⟩ := hs
  simp only [CAsyncQueue.request] at hq
  split at hq
  · rename_i hfree
    simp only [Option.some.injEq] at hq
    subst hq
    refine ⟨by simpa using hlen, by simp only; omega, by simp only [List.length_set]; omega,
      by simp [hsub], hown, ?_, ?_⟩
    · intro i h1 h2
      simp only [List.length_set] at h1 h2 ⊢
      by_cases hi : i = s.m_dispatcher.head
      · subst hi
        refine ⟨p, future, ?_, ?_⟩
        · rw [List.getElem?_append_right (by omega)]
          simp [hsub]
        · rw [List.getElem?_set_self (Nat.mod_lt _ hlen)]
          rfl
      · have hlt : i < s.m_dispatcher.head := by omega
        obtain ⟨p1, f1, hp1, hc1⟩ := hslots i h1 hlt
        refine ⟨p1, f1, ?_, ?_⟩
        · rw [List.getElem?_append_left (by omega)]
          exact hp1
        · rw [List.getElem?_set_ne]
          · exact hc1
          · exact (mod_ne_of_lt_of_sub_lt hlt (by omega)).symm
    · have : executed ({ m_dispatcher := { s.m_dispatcher with
          cb := s.m_dispatcher.cb.set (s.m_dispatcher.head % s.m_dispatcher.cb.length)
            (some (request_impl slotDefault future p)),
          head := s.m_dispatcher.head + 1 }, submitted := s.submitted ++ [p] } : RunState σ) =
          executed s := rfl
      rw [this, hexec]
      simp only
      rw [List.take_append_of_le_length (by omega)]
  · simp at hq

/-- With a request pending, a round of the worker completes, executes the
request at `tail` and keeps the state consistent. -/
theorem consistent_workerStep (m_caller : ISystemCaller σ) (m_owner : Nat) (s : RunState σ)
    (hs : RunState.consistent m_owner s) (hpending : s.m_dispatcher.tail < s.m_dispatcher.head) :
    ∃ q, CAsyncQueue.workerStep m_caller s.m_dispatcher = some q ∧
      RunState.consistent m_owner { s with m_dispatcher := q } ∧
      q.tail = s.m_dispatcher.tail + 1 ∧ q.head = s.m_dispatcher.head := by
  obtain ⟨hlen, hth, hcap, hsub, hown, hslots, hexec⟩ := hs
  obtain ⟨p, future, hp, hslot⟩ := hslots s.m_dispatcher.tail (le_refl _) hpending
  obtain ⟨q1, hq1, hcb, hhead, htail, hown1, v, htrace⟩ :=
    process_request_built m_caller s.m_dispatcher future p
  refine ⟨{ q1 with
      cb := q1.cb.set (s.m_dispatcher.tail % s.m_dispatcher.cb.length) none,
      tail := s.m_dispatcher.tail + 1 }, ?_, ?_, rfl, hhead⟩
  · simp only [CAsyncQueue.workerStep, hpending, if_true, hslot, hq1]
  · refine ⟨by simpa [hcb] using hlen, by simp only [hhead]; omega,
      by simp only [hhead, List.length_set, hcb]; omega, by simp only [hhead]; exact hsub,
      by simp only; rw [hown1, hown], ?_, ?_⟩
    · intro i h1 h2
      simp only [hhead, List.length_set, hcb] at h1 h2 ⊢
      obtain ⟨p1, f1, hp1, hc1⟩ := hslots i (by omega) h2
      refine ⟨p1, f1, hp1, ?_⟩
      rw [List.getElem?_set_ne]
      · exact hc1
      · exact mod_ne_of_lt_of_sub_lt (by omega) (by omega)
    · have hex : executed ({ s with m_dispatcher := { q1 with
          cb := q1.cb.set (s.m_dispatcher.tail % s.m_dispatcher.cb.length) none,
          tail := s.m_dispatcher.tail + 1 } } : RunState σ) =
          executed s ++ [callOf m_owner p] := by
        have h2 : List.filter DispatchEvent.isCall
            [callOf m_owner p, DispatchEvent.notify_future future v] = [callOf m_owner p] := by
          rw [List.filter_cons_of_pos (isCall_callOf _ _)]
          rfl
        simp only [executed, htrace, List.filter_append, hown, h2]
      rw [hex, hexec]
      simp only
      rw [List.take_succ, hp]
      simp

theorem consistent_step (m_caller : ISystemCaller σ) (m_owner : Nat) (s s1 : RunState σ)
    (e : Step) (hs : RunState.consistent m_owner s) (h : step m_caller s e = some s1) :
    RunState.consistent m_owner s1 := by
  cases e with
  | createFile future filename flags =>
      simp only [step, ISystem.createFile, Step.params] at h
      by_cases hlong : filename.length ≥ MAX_FILENAME_LENGTH
      · simp only [hlong, if_true, Option.map_some', Option.some.injEq] at h
        subst h
        simpa using hs
      · simp only [hlong, if_false, Option.map_map, Option.map_eq_some'] at h
        obtain ⟨q, hq, rfl⟩ := h
        exact consistent_request m_owner s future _ q hs hq
  | readFile future file buffer offset size =>
      simp only [step, ISystem.readFile, Step.params, Option.map_map, Option.map_eq_some'] at h
      obtain ⟨q, hq, rfl⟩ := h
      exact consistent_request m_owner s future _ q hs hq
  | writeFile future file buffer offset size =>
      simp only [step, ISystem.writeFile, Step.params, Option.map_map, Option.map_eq_some'] at h
      obtain ⟨q, hq, rfl⟩ := h
      exact consistent_request m_owner s future _ q hs hq
  | worker =>
      simp only [step, Option.map_eq_some'] at h
      obtain ⟨q, hq, rfl⟩ := h
      have hpending : s.m_dispatcher.tail < s.m_dispatcher.head := by
        by_contra hn
        simp [CAsyncQueue.workerStep, hn] at hq
      obtain ⟨q1, hq1, hc, _, _⟩ := consistent_workerStep m_caller m_owner s hs hpending
      rw [hq1] at hq
      cases hq
      exact hc

theorem consistent_run (m_caller : ISystemCaller σ) (m_owner : Nat) (es : List Step) :
    ∀ s s1 : RunState σ, RunState.consistent m_owner s → run m_caller s es = some s1 →
      RunState.consistent m_owner s1 := by
  induction es with
  | nil =>
      intro s s1 hs h
      simp only [run, Option.some.injEq] at h
      exact h ▸ hs
  | cons e es ih =>
      intro s s1 hs h
      simp only [run] at h
      cases hstep : step m_caller s e with
      | none => simp [hstep] at h
      | some s2 =>
          simp only [hstep, Option.some_bind] at h
          exact ih s2 s1 (consistent_step m_caller m_owner s s2 e hs hstep) h

/-- From a consistent state the worker alone, given as many rounds as there
are pending requests, completes them all. -/
theorem worker_drains (m_caller : ISystemCaller σ) (m_owner : Nat) (n : Nat) :
    ∀ s : RunState σ, RunState.consistent m_owner s →
      s.m_dispatcher.head - s.m_dispatcher.tail = n →
      ∃ s1, run m_caller s (List.replicate n Step.worker) = some s1 ∧
        RunState.consistent m_owner s1 ∧ s1.submitted = s.submitted ∧
        s1.m_dispatcher.tail = s1.m_dispatcher.head ∧
        s1.m_dispatcher.head = s.m_dispatcher.head := by
  induction n with
  | zero =>
      intro s hs hn
      exact ⟨s, rfl, hs, rfl, by have := hs.2.1; omega, rfl⟩
  | succ n ih =>
      intro s hs hn
      obtain ⟨q, hq, hc, ht, hh⟩ := consistent_workerStep m_caller m_owner s hs (by omega)
      obtain ⟨s1, hrun, hc1, hsub1, hdone, hhead⟩ := ih { s with m_dispatcher := q } hc
        (by simp only [ht, hh]; omega)
      refine ⟨s1, ?_, hc1, hsub1, hdone, by rw [hhead]; exact hh⟩
      simp only [List.replicate_succ, run, step, hq, Option.map_some', Option.some_bind]
      exact hrun

/-- C10: in every interleaving of submissions (`createFile`, `readFile`,
`writeFile` in any mix) and worker rounds on one dispatcher, the caller
operations executed so far are, in order, those of the first `tail`
submitted requests, so a request submitted earlier is executed earlier; and
the worker, given as many further rounds as requests are pending, executes
all the submitted requests, in submission order. -/
theorem requests_executed_in_submission_order (m_caller : ISystemCaller σ) (m_owner : Nat)
    (w : σ) (es : List Step) (s : RunState σ)
    (hrun : run m_caller (start m_owner w) es = some s) :
    executed s = (s.submitted.take s.m_dispatcher.tail).map (callOf m_owner) ∧
      s.m_dispatcher.tail ≤ s.submitted.length ∧
      ∃ s1, run m_caller s
          (List.replicate (s.submitted.length - s.m_dispatcher.tail) Step.worker) = some s1 ∧
        s1.submitted = s.submitted ∧
        executed s1 = s.submitted.map (callOf m_owner) := by
  have hs := consistent_run m_caller m_owner es _ s (consistent_start m_owner w) hrun
  have hsub := hs.2.2.2.1
  refine ⟨hs.2.2.2.2.2.2, by rw [hsub]; exact hs.2.1, ?_⟩
  obtain ⟨s1, h1, hc1, hsub1, hdone, _⟩ :=
    worker_drains m_caller m_owner (s.submitted.length - s.m_dispatcher.tail) s hs
      (by rw [hsub])
  refine ⟨s1, h1, hsub1, ?_⟩
  rw [hc1.2.2.2.2.2.2, hsub1, hdone, ← hc1.2.2.2.1, hsub1, List.take_length]

set_option maxRecDepth 100000 in
/-- Witness for C10: after `demoSteps` the one executed operation is that of
the first submitted request, and two more worker rounds execute all three in
submission order. -/
theorem requests_executed_in_submission_order_witness :
    run demoCaller (start 7 0) demoSteps = some demoFinal ∧
    (executed demoFinal =
        (demoFinal.submitted.take demoFinal.m_dispatcher.tail).map (callOf 7) ∧
      demoFinal.m_dispatcher.tail ≤ demoFinal.submitted.length ∧
      ∃ s1, run demoCaller demoFinal
          (List.replicate (demoFinal.submitted.length - demoFinal.m_dispatcher.tail)
            Step.worker) = some s1 ∧
        s1.submitted = demoFinal.submitted ∧
        executed s1 = demoFinal.submitted.map (callOf 7)) :=
  ⟨rfl, requests_executed_in_submission_order demoCaller 7 0 demoSteps demoFinal rfl⟩

end Dispatch

section Notifications

open CAsyncQueue ISystem

variable {σ : Type}

theorem notifications_append (a b : List DispatchEvent) :
    notifications (a ++ b) = notifications a ++ notifications b := by
  induction a with
  | nil => rfl
  | cons e a ih => cases e <;> simp [notifications, ih]

theorem notifications_round (m_owner : Nat) (p : RequestParams) (future : Nat)
    (v : FutureValue) :
    notifications [callOf m_owner p, DispatchEvent.notify_future future v] = [future] := by
  cases p <;> rfl

theorem tracked_start (m_owner : Nat) (w : σ) : RunState.tracked [] (start m_owner w) := by
  refine ⟨rfl, by simp, ?_, rfl⟩
  intro i h1 h2
  simp only [start, CAsyncQueue.init] at h1 h2
  omega

theorem tracked_length {R : List SRequestType} {s : RunState σ} {m_owner : Nat}
    (hc : RunState.consistent m_owner s) (ht : RunState.tracked R s) :
    R.length = s.m_dispatcher.head := by
  have h := congrArg List.length ht.1
  rw [List.length_map] at h
  rw [← h]
  exact hc.2.2.2.1

/-- A successful `request` adds the request `request_impl` builds at the end of
the tracked list. -/
theorem tracked_request (m_owner : Nat) (R : List SRequestType) (s : RunState σ) (future : Nat)
    (p : RequestParams) (q : CAsyncQueue σ) (hc : RunState.consistent m_owner s)
    (ht : RunState.tracked R s) (hq : s.m_dispatcher.request future p = some q) :
    RunState.tracked (R ++ [request_impl slotDefault future p])
      { m_dispatcher := q, submitted := s.submitted ++ [p] } := by
  have hRlen := tracked_length hc ht
  obtain ⟨hlen, hth, hcap, hsub, hown, _, _⟩ := hc
  obtain ⟨hsubR, htag, hslots, hnote⟩ := ht
  simp only [CAsyncQueue.request] at hq
  split at hq
  · rename_i hfree
    simp only [Option.some.injEq] at hq
    subst hq
    refine ⟨?_, ?_, ?_, ?_⟩
    · simp only [hsubR, List.map_append, List.map_cons, List.map_nil]
      rfl
    · intro r hr
      rcases List.mem_append.mp hr with h | h
      · exact htag r h
      · simp only [List.mem_singleton] at h
        subst h
        rfl
    · intro i h1 h2
      simp only [List.length_set] at h1 h2 ⊢
      by_cases hi : i = s.m_dispatcher.head
      · subst hi
        refine ⟨request_impl slotDefault future p, ?_, ?_⟩
        · rw [List.getElem?_append_right (by omega)]
          simp [hRlen]
        · rw [List.getElem?_set_self (Nat.mod_lt _ hlen)]
      · have hlt : i < s.m_dispatcher.head := by omega
        obtain ⟨r, hr, hcr⟩ := hslots i h1 hlt
        refine ⟨r, ?_, ?_⟩
        · rw [List.getElem?_append_left (by omega)]
          exact hr
        · rw [List.getElem?_set_ne]
          · exact hcr
          · exact (mod_ne_of_lt_of_sub_lt hlt (by omega)).symm
    · show notifications s.m_dispatcher.trace = _
      rw [hnote]
      simp only
      rw [List.take_append_of_le_length (by omega)]
  · simp at hq

/-- A completed round of the worker resolves the future of the request at
`tail` and nothing else. -/
theorem tracked_workerStep (m_caller : ISystemCaller σ) (m_owner : Nat) (R : List SRequestType)
    (s : RunState σ) (q : CAsyncQueue σ) (hc : RunState.consistent m_owner s)
    (ht : RunState.tracked R s) (hq : CAsyncQueue.workerStep m_caller s.m_dispatcher = some q) :
    RunState.tracked R { s with m_dispatcher := q } := by
  obtain ⟨hlen, hth, hcap, hsub, hown, _, _⟩ := hc
  obtain ⟨hsubR, htag, hslots, hnote⟩ := ht
  have hpending : s.m_dispatcher.tail < s.m_dispatcher.head := by
    by_contra hn
    simp [CAsyncQueue.workerStep, hn] at hq
  obtain ⟨r, hr, hslot⟩ := hslots s.m_dispatcher.tail (le_refl _) hpending
  have hrt : r = ⟨r.future, r.params.type, r.params⟩ := by
    have := htag r (List.getElem?_mem hr)
    cases r
    simp_all
  obtain ⟨q1, hq1, hcb, hhead, htail, hown1, v, htrace⟩ :=
    process_request_built m_caller s.m_dispatcher r.future r.params
  rw [← hrt] at hq1
  simp only [CAsyncQueue.workerStep, hpending, if_true, hslot, hq1, Option.some.injEq] at hq
  subst hq
  refine ⟨hsubR, htag, ?_, ?_⟩
  · intro i h1 h2
    simp only [hhead, List.length_set, hcb] at h1 h2 ⊢
    obtain ⟨r1, hr1, hc1⟩ := hslots i (by omega) h2
    refine ⟨r1, hr1, ?_⟩
    rw [List.getElem?_set_ne]
    · exact hc1
    · exact mod_ne_of_lt_of_sub_lt (by omega) (by omega)
  · show notifications q1.trace = _
    rw [htrace, notifications_append, notifications_round, hnote]
    simp only
    rw [List.take_succ, hr]
    simp

theorem tracked_step (m_caller : ISystemCaller σ) (m_owner : Nat) (R : List SRequestType)
    (s s1 : RunState σ) (e : Step) (hc : RunState.consistent m_owner s)
    (ht : RunState.tracked R s) (h : step m_caller s e = some s1) :
    RunState.tracked (R ++ (Step.request e).toList) s1 := by
  cases e with
  | createFile future filename flags =>
      simp only [step, ISystem.createFile, Step.params] at h
      by_cases hlong : filename.length ≥ MAX_FILENAME_LENGTH
      · simp only [hlong, if_true, Option.map_some', Option.some.injEq] at h
        subst h
        simpa [Step.request, Step.params, hlong] using ht
      · simp only [hlong, if_false, Option.map_map, Option.map_eq_some'] at h
        obtain ⟨q, hq, rfl⟩ := h
        simpa [Step.request, Step.params, hlong, Step.future] using
          tracked_request m_owner R s future _ q hc ht hq
  | readFile future file buffer offset size =>
      simp only [step, ISystem.readFile, Step.params, Option.map_map, Option.map_eq_some'] at h
      obtain ⟨q, hq, rfl⟩ := h
      simpa [Step.request, Step.params, Step.future] using
        tracked_request m_owner R s future _ q hc ht hq
  | writeFile future file buffer offset size =>
      simp only [step, ISystem.writeFile, Step.params, Option.map_map, Option.map_eq_some'] at h
      obtain ⟨q, hq, rfl⟩ := h
      simpa [Step.request, Step.params, Step.future] using
        tracked_request m_owner R s future _ q hc ht hq
  | worker =>
      simp only [step, Option.map_eq_some'] at h
      obtain ⟨q, hq, rfl⟩ := h
      simpa [Step.request, Step.params] using
        tracked_workerStep m_caller m_owner R s q hc ht hq

theorem tracked_run (m_caller : ISystemCaller σ) (m_owner : Nat) (es : List Step) :
    ∀ (R : List SRequestType) (s s1 : RunState σ), RunState.consistent m_owner s →
      RunState.tracked R s → run m_caller s es = some s1 →
      RunState.tracked (R ++ requestsOf es) s1 := by
  induction es with
  | nil =>
      intro R s s1 _ ht h
      simp only [run, Option.some.injEq] at h
      subst h
      simpa [requestsOf] using ht
  | cons e es ih =>
      intro R s s1 hc ht h
      simp only [run] at h
      cases hstep : step m_caller s e with
      | none => simp [hstep] at h
      | some s2 =>
          simp only [hstep, Option.some_bind] at h
          have h2 := ih (R ++ (Step.request e).toList) s2 s1
            (consistent_step m_caller m_owner s s2 e hc hstep)
            (tracked_step m_caller m_owner R s s2 e hc ht hstep) h
          have hsplit : requestsOf (e :: es) = (Step.request e).toList ++ requestsOf es := by
            simp only [requestsOf, List.filterMap_cons]
            cases Step.request e <;> simp
          rw [hsplit, ← List.append_assoc]
          exact h2

theorem count_take_of_nodup {L : List Nat} (hnd : L.Nodup) {i : Nat} {f : Nat}
    (hi : L[i]? = some f) (n : Nat) :
    (L.take n).count f = if i < n then 1 else 0 := by
  by_cases hlt : i < n
  · simp only [hlt, if_true]
    apply List.count_eq_one_of_mem (hnd.sublist (List.take_sublist _ _))
    apply List.getElem?_mem (n := i)
    rw [List.getElem?_take_of_lt hlt]
    exact hi
  · simp only [hlt, if_false]
    apply List.count_eq_zero_of_not_mem
    intro hmem
    obtain ⟨j, hj, hjf⟩ := mem_take_index hmem
    obtain ⟨hil, hie⟩ := List.getElem?_eq_some_iff.mp hi
    obtain ⟨hjl, hje⟩ := List.getElem?_eq_some_iff.mp hjf
    have : i = j := (@List.Nodup.getElem_inj_iff _ L hnd i hil j hjl).mp (by rw [hie, hje])
    omega

/-- C11: `process_request` on a request of any of the three types calls
`notify_future` exactly once, for that request's future. Along every
interleaving the futures resolved are, in order, those of the first `tail`
submitted requests, one `notify_future` per processed request; hence, the
requests having each its own future, the future of a processed request has
been resolved exactly once and that of a request still queued not at all. -/
theorem notify_future_once_per_request (m_caller : ISystemCaller σ) (m_owner : Nat) (w : σ)
    (es : List Step) (s : RunState σ) (hrun : run m_caller (start m_owner w) es = some s) :
    (∀ (q : CAsyncQueue σ) (future : Nat) (p : RequestParams),
        ∃ q1, process_request m_caller q ⟨future, p.type, p⟩ = Except.ok q1 ∧
          notifications q1.trace = notifications q.trace ++ [future]) ∧
      notifications s.m_dispatcher.trace =
        ((requestsOf es).take s.m_dispatcher.tail).map (fun r => r.future) ∧
      (((requestsOf es).map fun r => r.future).Nodup →
        ∀ (i : Nat) (r : SRequestType), (requestsOf es)[i]? = some r →
          (notifications s.m_dispatcher.trace).count r.future =
            if i < s.m_dispatcher.tail then 1 else 0) := by
  have ht := tracked_run m_caller m_owner es [] _ s (consistent_start m_owner w)
    (tracked_start m_owner w) hrun
  rw [List.nil_append] at ht
  refine ⟨?_, ht.2.2.2, ?_⟩
  · intro q future p
    obtain ⟨q1, hq1, _, _, _, _, v, htrace⟩ := process_request_built m_caller q future p
    exact ⟨q1, hq1, by rw [htrace, notifications_append, notifications_round]⟩
  · intro hnd i r hr
    rw [ht.2.2.2, List.map_take]
    exact count_take_of_nodup hnd (by rw [List.getElem?_map, hr]; rfl) _

set_option maxRecDepth 100000 in
/-- Witness for C11: after `demoSteps` (three requests with futures 1, 2, 3, one
worker round) future 1 has been resolved once, futures 2 and 3 not yet. -/
theorem notify_future_once_per_request_witness :
    run demoCaller (start 7 0) demoSteps = some demoFinal ∧
    ((∀ (q : CAsyncQueue Nat) (future : Nat) (p : RequestParams),
        ∃ q1, process_request demoCaller q ⟨future, p.type, p⟩ = Except.ok q1 ∧
          notifications q1.trace = notifications q.trace ++ [future]) ∧
      notifications demoFinal.m_dispatcher.trace =
        ((requestsOf demoSteps).take demoFinal.m_dispatcher.tail).map (fun r => r.future) ∧
      (((requestsOf demoSteps).map fun r => r.future).Nodup →
        ∀ (i : Nat) (r : SRequestType), (requestsOf demoSteps)[i]? = some r →
          (notifications demoFinal.m_dispatcher.trace).count r.future =
            if i < demoFinal.m_dispatcher.tail then 1 else 0)) :=
  ⟨rfl, notify_future_once_per_request demoCaller 7 0 demoSteps demoFinal rfl⟩

/-- C19: a request built by `request_impl` from a parameter struct carries the
tag of the alternative stored in its variant; on such a request
`process_request` does not throw and takes exactly the case of that
alternative (one caller operation, that of the parameters); and along every
interleaving of `createFile`, `readFile`, `writeFile` and worker rounds, the
worker, whenever a request is pending, completes its round, so no variant
access fails. -/
theorem request_impl_tag_matches_variant (m_caller : ISystemCaller σ) (m_owner : Nat) (w : σ)
    (es : List Step) (s : RunState σ) (hrun : run m_caller (start m_owner w) es = some s) :
    (∀ (req : SRequestType) (future : Nat) (params : RequestParams),
        (request_impl req future params).type = (request_impl req future params).params.type ∧
        (request_impl req future params).params = params) ∧
      (∀ (q : CAsyncQueue σ) (req : SRequestType) (future : Nat) (params : RequestParams),
        ∃ q1 v, process_request m_caller q (request_impl req future params) = Except.ok q1 ∧
          q1.trace = q.trace ++
            [callOf q.m_owner params, DispatchEvent.notify_future future v]) ∧
      (∀ r ∈ requestsOf es, r.type = r.params.type) ∧
      (s.m_dispatcher.tail < s.m_dispatcher.head →
        ∃ q, CAsyncQueue.workerStep m_caller s.m_dispatcher = some q) := by
  have hc := consistent_run m_caller m_owner es _ s (consistent_start m_owner w) hrun
  have ht := tracked_run m_caller m_owner es [] _ s (consistent_start m_owner w)
    (tracked_start m_owner w) hrun
  rw [List.nil_append] at ht
  refine ⟨fun _ _ _ => ⟨rfl, rfl⟩, ?_, ht.2.1, ?_⟩
  · intro q req future params
    obtain ⟨q1, hq1, _, _, _, _, v, htrace⟩ := process_request_built m_caller q future params
    exact ⟨q1, v, hq1, htrace⟩
  · intro hpending
    obtain ⟨q, hq, _⟩ := consistent_workerStep m_caller m_owner s hc hpending
    exact ⟨q, hq⟩

set_option maxRecDepth 100000 in
/-- Witness for C19: `demoSteps`, with two requests pending at the end. -/
theorem request_impl_tag_matches_variant_witness :
    run demoCaller (start 7 0) demoSteps = some demoFinal ∧
    ((∀ (req : SRequestType) (future : Nat) (params : RequestParams),
        (request_impl req future params).type = (request_impl req future params).params.type ∧
        (request_impl req future params).params = params) ∧
      (∀ (q : CAsyncQueue Nat) (req : SRequestType) (future : Nat) (params : RequestParams),
        ∃ q1 v, process_request demoCaller q (request_impl req future params) = Except.ok q1 ∧
          q1.trace = q.trace ++
            [callOf q.m_owner params, DispatchEvent.notify_future future v]) ∧
      (∀ r ∈ requestsOf demoSteps, r.type = r.params.type) ∧
      (demoFinal.m_dispatcher.tail < demoFinal.m_dispatcher.head →
        ∃ q, CAsyncQueue.workerStep demoCaller demoFinal.m_dispatcher = some q)) :=
  ⟨rfl, request_impl_tag_matches_variant demoCaller 7 0 demoSteps demoFinal rfl⟩

end Notifications

section Submission

open CAsyncQueue ISystem

variable {σ : Type}

theorem c_str_ne_nul (l : List Nat) : ∀ x ∈ c_str l, decide (x ≠ 0) = true := by
  intro x hx
  unfold c_str at hx
  exact List.mem_takeWhile_imp (p := fun ch => decide (ch ≠ 0)) hx

theorem c_str_length_le (l : List Nat) : (c_str l).length ≤ l.length :=
  (List.takeWhile_sublist _).length_le

theorem c_str_append_nul (l r : List Nat) (h : ∀ x ∈ l, decide (x ≠ 0) = true) :
    c_str (l ++ 0 :: r) = l := by
  unfold c_str
  rw [List.takeWhile_append_of_pos h, List.takeWhile_cons_of_neg (by simp)]
  simp

theorem c_str_of_no_nul (l : List Nat) (h : 0 ∉ l) : c_str l = l := by
  unfold c_str
  rw [List.takeWhile_eq_self_iff]
  intro x hx
  have : x ≠ 0 := fun h0 => h (h0 ▸ hx)
  simpa using this

/-- The buffer `createFile` fills for a name that fits: `MAX_FILENAME_LENGTH`
characters, starting with the string of the name and a NUL. -/
theorem createFileParams_filename (filename : List Nat) (flags : Nat)
    (hfit : filename.length < MAX_FILENAME_LENGTH) :
    (createFileParams filename flags).filename.length = MAX_FILENAME_LENGTH ∧
      (createFileParams filename flags).filename.take ((c_str filename).length + 1) =
        c_str filename ++ [0] ∧
      c_str (createFileParams filename flags).filename = c_str filename := by
  have hle := c_str_length_le filename
  refine ⟨?_, ?_, ?_⟩
  · simp only [createFileParams, strcpy, List.length_append, List.length_cons, List.length_drop,
      List.length_replicate]
    omega
  · simp only [createFileParams, strcpy]
    rw [List.take_append_eq_append_take]
    simp
  · simp only [createFileParams, strcpy]
    exact c_str_append_nul _ _ (c_str_ne_nul filename)

/-- With a name that fits and a free slot `createFile` fills the slot at `head`
and returns true. -/
theorem createFile_of_fit (m_dispatcher : CAsyncQueue σ) (future : Nat) (filename : List Nat)
    (flags : Nat) (hfit : filename.length < MAX_FILENAME_LENGTH)
    (hfree : m_dispatcher.head - m_dispatcher.tail < m_dispatcher.cb.length) :
    ISystem.createFile m_dispatcher future filename flags =
      some (true, { m_dispatcher with
        cb := m_dispatcher.cb.set (m_dispatcher.head % m_dispatcher.cb.length)
          (some ⟨future, E_REQUEST_TYPE.ERT_CREATE_FILE,
            RequestParams.CREATE_FILE (createFileParams filename flags)⟩),
        head := m_dispatcher.head + 1 }) := by
  have hnot : ¬ filename.length ≥ MAX_FILENAME_LENGTH := by omega
  simp only [ISystem.createFile, hnot, if_false, CAsyncQueue.request, hfree, if_true,
    Option.map_some']
  rfl

/-- C18 (as amended): `createFile` returns false and leaves the dispatcher as it
was when the filename string has at least `MAX_FILENAME_LENGTH` (4096)
characters, and returns false in no other case; for a shorter filename and a
free slot it returns true and has submitted exactly one request, of type
`ERT_CREATE_FILE`, whose flags are the argument and whose 4096-character
buffer starts with the name up to its first NUL character followed by a NUL,
which is the whole name followed by a NUL when the name holds no NUL. -/
theorem createFile_checks_length_and_copies_name (m_dispatcher : CAsyncQueue σ) (future : Nat)
    (filename : List Nat) (flags : Nat) :
    (MAX_FILENAME_LENGTH ≤ filename.length →
        ISystem.createFile m_dispatcher future filename flags = some (false, m_dispatcher)) ∧
      (filename.length < MAX_FILENAME_LENGTH →
        m_dispatcher.head - m_dispatcher.tail < m_dispatcher.cb.length →
        ISystem.createFile m_dispatcher future filename flags =
          some (true, { m_dispatcher with
            cb := m_dispatcher.cb.set (m_dispatcher.head % m_dispatcher.cb.length)
              (some ⟨future, E_REQUEST_TYPE.ERT_CREATE_FILE,
                RequestParams.CREATE_FILE (createFileParams filename flags)⟩),
            head := m_dispatcher.head + 1 })) ∧
      (∀ r, ISystem.createFile m_dispatcher future filename flags = some r →
        (r.1 = false ↔ MAX_FILENAME_LENGTH ≤ filename.length)) ∧
      (filename.length < MAX_FILENAME_LENGTH →
        (createFileParams filename flags).flags = flags ∧
        (createFileParams filename flags).filename.length = MAX_FILENAME_LENGTH ∧
        (createFileParams filename flags).filename.take ((c_str filename).length + 1) =
          c_str filename ++ [0] ∧
        c_str (createFileParams filename flags).filename = c_str filename) ∧
      (0 ∉ filename → c_str filename = filename) := by
  refine ⟨?_, ?_, ?_, ?_, c_str_of_no_nul filename⟩
  · intro hlong
    simp [ISystem.createFile, hlong]
  · exact createFile_of_fit m_dispatcher future filename flags
  · intro r hr
    by_cases hlong : filename.length ≥ MAX_FILENAME_LENGTH
    · simp only [ISystem.createFile, hlong, if_true, Option.some.injEq] at hr
      subst hr
      simpa using hlong
    · simp only [ISystem.createFile, hlong, if_false, Option.map_eq_some'] at hr
      obtain ⟨q, _, rfl⟩ := hr
      simp only [Bool.true_eq_false, false_iff, not_le]
      omega
  · intro hfit
    exact ⟨rfl, createFileParams_filename filename flags hfit⟩

/-- Witness for C18 (as amended): the name "ab" with flags 5 on the dispatcher
as constructed. -/
theorem createFile_checks_length_and_copies_name_witness :
    ([97, 98].length < MAX_FILENAME_LENGTH) ∧ (0 ∉ [97, 98]) ∧
    ISystem.createFile (CAsyncQueue.init CircularBufferSize 7 (0 : Nat)) 1 [97, 98] 5 =
      some (true, { CAsyncQueue.init CircularBufferSize 7 (0 : Nat) with
        cb := (CAsyncQueue.init CircularBufferSize 7 (0 : Nat)).cb.set
          ((CAsyncQueue.init CircularBufferSize 7 (0 : Nat)).head %
            (CAsyncQueue.init CircularBufferSize 7 (0 : Nat)).cb.length)
          (some ⟨1, E_REQUEST_TYPE.ERT_CREATE_FILE,
            RequestParams.CREATE_FILE (createFileParams [97, 98] 5)⟩),
        head := (CAsyncQueue.init CircularBufferSize 7 (0 : Nat)).head + 1 }) ∧
    ((createFileParams [97, 98] 5).flags = 5 ∧
      (createFileParams [97, 98] 5).filename.length = MAX_FILENAME_LENGTH ∧
      (createFileParams [97, 98] 5).filename.take ((c_str [97, 98]).length + 1) =
        c_str [97, 98] ++ [0] ∧
      c_str (createFileParams [97, 98] 5).filename = c_str [97, 98]) ∧
    c_str [97, 98] = [97, 98] :=
  ⟨by decide, by decide,
    (createFile_checks_length_and_copies_name (CAsyncQueue.init CircularBufferSize 7 (0 : Nat)) 1
      [97, 98] 5).2.1 (by decide) (by
        simp only [CAsyncQueue.init, List.length_replicate, CircularBufferSize]
        omega),
    (createFile_checks_length_and_copies_name (CAsyncQueue.init CircularBufferSize 7 (0 : Nat)) 1
      [97, 98] 5).2.2.2.1 (by decide),
    (createFile_checks_length_and_copies_name (CAsyncQueue.init CircularBufferSize 7 (0 : Nat)) 1
      [97, 98] 5).2.2.2.2 (by decide)⟩

/-- C18 (counterexample): the three-character name `a`, NUL, `b` is shorter
than 4096, `createFile` submits its request and returns true, and the buffer
of the request holds `a` followed by NULs: not the name followed by a NUL. -/
theorem createFile_truncates_name_at_nul :
    ([97, 0, 98].length < MAX_FILENAME_LENGTH) ∧
      (ISystem.createFile (CAsyncQueue.init CircularBufferSize 7 (0 : Nat)) 1 [97, 0, 98] 5).map
        Prod.fst = some true ∧
      (createFileParams [97, 0, 98] 5).filename.take 4 = [97, 0, 0, 0] ∧
      (createFileParams [97, 0, 98] 5).filename.take 4 ≠ [97, 0, 98] ++ [0] ∧
      c_str (createFileParams [97, 0, 98] 5).filename = [97] := by
  refine ⟨by decide, ?_, by decide, by decide, by decide⟩
  rw [createFile_of_fit _ _ _ _ (by decide) (by
    simp only [CAsyncQueue.init, List.length_replicate, CircularBufferSize]
    omega)]
  rfl

end Submission

section Cancellation

open CancellableRequestQueue ISystem

variable {σ : Type}

/-- C12 (as amended): after `cancelAll()` the flag is set, every request still
queued whose future was Pending has its future Cancelled, the worker dequeues
nothing, and every `request` made afterwards fails immediately: nothing is
enqueued and the caller is not blocked. `ISystem::readFile` and `writeFile`
nevertheless return true to their caller, and `createFile` returns true unless
the filename is too long, since none of them looks at the outcome of
`request`. -/
theorem cancelAll_cancels_queued_and_refuses_requests (m_caller : ISystemCaller σ)
    (d : CancellableRequestQueue σ) :
    (cancelAll d).cancelled = true ∧
      (∀ r ∈ queued d, d.futures r.future = FutureState.Pending →
        (cancelAll d).futures r.future = FutureState.Cancelled) ∧
      CancellableRequestQueue.workerStep m_caller (cancelAll d) = none ∧
      (∀ (future : Nat) (params : RequestParams),
        (cancelAll d).request future params = some (false, cancelAll d)) ∧
      (∀ future file buffer offset size : Nat,
        Cancellable.readFile (cancelAll d) future file buffer offset size =
          some (true, cancelAll d) ∧
        Cancellable.writeFile (cancelAll d) future file buffer offset size =
          some (true, cancelAll d)) ∧
      (∀ (future : Nat) (filename : List Nat) (flags : Nat),
        Cancellable.createFile (cancelAll d) future filename flags =
          some (decide (filename.length < MAX_FILENAME_LENGTH), cancelAll d)) := by
  have hreq : ∀ (future : Nat) (params : RequestParams),
      (cancelAll d).request future params = some (false, cancelAll d) := by
    intro future params
    simp [CancellableRequestQueue.request, cancelAll]
  refine ⟨rfl, ?_, by simp [CancellableRequestQueue.workerStep, cancelAll], hreq, ?_, ?_⟩
  · intro r hr hp
    have hmem : r.future ∈ (queued d).map (fun r => r.future) := List.mem_map_of_mem _ hr
    simp only [cancelAll]
    rw [if_pos ⟨hmem, hp⟩]
  · intro future file buffer offset size
    simp [Cancellable.readFile, Cancellable.writeFile, hreq]
  · intro future filename flags
    by_cases hlong : filename.length ≥ MAX_FILENAME_LENGTH
    · have : ¬ filename.length < MAX_FILENAME_LENGTH := by omega
      simp [Cancellable.createFile, hlong, this]
    · have : filename.length < MAX_FILENAME_LENGTH := by omega
      simp [Cancellable.createFile, hlong, this, hreq]

set_option maxRecDepth 100000 in
/-- Witness for C12 (as amended): `demoQueue`, whose queued requests have the
Pending futures 2 and 3. -/
theorem cancelAll_cancels_queued_and_refuses_requests_witness :
    (queued Cancellable.demoQueue).map (fun r => r.future) = [2, 3] ∧
      (cancelAll Cancellable.demoQueue).futures 2 = FutureState.Cancelled ∧
      (cancelAll Cancellable.demoQueue).futures 3 = FutureState.Cancelled :=
  ⟨by decide,
    (cancelAll_cancels_queued_and_refuses_requests demoCaller Cancellable.demoQueue).2.1
      ⟨2, E_REQUEST_TYPE.ERT_WRITE, RequestParams.WRITE ⟨50, 61, 8, 4⟩⟩ (by decide) (by decide),
    (cancelAll_cancels_queued_and_refuses_requests demoCaller Cancellable.demoQueue).2.1
      ⟨3, E_REQUEST_TYPE.ERT_READ, RequestParams.READ ⟨50, 62, 0, 2⟩⟩ (by decide) (by decide)⟩

set_option maxRecDepth 100000 in
/-- C12 (counterexample): `cancelAll()` on `demoQueue`, with two requests still
queued, cancels their futures; `readFile`, `writeFile` and `createFile` called
afterwards each return true, not a failure. -/
theorem submission_after_cancelAll_returns_true :
    (queued Cancellable.demoQueue).length = 2 ∧
      (cancelAll Cancellable.demoQueue).futures 2 = FutureState.Cancelled ∧
      (cancelAll Cancellable.demoQueue).futures 3 = FutureState.Cancelled ∧
      (Cancellable.readFile (cancelAll Cancellable.demoQueue) 4 50 63 0 1).map Prod.fst =
        some true ∧
      (Cancellable.writeFile (cancelAll Cancellable.demoQueue) 5 50 64 0 1).map Prod.fst =
        some true ∧
      (Cancellable.createFile (cancelAll Cancellable.demoQueue) 6 [97] 1).map Prod.fst =
        some true := by
  refine ⟨by decide, by decide, by decide, rfl, rfl, ?_⟩
  decide

end Cancellation

section Archives

open CMultiObjectCache ISystem

variable {σ S P : Type}

theorem addArchiveLoaderLoop_trace [LT S] [DecidableRel (α := S) (· < ·)] (loader : Nat)
    (exts : List S) :
    ∀ acc : CMultiObjectCache S Nat × List (CacheEvent S Nat),
      (addArchiveLoaderLoop loader exts acc).2 =
        acc.2 ++ exts.map fun e => CacheEvent.base (BaseCall.insert e loader) := by
  induction exts with
  | nil => intro acc; simp [addArchiveLoaderLoop]
  | cons e exts ih =>
      intro acc
      simp [addArchiveLoaderLoop, ih]

theorem openFileArchive_file_cacheCalls [LT S] [DecidableRel (α := S) (· < ·)]
    (env : ISystemEnv S P) (m_loaders : Loaders S) (file : Nat) (password : List Nat) :
    ∀ e ∈ (openFileArchive_file env m_loaders file password).cacheCalls,
      CacheEvent.isBase e = true := by
  intro e he
  unfold openFileArchive_file at he
  by_cases hg : env.getFlags file &&& (if env.ECF_READ = 0 then 1 else 0) ≠ 0
  · rw [if_pos hg] at he
    simp at he
  · rw [if_neg hg] at he
    simp only [List.mem_singleton] at he
    subst he
    rfl

/-- C14 (as amended): the extension-to-loader index and the path-to-archive index
held by `ISystem` are plain `CMultiObjectCache` members, without a lock: the
cache calls of `addArchiveLoader` are exactly one `insert` per extension, those
of `mount` are `insert` calls starting with the one under the absolute path,
the one of `openFileArchive` is `findRange`, and none of them has a lock call
before or after it. -/
theorem archive_indices_are_plain_caches [LT S] [DecidableRel (α := S) (· < ·)] [LT P]
    [DecidableRel (α := P) (· < ·)] (env : ISystemEnv S P) (m_loaders : Loaders S)
    (m_cachedArchiveFiles : CMultiObjectCache P (Option Nat)) (loader archive file : Nat)
    (pathAlias : P) (password : List Nat) :
    (addArchiveLoader env m_loaders loader).2.2 =
        (env.getAssociatedFileExtensions loader).map
          (fun e => CacheEvent.base (BaseCall.insert e loader)) ∧
      (∀ e ∈ (mount env m_cachedArchiveFiles archive pathAlias).2, CacheEvent.isBase e = true) ∧
      (mount env m_cachedArchiveFiles archive pathAlias).2.head? =
        some (CacheEvent.base (BaseCall.insert
          (env.absolute_generic (env.getFileName (env.asFile archive))) (some archive))) ∧
      (∀ e ∈ (openFileArchive_file env m_loaders file password).cacheCalls,
        CacheEvent.isBase e = true) := by
  refine ⟨?_, ?_, ?_, openFileArchive_file_cacheCalls env m_loaders file password⟩
  · simp [addArchiveLoader, addArchiveLoaderLoop_trace]
  · intro e he
    simp only [mount] at he
    split at he
    · simp only [List.mem_singleton] at he
      subst he
      rfl
    · simp only [List.mem_cons, List.mem_singleton, List.not_mem_nil, or_false] at he
      rcases he with rfl | rfl <;> rfl
  · simp only [mount]
    split <;> rfl

/-- C14 (counterexample): the cache calls of `addArchiveLoader` (loader 1, two
extensions), of `mount` (archive 40, no alias) and of `openFileArchive` (file
30) are bare `insert` and `findRange` calls: no `lockWrite`/`unlockWrite` or
`lockRead`/`unlockRead` stands around them. -/
theorem archive_index_calls_take_no_lock :
    (addArchiveLoader demoEnv ⟨[], CMultiObjectCache.empty⟩ 1).2.2 =
        [CacheEvent.base (BaseCall.insert 0 1), CacheEvent.base (BaseCall.insert 3 1)] ∧
      lockGuarded (addArchiveLoader demoEnv ⟨[], CMultiObjectCache.empty⟩ 1).2.2 = false ∧
      (mount demoEnv CMultiObjectCache.empty 40 0).2 =
        [CacheEvent.base (BaseCall.insert 1141 (some 40))] ∧
      lockGuarded (mount demoEnv CMultiObjectCache.empty 40 0).2 = false ∧
      (openFileArchive_file demoEnv demoLoaders2 30 []).cacheCalls =
        [CacheEvent.base (BaseCall.findRange 0)] ∧
      lockGuarded (openFileArchive_file demoEnv demoLoaders2 30 []).cacheCalls = false := by
  decide

theorem insert_perm [LT S] [DecidableRel (α := S) (· < ·)] {T : Type}
    (self : CMultiObjectCache S T) (k : S) (v : T) :
    (CMultiObjectCache.insert self k v).2.m_container.Perm ((k, v) :: self.m_container) := by
  simp only [CMultiObjectCache.insert]
  have h := @List.perm_middle _ (k, v)
    (self.m_container.take (lowerBound self.m_container k))
    (self.m_container.drop (lowerBound self.m_container k))
  rwa [List.take_append_drop] at h

/-- The loop of `addArchiveLoader` keeps the index sorted and adds to it one
entry `(e, loader)` per extension `e` of the list. -/
theorem addArchiveLoaderLoop_store [LinearOrder S] (loader : Nat) (exts : List S) :
    ∀ acc : CMultiObjectCache S Nat × List (CacheEvent S Nat), sortedByKey acc.1 →
      sortedByKey (addArchiveLoaderLoop loader exts acc).1 ∧
        (addArchiveLoaderLoop loader exts acc).1.m_container.Perm
          (acc.1.m_container ++ exts.map fun e => (e, loader)) := by
  induction exts with
  | nil => intro acc hs; simpa [addArchiveLoaderLoop] using hs
  | cons e exts ih =>
      intro acc hs
      obtain ⟨h1, h2⟩ := ih ((CMultiObjectCache.insert acc.1 e loader).2,
        acc.2 ++ [CacheEvent.base (BaseCall.insert e loader)]) (insert_sortedByKey hs e loader)
      refine ⟨h1, ?_⟩
      simp only [addArchiveLoaderLoop, List.map_cons]
      refine h2.trans ?_
      refine ((insert_perm acc.1 e loader).append_right _).trans ?_
      simpa using (@List.perm_middle _ (e, loader) acc.1.m_container
        (exts.map fun e => (e, loader))).symm

/-- The value `addArchiveLoader` returns: the size of the vector before the
call, as a `uint32_t`. -/
theorem addArchiveLoader_fst [LT S] [DecidableRel (α := S) (· < ·)] (env : ISystemEnv S P)
    (vector : List Nat) (perFileExt : CMultiObjectCache S Nat) (loader : Nat) :
    (addArchiveLoader env ⟨vector, perFileExt⟩ loader).1 = vector.length % 2 ^ 32 := by
  simp [addArchiveLoader]

/-- C15 (as amended): for every loader with extension list `e_0..e_(n-1)` and a
sorted per-extension index, `addArchiveLoader` adds to the index exactly one
entry `(e_i, loader)` per `e_i` (so `findRange(e_i)` contains the loader
afterwards, and an empty list leaves the index as it was), appends the loader
at the end of the loader vector, and returns the size the vector had before
the call modulo 2^32: the index of the loader in the vector when the vector
held fewer than 2^32 loaders. -/
theorem addArchiveLoader_registers_loader [LinearOrder S] (env : ISystemEnv S P)
    (m_loaders : Loaders S) (loader : Nat) (hs : sortedByKey m_loaders.perFileExt) :
    (addArchiveLoader env m_loaders loader).2.1.perFileExt.m_container.Perm
        (m_loaders.perFileExt.m_container ++
          (env.getAssociatedFileExtensions loader).map fun e => (e, loader)) ∧
      sortedByKey (addArchiveLoader env m_loaders loader).2.1.perFileExt ∧
      (∀ e ∈ env.getAssociatedFileExtensions loader,
        loader ∈ rangeValues (addArchiveLoader env m_loaders loader).2.1.perFileExt
          (findRange (addArchiveLoader env m_loaders loader).2.1.perFileExt e)) ∧
      (env.getAssociatedFileExtensions loader = [] →
        (addArchiveLoader env m_loaders loader).2.1.perFileExt = m_loaders.perFileExt) ∧
      (addArchiveLoader env m_loaders loader).2.1.vector = m_loaders.vector ++ [loader] ∧
      (addArchiveLoader env m_loaders loader).1 = m_loaders.vector.length % 2 ^ 32 ∧
      (m_loaders.vector.length < 2 ^ 32 →
        (addArchiveLoader env m_loaders loader).1 = m_loaders.vector.length ∧
        (addArchiveLoader env m_loaders loader).2.1.vector[
          (addArchiveLoader env m_loaders loader).1]? = some loader) := by
  obtain ⟨hsorted, hperm⟩ := addArchiveLoaderLoop_store loader
    (env.getAssociatedFileExtensions loader) (m_loaders.perFileExt, []) hs
  have hret : (addArchiveLoader env m_loaders loader).1 = m_loaders.vector.length % 2 ^ 32 :=
    addArchiveLoader_fst env m_loaders.vector m_loaders.perFileExt loader
  refine ⟨hperm, hsorted, ?_, ?_, rfl, hret, ?_⟩
  · intro e he
    have hsorted1 : sortedByKey (addArchiveLoader env m_loaders loader).2.1.perFileExt := hsorted
    rw [mem_rangeValues_findRange hsorted1]
    refine (List.Perm.mem_iff hperm).mpr ?_
    simp only [List.mem_append, List.mem_map]
    exact Or.inr ⟨e, he, rfl⟩
  · intro hnil
    simp [addArchiveLoader, hnil, addArchiveLoaderLoop]
  · intro hlt
    rw [hret, Nat.mod_eq_of_lt hlt]
    refine ⟨rfl, ?_⟩
    show (m_loaders.vector ++ [loader])[m_loaders.vector.length]? = some loader
    simp

/-- Witness for C15 (as amended): loader 1 (extensions 0 and 3) added after
loader 2. -/
theorem addArchiveLoader_registers_loader_witness :
    sortedByKey demoLoaders2.perFileExt ∧ demoLoaders2.vector.length < 2 ^ 32 ∧
      (addArchiveLoader demoEnv demoLoaders2 1).1 = demoLoaders2.vector.length ∧
      (addArchiveLoader demoEnv demoLoaders2 1).2.1.vector[
        (addArchiveLoader demoEnv demoLoaders2 1).1]? = some 1 ∧
      (∀ e ∈ demoEnv.getAssociatedFileExtensions 1,
        1 ∈ rangeValues (addArchiveLoader demoEnv demoLoaders2 1).2.1.perFileExt
          (findRange (addArchiveLoader demoEnv demoLoaders2 1).2.1.perFileExt e)) :=
  ⟨by simp [sortedByKey, demoLoaders2], by decide,
    ((addArchiveLoader_registers_loader demoEnv demoLoaders2 1
      (by simp [sortedByKey, demoLoaders2])).2.2.2.2.2.2 (by decide)).1,
    ((addArchiveLoader_registers_loader demoEnv demoLoaders2 1
      (by simp [sortedByKey, demoLoaders2])).2.2.2.2.2.2 (by decide)).2,
    (addArchiveLoader_registers_loader demoEnv demoLoaders2 1
      (by simp [sortedByKey, demoLoaders2])).2.2.1⟩

/-- C15 (counterexample): with 2^32 loaders in the vector, `addArchiveLoader`
(of loader 3, which has no extension) returns 0, while the loader is appended
at index 2^32, the size of the vector before the call. -/
theorem addArchiveLoader_index_wraps :
    (List.replicate 4294967296 0 : List Nat).length = 4294967296 ∧
      (addArchiveLoader demoEnv ⟨List.replicate 4294967296 0, CMultiObjectCache.empty⟩ 3).1 = 0 ∧
      (addArchiveLoader demoEnv ⟨List.replicate 4294967296 0, CMultiObjectCache.empty⟩ 3).1 ≠
        (List.replicate 4294967296 0 : List Nat).length := by
  have h := addArchiveLoader_fst demoEnv (List.replicate 4294967296 0)
    CMultiObjectCache.empty 3
  rw [List.length_replicate] at h
  refine ⟨List.length_replicate _ _, h, ?_⟩
  rw [h, List.length_replicate]
  decide

/-- C16: for every archive `a` and path alias `p`, on a sorted index and with an
`insert` that leaves the handle passed to it as it was: after `mount(a, p)`
the index is sorted and `findRange` of the absolute generic path of `a`'s file
contains `a`; when `p` is non-empty `findRange(p)` contains `a` too, and the
entries added are exactly the two entries holding `a`, one under the path and
one under `p`, none holding a null handle; when `p` is empty exactly one
entry is added, the one under the path. -/
theorem mount_indexes_archive_under_path_and_alias [LinearOrder P] (env : ISystemEnv S P)
    (m_cachedArchiveFiles : CMultiObjectCache P (Option Nat)) (archive : Nat) (pathAlias : P)
    (hs : sortedByKey m_cachedArchiveFiles) (hcopy : env.insertTakesHandle = false) :
    sortedByKey (mount env m_cachedArchiveFiles archive pathAlias).1 ∧
      some archive ∈ rangeValues (mount env m_cachedArchiveFiles archive pathAlias).1
        (findRange (mount env m_cachedArchiveFiles archive pathAlias).1
          (env.absolute_generic (env.getFileName (env.asFile archive)))) ∧
      (env.empty pathAlias = false →
        some archive ∈ rangeValues (mount env m_cachedArchiveFiles archive pathAlias).1
          (findRange (mount env m_cachedArchiveFiles archive pathAlias).1 pathAlias) ∧
        (mount env m_cachedArchiveFiles archive pathAlias).1.m_container.Perm
          ((pathAlias, some archive) ::
            (env.absolute_generic (env.getFileName (env.asFile archive)), some archive) ::
            m_cachedArchiveFiles.m_container) ∧
        (mount env m_cachedArchiveFiles archive pathAlias).1.m_container.length =
          m_cachedArchiveFiles.m_container.length + 2) ∧
      (env.empty pathAlias = true →
        (mount env m_cachedArchiveFiles archive pathAlias).1.m_container.Perm
          ((env.absolute_generic (env.getFileName (env.asFile archive)), some archive) ::
            m_cachedArchiveFiles.m_container) ∧
        (mount env m_cachedArchiveFiles archive pathAlias).1.m_container.length =
          m_cachedArchiveFiles.m_container.length + 1) := by
  have hs1 := insert_sortedByKey hs
    (env.absolute_generic (env.getFileName (env.asFile archive))) (some archive)
  have hp1 := insert_perm m_cachedArchiveFiles
    (env.absolute_generic (env.getFileName (env.asFile archive))) (some archive)
  cases halias : env.empty pathAlias with
  | true =>
      have hm : (mount env m_cachedArchiveFiles archive pathAlias).1 =
          (CMultiObjectCache.insert m_cachedArchiveFiles
            (env.absolute_generic (env.getFileName (env.asFile archive))) (some archive)).2 := by
        simp only [mount, halias, if_true]
      rw [hm]
      refine ⟨hs1, ?_, fun h => Bool.noConfusion h, fun _ => ⟨hp1, ?_⟩⟩
      · rw [mem_rangeValues_findRange hs1]
        exact (List.Perm.mem_iff hp1).mpr (List.mem_cons_self _ _)
      · rw [hp1.length_eq, List.length_cons]
  | false =>
      have hm : (mount env m_cachedArchiveFiles archive pathAlias).1 =
          (CMultiObjectCache.insert (CMultiObjectCache.insert m_cachedArchiveFiles
            (env.absolute_generic (env.getFileName (env.asFile archive))) (some archive)).2
            pathAlias (some archive)).2 := by
        simp only [mount, halias, hcopy, Bool.false_eq_true, if_false]
      have hs2 := insert_sortedByKey hs1 pathAlias (some archive)
      have hp2 : (CMultiObjectCache.insert (CMultiObjectCache.insert m_cachedArchiveFiles
            (env.absolute_generic (env.getFileName (env.asFile archive))) (some archive)).2
            pathAlias (some archive)).2.m_container.Perm
          ((pathAlias, some archive) ::
            (env.absolute_generic (env.getFileName (env.asFile archive)), some archive) ::
            m_cachedArchiveFiles.m_container) :=
        (insert_perm _ pathAlias (some archive)).trans (hp1.cons _)
      rw [hm]
      refine ⟨hs2, ?_, fun _ => ⟨?_, hp2, ?_⟩, fun h => Bool.noConfusion h⟩
      · rw [mem_rangeValues_findRange hs2]
        exact (List.Perm.mem_iff hp2).mpr
          (List.mem_cons_of_mem _ (List.mem_cons_self _ _))
      · rw [mem_rangeValues_findRange hs2]
        exact (List.Perm.mem_iff hp2).mpr (List.mem_cons_self _ _)
      · rw [hp2.length_eq, List.length_cons, List.length_cons]

/-- Witness for C16: `mount(40, 7)` on the empty index, the alias 7 being
non-empty: archive 40 is stored under the absolute path 1141 and under 7. -/
theorem mount_indexes_archive_under_path_and_alias_witness :
    sortedByKey (CMultiObjectCache.empty : CMultiObjectCache Nat (Option Nat)) ∧
      demoEnv.insertTakesHandle = false ∧ demoEnv.empty 7 = false ∧
      (mount demoEnv CMultiObjectCache.empty 40 7).1 = ⟨[(7, some 40), (1141, some 40)]⟩ ∧
      some 40 ∈ rangeValues (mount demoEnv CMultiObjectCache.empty 40 7).1
        (findRange (mount demoEnv CMultiObjectCache.empty 40 7).1
          (demoEnv.absolute_generic (demoEnv.getFileName (demoEnv.asFile 40)))) ∧
      some 40 ∈ rangeValues (mount demoEnv CMultiObjectCache.empty 40 7).1
        (findRange (mount demoEnv CMultiObjectCache.empty 40 7).1 7) :=
  ⟨by simp [sortedByKey, CMultiObjectCache.empty], rfl, rfl, by decide,
    (mount_indexes_archive_under_path_and_alias demoEnv CMultiObjectCache.empty 40 7
      (by simp [sortedByKey, CMultiObjectCache.empty]) rfl).2.1,
    ((mount_indexes_archive_under_path_and_alias demoEnv CMultiObjectCache.empty 40 7
      (by simp [sortedByKey, CMultiObjectCache.empty]) rfl).2.2.1 rfl).1⟩

/-- With an `insert` that takes over the handle passed to it, for every archive
and every non-empty alias the entry `mount` adds under the alias holds the
null handle. -/
theorem mount_alias_entry_is_null [LT P] [DecidableRel (α := P) (· < ·)] (env : ISystemEnv S P)
    (m_cachedArchiveFiles : CMultiObjectCache P (Option Nat)) (archive : Nat) (pathAlias : P)
    (halias : env.empty pathAlias = false) (htakes : env.insertTakesHandle = true) :
    (pathAlias, none) ∈ (mount env m_cachedArchiveFiles archive pathAlias).1.m_container ∧
      (mount env m_cachedArchiveFiles archive pathAlias).2.getLast? =
        some (CacheEvent.base (BaseCall.insert pathAlias none)) := by
  simp only [mount, halias, htakes]
  refine ⟨?_, by simp⟩
  simp only [Bool.false_eq_true, if_false, if_true]
  exact (List.Perm.mem_iff (insert_perm _ pathAlias none)).mpr (List.mem_cons_self _ _)

/-- C17: file 30 is readable and its extension 0 has the loaders 1 and 2, in
range order. Loader 1 takes the handle and returns null; loader 2 is then
handed the emptied handle, not file 30, and returns null, so the result is
null, although `createArchive` of loader 2 applied to file 30 is archive 530. -/
theorem openFileArchive_hands_emptied_handle_to_later_loader :
    demoEnv.getFlags 30 &&& demoEnv.ECF_READ ≠ 0 ∧
      (addArchiveLoader demoEnv demoLoaders2 1).2.1.vector = demoLoaders21.vector ∧
      (addArchiveLoader demoEnv demoLoaders2 1).2.1.perFileExt = demoLoaders21.perFileExt ∧
      rangeValues demoLoaders21.perFileExt (findRange demoLoaders21.perFileExt
        (demoEnv.extension_wo_dot (demoEnv.getFileName 30))) = [1, 2] ∧
      demoEnv.createArchive 1 (some 30) [] = (none, none) ∧
      demoEnv.createArchive 2 (some 30) [] = (some 530, none) ∧
      (openFileArchive_file demoEnv demoLoaders21 30 []).loaderCalls =
        [(1, some 30, []), (2, none, [])] ∧
      (openFileArchive_file demoEnv demoLoaders21 30 []).archive = none := by
  decide

/-- C20: file 20 has the flags 2, which do not include `ECF_READ` (1), and its
extension 0 has the loader 2. `openFileArchive` does not return at its first
`if`: it looks the extension up, invokes loader 2 on the file and returns the
archive 520. -/
theorem openFileArchive_opens_unreadable_file :
    demoEnv.getFlags 20 &&& demoEnv.ECF_READ = 0 ∧
      (openFileArchive_file demoEnv demoLoaders2 20 []).cacheCalls =
        [CacheEvent.base (BaseCall.findRange 0)] ∧
      (openFileArchive_file demoEnv demoLoaders2 20 []).loaderCalls = [(2, some 20, [])] ∧
      (openFileArchive_file demoEnv demoLoaders2 20 []).archive = some 520 := by
  decide

/-- With `ECF_READ` a non-zero flag the condition of the first `if` of
`openFileArchive` is false for every file: the lookup is always made. -/
theorem openFileArchive_guard_never_fires [LT S] [DecidableRel (α := S) (· < ·)]
    (env : ISystemEnv S P) (m_loaders : Loaders S) (file : Nat) (password : List Nat)
    (hflag : env.ECF_READ ≠ 0) :
    (openFileArchive_file env m_loaders file password).cacheCalls =
      [CacheEvent.base (BaseCall.findRange (env.extension_wo_dot (env.getFileName file)))] := by
  unfold openFileArchive_file
  have hg : ¬ (env.getFlags file &&& (if env.ECF_READ = 0 then 1 else 0) ≠ 0) := by
    simp [hflag]
  rw [if_neg hg]

end Archives

section Waiting

open CAsyncQueue ISystem

variable {σ S P : Type}

theorem workerRounds_succ_last (m_caller : ISystemCaller σ) (n : Nat) :
    ∀ q : CAsyncQueue σ, workerRounds m_caller (n + 1) q =
      (workerRounds m_caller n q).bind (CAsyncQueue.workerStep m_caller) := by
  induction n with
  | zero =>
      intro q
      simp only [workerRounds, Option.some_bind]
      cases CAsyncQueue.workerStep m_caller q <;> rfl
  | succ n ih =>
      intro q
      rw [workerRounds]
      cases h : CAsyncQueue.workerStep m_caller q with
      | none => simp [workerRounds, h]
      | some q1 =>
          simp only [Option.some_bind]
          rw [ih q1]
          conv_rhs => rw [workerRounds, h, Option.some_bind]

/-- A round of the worker on a consistent, tracked state with a request pending:
it processes the request at `tail` and appends the call and the resolution of
that request to the trace. -/
theorem workerStep_trace (m_caller : ISystemCaller σ) (m_owner : Nat) (R : List SRequestType)
    (s : RunState σ) (hc : RunState.consistent m_owner s) (ht : RunState.tracked R s)
    (hpending : s.m_dispatcher.tail < s.m_dispatcher.head) :
    ∃ q r q1, R[s.m_dispatcher.tail]? = some r ∧
      process_request m_caller s.m_dispatcher r = Except.ok q1 ∧
      CAsyncQueue.workerStep m_caller s.m_dispatcher = some q ∧
      q.trace = q1.trace ∧ q.world = q1.world ∧
      q.tail = s.m_dispatcher.tail + 1 ∧ q.head = s.m_dispatcher.head ∧
      RunState.consistent m_owner { s with m_dispatcher := q } ∧
      RunState.tracked R { s with m_dispatcher := q } := by
  obtain ⟨q, hq, hcq, htail, hhead⟩ := consistent_workerStep m_caller m_owner s hc hpending
  have htq := tracked_workerStep m_caller m_owner R s q hc ht hq
  obtain ⟨r, hr, hslot⟩ := ht.2.2.1 s.m_dispatcher.tail (le_refl _) hpending
  have hrt : r = ⟨r.future, r.params.type, r.params⟩ := by
    have := ht.2.1 r (List.getElem?_mem hr)
    cases r
    simp_all
  obtain ⟨q1, hq1, _, _, _, _, _, _⟩ :=
    process_request_built m_caller s.m_dispatcher r.future r.params
  rw [← hrt] at hq1
  have hq2 := hq
  simp only [CAsyncQueue.workerStep, hpending, if_true, hslot, hq1, Option.some.injEq] at hq2
  refine ⟨q, r, q1, hr, hq1, hq, ?_, ?_, htail, hhead, hcq, htq⟩
  · rw [← hq2]
  · rw [← hq2]

/-- Rounds of the worker, no more than there are requests pending, all
complete. -/
theorem workerRounds_progress (m_caller : ISystemCaller σ) (m_owner : Nat)
    (R : List SRequestType) (k : Nat) :
    ∀ s : RunState σ, RunState.consistent m_owner s → RunState.tracked R s →
      k ≤ s.m_dispatcher.head - s.m_dispatcher.tail →
      ∃ q, workerRounds m_caller k s.m_dispatcher = some q ∧
        RunState.consistent m_owner { s with m_dispatcher := q } ∧
        RunState.tracked R { s with m_dispatcher := q } ∧
        q.tail = s.m_dispatcher.tail + k ∧ q.head = s.m_dispatcher.head := by
  induction k with
  | zero =>
      intro s hc ht _
      exact ⟨s.m_dispatcher, rfl, hc, ht, rfl, rfl⟩
  | succ k ih =>
      intro s hc ht hk
      obtain ⟨q, _, _, _, _, hq, _, _, htail, hhead, hcq, htq⟩ :=
        workerStep_trace m_caller m_owner R s hc ht (by omega)
      obtain ⟨q2, hq2, hc2, ht2, htail2, hhead2⟩ := ih { s with m_dispatcher := q } hcq htq
        (by simp only [htail, hhead]; omega)
      refine ⟨q2, ?_, hc2, ht2, ?_, ?_⟩
      · simp only [workerRounds, hq, Option.some_bind]
        exact hq2
      · simp only [htail] at htail2
        omega
      · simp only [hhead] at hhead2
        exact hhead2

theorem lastNotified_append_round (future : Nat) (c : DispatchEvent) (hc : c.isCall = true)
    (v : FutureValue) :
    ∀ tr : List DispatchEvent,
      lastNotified future (tr ++ [c, DispatchEvent.notify_future future v]) = some v := by
  have hbase : lastNotified future [c, DispatchEvent.notify_future future v] = some v := by
    cases c <;> simp_all [lastNotified, DispatchEvent.isCall]
  intro tr
  induction tr with
  | nil => exact hbase
  | cons e tr ih =>
      cases e <;> simp [lastNotified, ih]

theorem request_of_free (q : CAsyncQueue σ) (future : Nat) (params : RequestParams)
    (hfree : q.head - q.tail < q.cb.length) :
    ∃ q1, q.request future params = some q1 ∧ q1.trace = q.trace ∧ q1.head = q.head + 1 ∧
      q1.tail = q.tail := by
  refine ⟨{ q with
      cb := q.cb.set (q.head % q.cb.length) (some (request_impl slotDefault future params))
      head := q.head + 1 }, ?_, rfl, rfl, rfl⟩
  simp only [CAsyncQueue.request, hfree, if_true]

/-- A request submitted to a consistent dispatcher with nothing pending is
processed by the next round of the worker. -/
theorem next_request_is_processed (m_caller : ISystemCaller σ) (m_owner : Nat)
    (R : List SRequestType) (s : RunState σ) (hc : RunState.consistent m_owner s)
    (ht : RunState.tracked R s) (hidle : s.m_dispatcher.tail = s.m_dispatcher.head)
    (future : Nat) (params : RequestParams) :
    ∃ q3 q4 v, s.m_dispatcher.request future params = some q3 ∧
      CAsyncQueue.workerStep m_caller q3 = some q4 ∧
      q4.trace = s.m_dispatcher.trace ++
        [callOf m_owner params, DispatchEvent.notify_future future v] := by
  have hRlen := tracked_length hc ht
  obtain ⟨q3, hq3, htr3, hhead3, htail3⟩ := request_of_free s.m_dispatcher future params
    (by have := hc.1; omega)
  have hc3 := consistent_request m_owner s future params q3 hc hq3
  have ht3 := tracked_request m_owner R s future params q3 hc ht hq3
  obtain ⟨q4, r, q1, hr, hproc, hstep, htr, _, _, _, _, _⟩ :=
    workerStep_trace m_caller m_owner _ _ hc3 ht3 (by simp only [hhead3, htail3]; omega)
  have hr1 : r = request_impl slotDefault future params := by
    simp only [htail3, hidle] at hr
    rw [List.getElem?_append_right (by omega)] at hr
    simp only [hRlen, Nat.sub_self, List.getElem?_cons_zero, Option.some.injEq] at hr
    exact hr.symm
  obtain ⟨q1b, hq1b, _, _, _, _, v, htrace⟩ := process_request_built m_caller q3 future params
  have hsame : process_request m_caller q3 r = Except.ok q1b := by
    rw [hr1]
    exact hq1b
  rw [hsame] at hproc
  cases hproc
  refine ⟨q3, q4, v, hq3, hstep, ?_⟩
  rw [htr, htrace, htr3, hc3.2.2.2.2.1]

/-- C13: a null handle from the caller's `createFile` is what `process_request`
resolves the future with. On a dispatcher reached by any interleaving, with a
name that fits and a free slot, `openFileArchive(filename, password)` submits
its request, the worker serves the requests pending and last this one, and
`get()` yields what the caller's `createFile` returned for it; when that is the
null handle, `openFileArchive` returns null without a call on the loader index
and without a `createArchive` call; and a request submitted afterwards is
processed by the next round of the worker. -/
theorem createFile_failure_reaches_waiter [LT S] [DecidableRel (α := S) (· < ·)]
    (env : ISystemEnv S P) (m_caller : ISystemCaller σ) (m_loaders : Loaders S) (m_owner : Nat)
    (w : σ) (es : List Step) (s : RunState σ)
    (hrun : run m_caller (start m_owner w) es = some s) (future : Nat) (filename : P)
    (password : List Nat) (hfit : (env.string filename).length < MAX_FILENAME_LENGTH)
    (hfree : s.m_dispatcher.head - s.m_dispatcher.tail < s.m_dispatcher.cb.length) :
    (∀ (q : CAsyncQueue σ) (fut : Nat) (pc : SRequestParams_CREATE_FILE),
        (m_caller.createFile q.world q.m_owner (c_str pc.filename) pc.flags).1 = none →
        ∃ q1, process_request m_caller q
            ⟨fut, E_REQUEST_TYPE.ERT_CREATE_FILE, RequestParams.CREATE_FILE pc⟩ = Except.ok q1 ∧
          q1.trace = q.trace ++ [DispatchEvent.createFile q.m_owner (c_str pc.filename) pc.flags,
            DispatchEvent.notify_future fut (FutureValue.file none)]) ∧
      ∃ q1 qpre q2,
        ISystem.createFile s.m_dispatcher future (env.string filename)
          (env.ECF_READ ||| env.ECF_MAPPABLE) = some (true, q1) ∧
        workerRounds m_caller (q1.head - q1.tail - 1) q1 = some qpre ∧
        futureGet m_caller q1 future =
          some (FutureValue.file (m_caller.createFile qpre.world m_owner
            (c_str (createFileParams (env.string filename)
              (env.ECF_READ ||| env.ECF_MAPPABLE)).filename)
            (env.ECF_READ ||| env.ECF_MAPPABLE)).1, q2) ∧
        ((m_caller.createFile qpre.world m_owner
            (c_str (createFileParams (env.string filename)
              (env.ECF_READ ||| env.ECF_MAPPABLE)).filename)
            (env.ECF_READ ||| env.ECF_MAPPABLE)).1 = none →
          openFileArchive_filename env m_caller m_loaders s.m_dispatcher future filename
            password = some ({ archive := none, cacheCalls := [], loaderCalls := [] }, q2)) ∧
        ∀ (future2 : Nat) (params : RequestParams),
          ∃ q3 q4 v, q2.request future2 params = some q3 ∧
            CAsyncQueue.workerStep m_caller q3 = some q4 ∧
            q4.trace = q2.trace ++
              [callOf m_owner params, DispatchEvent.notify_future future2 v] := by
  refine ⟨?_, ?_⟩
  · intro q fut pc hnull
    refine ⟨_, rfl, ?_⟩
    simp only [hnull]
  have hc := consistent_run m_caller m_owner es _ s (consistent_start m_owner w) hrun
  have ht := tracked_run m_caller m_owner es [] _ s (consistent_start m_owner w)
    (tracked_start m_owner w) hrun
  rw [List.nil_append] at ht
  have hRlen := tracked_length hc ht
  have hth := hc.2.1
  have hcreate := createFile_of_fit s.m_dispatcher future (env.string filename)
    (env.ECF_READ ||| env.ECF_MAPPABLE) hfit hfree
  obtain ⟨q1, hq1, _, hhead1, htail1⟩ := request_of_free s.m_dispatcher future
    (RequestParams.CREATE_FILE (createFileParams (env.string filename)
      (env.ECF_READ ||| env.ECF_MAPPABLE))) hfree
  have hcreate1 : ISystem.createFile s.m_dispatcher future (env.string filename)
      (env.ECF_READ ||| env.ECF_MAPPABLE) = some (true, q1) := by
    have hnot : ¬ (env.string filename).length ≥ MAX_FILENAME_LENGTH := by omega
    simp only [ISystem.createFile, hnot, if_false, hq1, Option.map_some']
  have hc1 := consistent_request m_owner s future _ q1 hc hq1
  have ht1 := tracked_request m_owner _ s future _ q1 hc ht hq1
  obtain ⟨qpre, hpre, hcpre, htpre, htailpre, hheadpre⟩ :=
    workerRounds_progress m_caller m_owner _ (q1.head - q1.tail - 1) _ hc1 ht1 (by
      simp only
      omega)
  simp only [hhead1, htail1] at htailpre hheadpre
  obtain ⟨q2, r, qlast, hr, hproc, hstep, htr, _, htail2, hhead2, hc2, ht2⟩ :=
    workerStep_trace m_caller m_owner _ _ hcpre htpre (by
      simp only [htailpre, hheadpre]
      omega)
  have htp : qpre.tail = s.m_dispatcher.head := by omega
  have hr1 : r = ⟨future, E_REQUEST_TYPE.ERT_CREATE_FILE,
      RequestParams.CREATE_FILE (createFileParams (env.string filename)
        (env.ECF_READ ||| env.ECF_MAPPABLE))⟩ := by
    simp only [htp] at hr
    rw [List.getElem?_append_right (by omega)] at hr
    simp only [hRlen, Nat.sub_self, List.getElem?_cons_zero, Option.some.injEq] at hr
    exact hr.symm
  have hown : qpre.m_owner = m_owner := hcpre.2.2.2.2.1
  rw [hr1] at hproc
  have hlast : qlast.trace = qpre.trace ++
      [DispatchEvent.createFile m_owner
          (c_str (createFileParams (env.string filename)
            (env.ECF_READ ||| env.ECF_MAPPABLE)).filename)
          (env.ECF_READ ||| env.ECF_MAPPABLE),
        DispatchEvent.notify_future future (FutureValue.file
          (m_caller.createFile qpre.world m_owner
            (c_str (createFileParams (env.string filename)
              (env.ECF_READ ||| env.ECF_MAPPABLE)).filename)
            (env.ECF_READ ||| env.ECF_MAPPABLE)).1)] := by
    simp only [process_request, Except.ok.injEq] at hproc
    rw [← hproc, hown]
    rfl
  have hrounds : workerRounds m_caller (q1.head - q1.tail) q1 = some q2 := by
    have hn : q1.head - q1.tail = (q1.head - q1.tail - 1) + 1 := by omega
    rw [hn, workerRounds_succ_last, hpre, Option.some_bind]
    exact hstep
  have hget : futureGet m_caller q1 future =
      some (FutureValue.file (m_caller.createFile qpre.world m_owner
        (c_str (createFileParams (env.string filename)
          (env.ECF_READ ||| env.ECF_MAPPABLE)).filename)
        (env.ECF_READ ||| env.ECF_MAPPABLE)).1, q2) := by
    simp only [futureGet, hrounds, Option.some_bind, htr, hlast]
    exact congrArg (fun v => Option.map (fun x => (x, q2)) v)
      (lastNotified_append_round future (DispatchEvent.createFile m_owner _ _) rfl _ qpre.trace)
  refine ⟨q1, qpre, q2, hcreate1, hpre, hget, ?_, ?_⟩
  · intro hnull
    simp only [openFileArchive_filename, hcreate1, hget, hnull]
  · intro future2 params
    exact next_request_is_processed m_caller m_owner _ _ hc2 ht2 (by
      simp only [htail2, hhead2, htailpre, hheadpre]
      omega) future2 params

set_option maxRecDepth 100000 in
/-- Witness for C13: after `demoSteps` (two requests still pending) with a caller
whose `createFile` returns the null handle, `openFileArchive` of path 5 for
future 9 returns null with no cache call and no loader call, and the worker
serves the next request. -/
theorem createFile_failure_reaches_waiter_witness :
    run failingCaller (start 7 0) demoSteps = some demoFinal ∧
    (demoEnv.string 5).length < MAX_FILENAME_LENGTH ∧
    demoFinal.m_dispatcher.head - demoFinal.m_dispatcher.tail < demoFinal.m_dispatcher.cb.length ∧
    ((∀ (q : CAsyncQueue Nat) (fut : Nat) (pc : SRequestParams_CREATE_FILE),
        (failingCaller.createFile q.world q.m_owner (c_str pc.filename) pc.flags).1 = none →
        ∃ q1, process_request failingCaller q
            ⟨fut, E_REQUEST_TYPE.ERT_CREATE_FILE, RequestParams.CREATE_FILE pc⟩ = Except.ok q1 ∧
          q1.trace = q.trace ++ [DispatchEvent.createFile q.m_owner (c_str pc.filename) pc.flags,
            DispatchEvent.notify_future fut (FutureValue.file none)]) ∧
      ∃ q1 qpre q2,
        ISystem.createFile demoFinal.m_dispatcher 9 (demoEnv.string 5)
          (demoEnv.ECF_READ ||| demoEnv.ECF_MAPPABLE) = some (true, q1) ∧
        workerRounds failingCaller (q1.head - q1.tail - 1) q1 = some qpre ∧
        futureGet failingCaller q1 9 =
          some (FutureValue.file (failingCaller.createFile qpre.world 7
            (c_str (createFileParams (demoEnv.string 5)
              (demoEnv.ECF_READ ||| demoEnv.ECF_MAPPABLE)).filename)
            (demoEnv.ECF_READ ||| demoEnv.ECF_MAPPABLE)).1, q2) ∧
        ((failingCaller.createFile qpre.world 7
            (c_str (createFileParams (demoEnv.string 5)
              (demoEnv.ECF_READ ||| demoEnv.ECF_MAPPABLE)).filename)
            (demoEnv.ECF_READ ||| demoEnv.ECF_MAPPABLE)).1 = none →
          openFileArchive_filename demoEnv failingCaller demoLoaders21 demoFinal.m_dispatcher 9 5
            [] = some ({ archive := none, cacheCalls := [], loaderCalls := [] }, q2)) ∧
        ∀ (future2 : Nat) (params : RequestParams),
          ∃ q3 q4 v, q2.request future2 params = some q3 ∧
            CAsyncQueue.workerStep failingCaller q3 = some q4 ∧
            q4.trace = q2.trace ++
              [callOf 7 params, DispatchEvent.notify_future future2 v]) :=
  ⟨rfl, by decide, by decide,
    createFile_failure_reaches_waiter demoEnv failingCaller demoLoaders21 7 0 demoSteps demoFinal
      rfl 9 5 [] (by decide) (by decide)⟩

end Waiting

section LogicalDevice

open ILogicalDevice

theorem countQueues_fst (l : List SQueueCreationParams) :
    ∀ qcnt g : Nat, qcnt < 2 ^ 32 →
      (countQueues l qcnt g).1 = (qcnt + (l.map fun qci => qci.count).sum) % 2 ^ 32 := by
  induction l with
  | nil =>
      intro qcnt g h
      simp only [countQueues, List.map_nil, List.sum_nil, Nat.add_zero]
      omega
  | cons q rest ih =>
      intro qcnt g _
      rw [countQueues, ih _ _ (Nat.mod_lt _ (by norm_num))]
      simp only [List.map_cons, List.sum_cons]
      omega

theorem countQueues_snd (l : List SQueueCreationParams) :
    ∀ qcnt g : Nat, g ≤ (countQueues l qcnt g).2 ∧
      (∀ q ∈ l, q.familyIndex ≤ (countQueues l qcnt g).2) ∧
      ((countQueues l qcnt g).2 = g ∨ ∃ q ∈ l, q.familyIndex = (countQueues l qcnt g).2) := by
  induction l with
  | nil =>
      intro qcnt g
      simp [countQueues]
  | cons q rest ih =>
      intro qcnt g
      obtain ⟨h1, h2, h3⟩ := ih ((qcnt + q.count) % 2 ^ 32) (max g q.familyIndex)
      rw [countQueues]
      refine ⟨le_trans (le_max_left _ _) h1, ?_, ?_⟩
      · intro x hx
        rcases List.mem_cons.mp hx with rfl | hx
        · exact le_trans (le_max_right _ _) h1
        · exact h2 x hx
      · rcases h3 with h3 | ⟨x, hx, hxe⟩
        · rcases le_total g q.familyIndex with hle | hle
          · right
            exact ⟨q, List.mem_cons_self _ _, by rw [h3, max_eq_right hle]⟩
          · left
            rw [h3, max_eq_left hle]
        · right
          exact ⟨x, List.mem_cons_of_mem _ hx, hxe⟩

theorem countBelow_succ (l : List SQueueCreationParams) (f : Nat) :
    countBelow l (f + 1) = countBelow l f + countAt l f := by
  induction l with
  | nil => simp [countBelow, countAt]
  | cons q rest ih =>
      simp only [countBelow, countAt] at ih ⊢
      rcases Nat.lt_trichotomy q.familyIndex f with h | h | h
      · have h1 : q.familyIndex < f + 1 := by omega
        have h2 : q.familyIndex ≠ f := by omega
        simp only [List.filter_cons, h, h1, h2, decide_True, decide_False, if_true,
          Bool.false_eq_true, if_false, List.map_cons, List.sum_cons]
        omega
      · subst h
        have h1 : q.familyIndex < q.familyIndex + 1 := by omega
        have h2 : ¬ q.familyIndex < q.familyIndex := by omega
        simp only [List.filter_cons, h1, h2, decide_True, decide_False, if_true,
          Bool.false_eq_true, if_false, List.map_cons, List.sum_cons]
        omega
      · have h1 : ¬ q.familyIndex < f + 1 := by omega
        have h2 : ¬ q.familyIndex < f := by omega
        have h3 : q.familyIndex ≠ f := by omega
        simp only [List.filter_cons, h1, h2, h3, decide_False, Bool.false_eq_true, if_false]
        exact ih

theorem countBelow_zero (l : List SQueueCreationParams) : countBelow l 0 = 0 := by
  induction l with
  | nil => simp [countBelow]
  | cons q rest ih =>
      simp only [countBelow] at ih ⊢
      simp only [List.filter_cons, Nat.not_lt_zero, decide_False, Bool.false_eq_true, if_false]
      exact ih

theorem countBelow_mono (l : List SQueueCreationParams) {f g : Nat} (h : f ≤ g) :
    countBelow l f ≤ countBelow l g := by
  induction h with
  | refl => exact le_refl _
  | step _ ih =>
      rw [countBelow_succ]
      omega

theorem countBelow_le_sum (l : List SQueueCreationParams) (f : Nat) :
    countBelow l f ≤ (l.map fun qci => qci.count).sum := by
  induction l with
  | nil => simp [countBelow]
  | cons q rest ih =>
      simp only [countBelow] at ih ⊢
      by_cases h : q.familyIndex < f
      · simp only [List.filter_cons, h, decide_True, if_true, List.map_cons, List.sum_cons]
        omega
      · simp only [List.filter_cons, h, decide_False, Bool.false_eq_true, if_false,
          List.map_cons, List.sum_cons]
        omega

theorem countAt_of_not_mem (l : List SQueueCreationParams) (f : Nat)
    (h : ∀ q ∈ l, q.familyIndex ≠ f) : countAt l f = 0 := by
  induction l with
  | nil => simp [countAt]
  | cons q rest ih =>
      have hq := h q (List.mem_cons_self _ _)
      have ih1 := ih fun x hx => h x (List.mem_cons_of_mem _ hx)
      simp only [countAt] at ih1 ⊢
      simp only [List.filter_cons, hq, decide_False, Bool.false_eq_true, if_false]
      exact ih1

theorem countAt_of_mem (l : List SQueueCreationParams)
    (hnd : (l.map fun qci => qci.familyIndex).Nodup) (q : SQueueCreationParams) (hq : q ∈ l) :
    countAt l q.familyIndex = q.count := by
  induction l with
  | nil => simp at hq
  | cons x rest ih =>
      rw [List.map_cons, List.nodup_cons] at hnd
      rcases List.mem_cons.mp hq with rfl | hq
      · have h0 := countAt_of_not_mem rest q.familyIndex (by
          intro y hy hye
          exact hnd.1 (List.mem_map.mpr ⟨y, hy, hye⟩))
        simp only [countAt] at h0 ⊢
        simp only [List.filter_cons, decide_True, if_true, List.map_cons, List.sum_cons, h0]
        omega
      · have hne : x.familyIndex ≠ q.familyIndex := by
          intro he
          exact hnd.1 (List.mem_map.mpr ⟨q, hq, he.symm⟩)
        have ih1 := ih hnd.2 hq
        simp only [countAt] at ih1 ⊢
        simp only [List.filter_cons, hne, decide_False, Bool.false_eq_true, if_false]
        exact ih1

theorem getD_set_self (o : List Nat) (i v : Nat) (h : i < o.length) :
    (o.set i v).getD i 0 = v := by
  simp [List.getD_eq_getElem?_getD, List.getElem?_set, h]

theorem getD_set_of_ne (o : List Nat) (i j v : Nat) (h : i ≠ j) :
    (o.set i v).getD j 0 = o.getD j 0 := by
  simp [List.getD_eq_getElem?_getD, List.getElem?_set, h]

theorem assignCounts_spec (G : Nat) (hG : G + 1 < 2 ^ 32) (l : List SQueueCreationParams) :
    ∀ o : List Nat, o.length = G + 1 → (l.map fun qci => qci.familyIndex).Nodup →
      (∀ q ∈ l, q.familyIndex ≤ G) →
      ∃ o1, assignCounts G l o = some o1 ∧ o1.length = G + 1 ∧
        (∀ q ∈ l, q.familyIndex ≠ G → o1.getD (q.familyIndex + 1) 0 = q.count) ∧
        (∀ i, (∀ q ∈ l, q.familyIndex = G ∨ q.familyIndex + 1 ≠ i) →
          o1.getD i 0 = o.getD i 0) := by
  induction l with
  | nil =>
      intro o ho _ _
      exact ⟨o, rfl, ho, by simp, fun _ _ => rfl⟩
  | cons q rest ih =>
      intro o ho hnd hle
      rw [List.map_cons, List.nodup_cons] at hnd
      have hle1 : ∀ x ∈ rest, x.familyIndex ≤ G := fun x hx => hle x (List.mem_cons_of_mem _ hx)
      by_cases hq : q.familyIndex = G
      · obtain ⟨o1, h1, h2, h3, h4⟩ := ih o ho hnd.2 hle1
        refine ⟨o1, by rw [assignCounts, if_pos hq]; exact h1, h2, ?_, ?_⟩
        · intro x hx hxG
          rcases List.mem_cons.mp hx with rfl | hx
          · exact absurd hq hxG
          · exact h3 x hx hxG
        · intro i hi
          exact h4 i fun x hx => hi x (List.mem_cons_of_mem _ hx)
      · have hqle := hle q (List.mem_cons_self _ _)
        have hmod : (q.familyIndex + 1) % 2 ^ 32 = q.familyIndex + 1 :=
          Nat.mod_eq_of_lt (by omega)
        have hin : q.familyIndex + 1 < o.length := by omega
        obtain ⟨o1, h1, h2, h3, h4⟩ := ih (o.set (q.familyIndex + 1) q.count)
          (by rw [List.length_set]; exact ho) hnd.2 hle1
        refine ⟨o1, ?_, h2, ?_, ?_⟩
        · rw [assignCounts, if_neg hq, hmod, if_pos hin]
          exact h1
        · intro x hx hxG
          rcases List.mem_cons.mp hx with rfl | hx
          · rw [h4 (x.familyIndex + 1) ?_, getD_set_self _ _ _ hin]
            intro y hy
            right
            intro he
            exact hnd.1 (List.mem_map.mpr ⟨y, hy, by omega⟩)
          · exact h3 x hx hxG
        · intro i hi
          rw [h4 i fun x hx => hi x (List.mem_cons_of_mem _ hx)]
          rcases hi q (List.mem_cons_self _ _) with h | h
          · exact absurd h hq
          · exact getD_set_of_ne _ _ _ _ h

theorem prefixSum_steps (o : List Nat) (T : Nat → Nat) (h0 : o.getD 0 0 = T 0)
    (hstep : ∀ i, i + 1 < o.length → T (i + 1) = T i + o.getD (i + 1) 0)
    (hlt : ∀ i < o.length, T i < 2 ^ 32) :
    ∀ k, k ≤ o.length - 1 →
      ((List.range' 1 k).foldl
          (fun o i => o.set i ((o.getD i 0 + o.getD (i - 1) 0) % 2 ^ 32)) o).length = o.length ∧
        (∀ i ≤ k, ((List.range' 1 k).foldl
          (fun o i => o.set i ((o.getD i 0 + o.getD (i - 1) 0) % 2 ^ 32)) o).getD i 0 = T i) ∧
        (∀ i, k < i → ((List.range' 1 k).foldl
          (fun o i => o.set i ((o.getD i 0 + o.getD (i - 1) 0) % 2 ^ 32)) o).getD i 0 =
            o.getD i 0) := by
  intro k
  induction k with
  | zero =>
      intro _
      refine ⟨rfl, ?_, fun _ _ => rfl⟩
      intro i hi
      have : i = 0 := by omega
      subst this
      exact h0
  | succ k ih =>
      intro hk
      obtain ⟨h1, h2, h3⟩ := ih (by omega)
      rw [List.range'_concat, List.foldl_append]
      simp only [List.foldl_cons, List.foldl_nil, Nat.one_mul, Nat.add_sub_cancel_left]
      have hin : 1 + k < ((List.range' 1 k).foldl
          (fun o i => o.set i ((o.getD i 0 + o.getD (i - 1) 0) % 2 ^ 32)) o).length := by
        rw [h1]
        omega
      have hval : (((List.range' 1 k).foldl
          (fun o i => o.set i ((o.getD i 0 + o.getD (i - 1) 0) % 2 ^ 32)) o).getD (1 + k) 0 +
          ((List.range' 1 k).foldl
          (fun o i => o.set i ((o.getD i 0 + o.getD (i - 1) 0) % 2 ^ 32)) o).getD k 0) % 2 ^ 32 =
          T (k + 1) := by
        rw [h3 (1 + k) (by omega), h2 k (le_refl _), hstep k (by omega), Nat.add_comm 1 k,
          Nat.add_comm]
        exact Nat.mod_eq_of_lt (by rw [← hstep k (by omega)]; exact hlt (k + 1) (by omega))
      refine ⟨by rw [List.length_set, h1], ?_, ?_⟩
      · intro i hi
        by_cases hik : i = 1 + k
        · subst hik
          rw [getD_set_self _ _ _ hin, hval, Nat.add_comm]
        · rw [getD_set_of_ne _ _ _ _ (Ne.symm hik)]
          exact h2 i (by omega)
      · intro i hi
        rw [getD_set_of_ne _ _ _ _ (by omega)]
        exact h3 i (by omega)

theorem prefixSum_spec (o : List Nat) (T : Nat → Nat) (h0 : o.getD 0 0 = T 0)
    (hstep : ∀ i, i + 1 < o.length → T (i + 1) = T i + o.getD (i + 1) 0)
    (hlt : ∀ i < o.length, T i < 2 ^ 32) :
    (prefixSum o).length = o.length ∧ ∀ i < o.length, (prefixSum o).getD i 0 = T i := by
  obtain ⟨h1, h2, _⟩ := prefixSum_steps o T h0 hstep hlt (o.length - 1) (le_refl _)
  exact ⟨h1, fun i hi => h2 i (by omega)⟩

theorem getD_replicate_zero (n i : Nat) : (List.replicate n 0).getD i 0 = 0 := by
  rw [List.getD_eq_getElem?_getD, List.getElem?_replicate]
  split <;> rfl

theorem getElem?_of_getD (o : List Nat) (i : Nat) (h : i < o.length) :
    o[i]? = some (o.getD i 0) := by
  rw [List.getD_eq_getElem?_getD, List.getElem?_eq_getElem h]
  rfl

/-- The layout the constructor builds for entries with pairwise distinct family
indices below `2^32 - 1` whose counts sum to less than `2^32`. -/
theorem construct_spec (l : List SQueueCreationParams)
    (hnd : (l.map fun qci => qci.familyIndex).Nodup)
    (hfam : ∀ q ∈ l, q.familyIndex < 2 ^ 32 - 1)
    (hsum : (l.map fun qci => qci.count).sum < 2 ^ 32) :
    ∃ d G, construct l = some d ∧
      (∀ q ∈ l, q.familyIndex ≤ G) ∧ (G = 0 ∨ ∃ q ∈ l, q.familyIndex = G) ∧
      d.m_queues = List.replicate (l.map fun qci => qci.count).sum none ∧
      d.m_offsets.length = G + 1 ∧
      (∀ f ≤ G, d.m_offsets[f]? = some (countBelow l f)) := by
  obtain ⟨_, hle, hmax⟩ := countQueues_snd l 0 0
  have hq := countQueues_fst l 0 0 (by norm_num)
  rw [Nat.zero_add, Nat.mod_eq_of_lt hsum] at hq
  have hG : (countQueues l 0 0).2 + 1 < 2 ^ 32 := by
    rcases hmax with h | ⟨q, hq1, hq2⟩
    · rw [h]
      norm_num
    · have := hfam q hq1
      omega
  obtain ⟨o1, h1, h2, h3, h4⟩ := assignCounts_spec _ hG l
    (List.replicate ((countQueues l 0 0).2 + 1) 0) (List.length_replicate _ _) hnd hle
  have h0 : o1.getD 0 0 = countBelow l 0 := by
    rw [countBelow_zero, h4 0 (fun q _ => Or.inr (Nat.succ_ne_zero _)), getD_replicate_zero]
  have hstep : ∀ i, i + 1 < o1.length → countBelow l (i + 1) = countBelow l i + o1.getD (i + 1) 0 := by
    intro i hi
    rw [countBelow_succ]
    congr 1
    by_cases hex : ∃ q ∈ l, q.familyIndex = i
    · obtain ⟨q, hq1, hq2⟩ := hex
      subst hq2
      rw [h3 q hq1 (by omega), countAt_of_mem l hnd q hq1]
    · have hno : ∀ q ∈ l, q.familyIndex ≠ i := fun q hq1 hq2 => hex ⟨q, hq1, hq2⟩
      rw [h4 (i + 1) (fun q hq1 => Or.inr (by have := hno q hq1; omega)),
        getD_replicate_zero, countAt_of_not_mem l i hno]
  have hlt : ∀ i < o1.length, countBelow l i < 2 ^ 32 := fun i _ =>
    lt_of_le_of_lt (countBelow_le_sum l i) hsum
  obtain ⟨hp1, hp2⟩ := prefixSum_spec o1 (countBelow l) h0 hstep hlt
  refine ⟨⟨List.replicate (l.map fun qci => qci.count).sum none, prefixSum o1⟩,
    (countQueues l 0 0).2, ?_, hle, ?_, rfl, ?_, ?_⟩
  · simp only [construct, Nat.mod_eq_of_lt hG, h1, Option.map_some', hq]
  · rcases hmax with h | h
    · exact Or.inl h
    · exact Or.inr h
  · rw [hp1, h2]
  · intro f hf
    have hfl : f < (prefixSum o1).length := by
      rw [hp1, h2]
      omega
    rw [getElem?_of_getD _ _ hfl, hp2 f (by rw [h2]; omega)]

/-- C21 (as amended): for every list of queue-creation entries with pairwise
distinct family indices, all below `2^32 - 1`, whose counts sum to less than
`2^32`, the constructor completes and builds a queue array of length the sum
of all counts and an offset table of length `G + 1`, `G` being the greatest
family index (0 for the empty list), in which `offsets[f]` is the sum of the
counts of the entries with family index below `f`; for every entry
`(f, count)` and every `ix < count`, `getQueue(f, ix)` reads index
`offsets[f] + ix`, which is below the length of the queue array, and two
different such `(family, ix)` pairs never read the same index. -/
theorem construct_lays_out_queues_by_family (l : List SQueueCreationParams)
    (hnd : (l.map fun qci => qci.familyIndex).Nodup)
    (hfam : ∀ q ∈ l, q.familyIndex < 2 ^ 32 - 1)
    (hsum : (l.map fun qci => qci.count).sum < 2 ^ 32) :
    ∃ d G, construct l = some d ∧
      (∀ q ∈ l, q.familyIndex ≤ G) ∧ (G = 0 ∨ ∃ q ∈ l, q.familyIndex = G) ∧
      d.m_queues.length = (l.map fun qci => qci.count).sum ∧
      d.m_offsets.length = G + 1 ∧
      (∀ f ≤ G, d.m_offsets[f]? = some (countBelow l f)) ∧
      (∀ q ∈ l, ∀ ix < q.count,
        getQueue d q.familyIndex ix = some (countBelow l q.familyIndex + ix, none) ∧
        countBelow l q.familyIndex + ix < d.m_queues.length) ∧
      (∀ q ∈ l, ∀ ix < q.count, ∀ q1 ∈ l, ∀ ix1 < q1.count,
        (getQueue d q.familyIndex ix).map Prod.fst =
            (getQueue d q1.familyIndex ix1).map Prod.fst →
          q.familyIndex = q1.familyIndex ∧ ix = ix1) := by
  obtain ⟨d, G, hd, hle, hmax, hqueues, hlen, hoff⟩ := construct_spec l hnd hfam hsum
  have hbound : ∀ q ∈ l, ∀ ix < q.count,
      countBelow l q.familyIndex + ix < countBelow l (q.familyIndex + 1) := by
    intro q hq ix hix
    rw [countBelow_succ, countAt_of_mem l hnd q hq]
    omega
  have hget : ∀ q ∈ l, ∀ ix < q.count,
      getQueue d q.familyIndex ix = some (countBelow l q.familyIndex + ix, none) := by
    intro q hq ix hix
    have h1 := hbound q hq ix hix
    have h2 := countBelow_le_sum l (q.familyIndex + 1)
    have hmod : (countBelow l q.familyIndex + ix) % 2 ^ 32 = countBelow l q.familyIndex + ix :=
      Nat.mod_eq_of_lt (by omega)
    simp only [getQueue, hoff _ (hle q hq), hmod, hqueues, List.getElem?_replicate]
    rw [if_pos (by omega)]
  refine ⟨d, G, hd, hle, hmax, by rw [hqueues, List.length_replicate], hlen, hoff, ?_, ?_⟩
  · intro q hq ix hix
    refine ⟨hget q hq ix hix, ?_⟩
    have h1 := hbound q hq ix hix
    have h2 := countBelow_le_sum l (q.familyIndex + 1)
    rw [hqueues, List.length_replicate]
    omega
  · intro q hq ix hix q1 hq1 ix1 hix1 he
    rw [hget q hq ix hix, hget q1 hq1 ix1 hix1] at he
    simp only [Option.map_some', Option.some.injEq] at he
    have hb := hbound q hq ix hix
    have hb1 := hbound q1 hq1 ix1 hix1
    rcases Nat.lt_trichotomy q.familyIndex q1.familyIndex with h | h | h
    · have := countBelow_mono l (show q.familyIndex + 1 ≤ q1.familyIndex from h)
      omega
    · rw [h] at he
      exact ⟨h, by omega⟩
    · have := countBelow_mono l (show q1.familyIndex + 1 ≤ q.familyIndex from h)
      omega

/-- Witness for C21 (as amended): three families given out of order, family 0
with 2 queues, family 2 with 3, family 1 with 1. -/
theorem construct_lays_out_queues_by_family_witness :
    (demoInfos.map fun qci => qci.familyIndex).Nodup ∧
      (∀ q ∈ demoInfos, q.familyIndex < 2 ^ 32 - 1) ∧
      (demoInfos.map fun qci => qci.count).sum < 2 ^ 32 ∧
      construct demoInfos = some ⟨List.replicate 6 none, [0, 2, 3]⟩ ∧
      ∃ d G, construct demoInfos = some d ∧
        (∀ q ∈ demoInfos, q.familyIndex ≤ G) ∧ (G = 0 ∨ ∃ q ∈ demoInfos, q.familyIndex = G) ∧
        d.m_queues.length = (demoInfos.map fun qci => qci.count).sum ∧
        d.m_offsets.length = G + 1 ∧
        (∀ f ≤ G, d.m_offsets[f]? = some (countBelow demoInfos f)) ∧
        (∀ q ∈ demoInfos, ∀ ix < q.count,
          getQueue d q.familyIndex ix = some (countBelow demoInfos q.familyIndex + ix, none) ∧
          countBelow demoInfos q.familyIndex + ix < d.m_queues.length) ∧
        (∀ q ∈ demoInfos, ∀ ix < q.count, ∀ q1 ∈ demoInfos, ∀ ix1 < q1.count,
          (getQueue d q.familyIndex ix).map Prod.fst =
              (getQueue d q1.familyIndex ix1).map Prod.fst →
            q.familyIndex = q1.familyIndex ∧ ix = ix1) :=
  ⟨by decide, by decide, by decide, by decide,
    construct_lays_out_queues_by_family demoInfos (by decide) (by decide) (by decide)⟩

/-- C21 (counterexample): one entry with family index `2^32 - 1` and one queue.
The family indices are pairwise distinct and the counts sum to 1, the
constructor completes, and the offset table it builds has length 0, not
`2^32`; `getQueue(2^32 - 1, 0)` reads outside the table. -/
theorem construct_offsets_empty_for_greatest_family :
    (([⟨0, 4294967295, 1, 0⟩] : List SQueueCreationParams).map
        fun qci => qci.familyIndex).Nodup ∧
      (([⟨0, 4294967295, 1, 0⟩] : List SQueueCreationParams).map fun qci => qci.count).sum
        < 2 ^ 32 ∧
      construct [⟨0, 4294967295, 1, 0⟩] = some ⟨[none], []⟩ ∧
      (∀ d, construct [⟨0, 4294967295, 1, 0⟩] = some d →
        d.m_offsets.length ≠ 4294967295 + 1 ∧ getQueue d 4294967295 0 = none) := by
  refine ⟨by decide, by decide, by decide, ?_⟩
  intro d hd
  have h : construct [⟨0, 4294967295, 1, 0⟩] = some ⟨[none], []⟩ := by decide
  rw [h] at hd
  cases hd
  exact ⟨by decide, by decide⟩

end LogicalDevice

section DescriptorSet

open IGPUDescriptorSet

theorem validateCopyLoop_spec (self : IGPUDescriptorSet) (copy : SCopyDescriptorSet) :
    ∀ ts : List Nat,
      ((validateCopyLoop self copy ts).1 = true ↔
        ∀ t ∈ ts, (copy.srcSet.getDescriptors t copy.srcBinding).isSome =
            (self.getDescriptors t copy.dstBinding).isSome ∧
          (copy.srcSet.getMutableSamplers copy.srcBinding).isSome =
            (self.getMutableSamplers copy.dstBinding).isSome) ∧
      ((validateCopyLoop self copy ts).1 = true → (validateCopyLoop self copy ts).2 = []) ∧
      ((validateCopyLoop self copy ts).1 = false → (validateCopyLoop self copy ts).2 =
        [LogMessage.incompatibleCopy
          (copy.srcSet.getDebugName.isSome && self.getDebugName.isSome)
          copy.srcSet.address copy.srcBinding copy.dstSet copy.dstBinding]) := by
  intro ts
  induction ts with
  | nil => simp [validateCopyLoop]
  | cons t rest ih =>
      obtain ⟨ih1, ih2, ih3⟩ := ih
      by_cases hc : ((copy.srcSet.getDescriptors t copy.srcBinding).isNone !=
          (self.getDescriptors t copy.dstBinding).isNone ||
          (copy.srcSet.getMutableSamplers copy.srcBinding).isNone !=
            (self.getMutableSamplers copy.dstBinding).isNone) = true
      · have hv : validateCopyLoop self copy (t :: rest) =
            (false, [LogMessage.incompatibleCopy
              (copy.srcSet.getDebugName.isSome && self.getDebugName.isSome)
              copy.srcSet.address copy.srcBinding copy.dstSet copy.dstBinding]) := by
          simp only [validateCopyLoop, hc, if_true]
        rw [hv]
        refine ⟨?_, by simp, fun _ => rfl⟩
        simp only [Bool.false_eq_true, false_iff]
        intro hall
        have h := hall t (List.mem_cons_self _ _)
        cases h1 : copy.srcSet.getDescriptors t copy.srcBinding <;>
          cases h2 : self.getDescriptors t copy.dstBinding <;>
          cases h3 : copy.srcSet.getMutableSamplers copy.srcBinding <;>
          cases h4 : self.getMutableSamplers copy.dstBinding <;>
          simp [h1, h2, h3, h4] at hc h
      · have hv : validateCopyLoop self copy (t :: rest) = validateCopyLoop self copy rest := by
          simp only [validateCopyLoop, hc, Bool.false_eq_true, if_false]
        rw [hv]
        refine ⟨?_, ih2, ih3⟩
        rw [ih1]
        constructor
        · intro hall x hx
          rcases List.mem_cons.mp hx with rfl | hx
          · cases h1 : copy.srcSet.getDescriptors x copy.srcBinding <;>
              cases h2 : self.getDescriptors x copy.dstBinding <;>
              cases h3 : copy.srcSet.getMutableSamplers copy.srcBinding <;>
              cases h4 : self.getMutableSamplers copy.dstBinding <;>
              simp [h1, h2, h3, h4] at hc ⊢
          · exact hall x hx
        · intro hall x hx
          exact hall x (List.mem_cons_of_mem _ hx)

theorem processWriteLoop_not_assertion (write : SWriteDescriptorSet) (descriptors : Nat)
    (mutableSamplers : Option Nat) :
    ∀ (n j : Nat) (s : IGPUDescriptorSet),
      processWriteLoop write descriptors mutableSamplers n j s ≠ Except.error Fault.assertion := by
  intro n
  induction n with
  | zero =>
      intro j s h
      simp [processWriteLoop] at h
  | succ n ih =>
      intro j s h
      rw [processWriteLoop] at h
      cases he : write.info[j]? with
      | none => simp [he] at h
      | some e =>
          simp only [he] at h
          by_cases hj : j = 2147483647
          · simp [hj] at h
          · rw [if_neg hj] at h
            exact ih _ _ h

theorem processCopyLoop_of_compatible (copy : SCopyDescriptorSet) (self : IGPUDescriptorSet) :
    ∀ (ts : List Nat) (s : IGPUDescriptorSet),
      s.getDescriptors = self.getDescriptors → s.getMutableSamplers = self.getMutableSamplers →
      (validateCopyLoop self copy ts).1 = true →
      ∃ s1, processCopyLoop copy ts s = Except.ok s1 := by
  intro ts
  induction ts with
  | nil =>
      intro s _ _ _
      exact ⟨s, rfl⟩
  | cons t rest ih =>
      intro s hg hm hv
      have hall := (validateCopyLoop_spec self copy (t :: rest)).1.mp hv
      have hrest : (validateCopyLoop self copy rest).1 = true :=
        (validateCopyLoop_spec self copy rest).1.mpr fun x hx =>
          hall x (List.mem_cons_of_mem _ hx)
      obtain ⟨hd, hs⟩ := hall t (List.mem_cons_self _ _)
      have hd1 : ((copy.srcSet.getDescriptors t copy.srcBinding).isNone !=
          (s.getDescriptors t copy.dstBinding).isNone) = false := by
        rw [hg]
        cases h1 : copy.srcSet.getDescriptors t copy.srcBinding <;>
          cases h2 : self.getDescriptors t copy.dstBinding <;> simp [h1, h2] at hd ⊢
      have hs1 : ((copy.srcSet.getMutableSamplers copy.srcBinding).isNone !=
          (s.getMutableSamplers copy.dstBinding).isNone) = false := by
        rw [hm]
        cases h1 : copy.srcSet.getMutableSamplers copy.srcBinding <;>
          cases h2 : self.getMutableSamplers copy.dstBinding <;> simp [h1, h2] at hs ⊢
      rw [processCopyLoop]
      simp only [hd1, hs1, Bool.false_eq_true, if_false]
      apply ih _ _ _ hrest
      · rw [← hg]
        cases copy.srcSet.getDescriptors t copy.srcBinding <;>
          cases s.getDescriptors t copy.dstBinding <;>
          cases copy.srcSet.getMutableSamplers copy.srcBinding <;>
          cases s.getMutableSamplers copy.dstBinding <;> rfl
      · rw [← hm]
        cases copy.srcSet.getDescriptors t copy.srcBinding <;>
          cases s.getDescriptors t copy.dstBinding <;>
          cases copy.srcSet.getMutableSamplers copy.srcBinding <;>
          cases s.getMutableSamplers copy.dstBinding <;> rfl

/-- What a `validateWrite` that returned true has checked. -/
theorem validateWrite_true (env : DescriptorEnv) (s : IGPUDescriptorSet)
    (w : SWriteDescriptorSet) (log : List LogMessage)
    (hv : validateWrite env s w = Except.ok (true, log)) :
    w.dstSet = s.address ∧
      (∃ d, s.getDescriptors w.descriptorType w.binding = some d) ∧
      (w.descriptorType = env.ET_COMBINED_IMAGE_SAMPLER →
        ∃ first, w.info[0]? = some first ∧
          (first.sampler.isSome = true → ∃ p, s.getMutableSamplers w.binding = some p)) := by
  unfold validateWrite at hv
  by_cases hdst : w.dstSet ≠ s.address
  · rw [if_pos hdst] at hv
    cases hv
  rw [if_neg hdst] at hv
  refine ⟨not_not.mp hdst, ?_⟩
  cases hd : s.getDescriptors w.descriptorType w.binding with
  | none =>
      simp [hd] at hv
  | some d =>
      refine ⟨⟨d, rfl⟩, ?_⟩
      intro htype
      simp only [hd] at hv
      rw [if_pos htype] at hv
      cases hf : w.info[0]? with
      | none => simp [hf] at hv
      | some first =>
          refine ⟨first, rfl, ?_⟩
          intro hsome
          simp only [hf, hsome, if_true] at hv
          cases hm : s.getMutableSamplers w.binding with
          | some p => exact ⟨p, rfl⟩
          | none =>
              exfalso
              simp only [hm] at hv
              by_cases hdbg : env._NBL_DEBUG = true
              · simp only [hdbg, if_true] at hv
                by_cases himm : s.getImmutableSamplerCount w.binding ≠ 0
                · simp [himm] at hv
                · rw [if_neg himm] at hv
                  cases hl : validateWriteSamplers env s w (List.range w.count) with
                  | error f => simp [hl] at hv
                  | ok r =>
                      cases r with
                      | none => simp [hl] at hv
                      | some msg => simp [hl] at hv
              · simp [hdbg] at hv

/-- C22: successful validation is sufficient for processing. For every set `s`
and write `w` with `w.dstSet = s`, if `validateWrite(w)` returns true then the
binding's descriptor storage is non-null, the mutable-sampler storage is
non-null whenever the write is a combined image sampler whose first info
carries a sampler, and `processWrite(w)` fails no assertion; for every copy
`c` with `c.dstSet = s`, if `validateCopy(c)` returns true then for every
descriptor type both assertions of `processCopy(c)` hold, and `processCopy(c)`
completes. -/
theorem validation_suffices_for_processing (env : DescriptorEnv) (s : IGPUDescriptorSet) :
    (∀ (w : SWriteDescriptorSet) (log : List LogMessage), w.dstSet = s.address →
        validateWrite env s w = Except.ok (true, log) →
        (s.getDescriptors w.descriptorType w.binding).isSome = true ∧
        (w.descriptorType = env.ET_COMBINED_IMAGE_SAMPLER →
          ∃ first, w.info[0]? = some first ∧
            (first.sampler.isSome = true → (s.getMutableSamplers w.binding).isSome = true)) ∧
        processWrite env s w ≠ Except.error Fault.assertion) ∧
      (∀ (c : SCopyDescriptorSet) (log : List LogMessage), c.dstSet = s.address →
        validateCopy env s c = Except.ok (true, log) →
        (∀ t < env.ET_COUNT,
          ((c.srcSet.getDescriptors t c.srcBinding).isNone !=
            (s.getDescriptors t c.dstBinding).isNone) = false ∧
          ((c.srcSet.getMutableSamplers c.srcBinding).isNone !=
            (s.getMutableSamplers c.dstBinding).isNone) = false) ∧
        ∃ s1, processCopy env s c = Except.ok s1) := by
  constructor
  · intro w log hdst hv
    obtain ⟨_, ⟨d, hd⟩, hcis⟩ := validateWrite_true env s w log hv
    refine ⟨by rw [hd]; rfl, ?_, ?_⟩
    · intro htype
      obtain ⟨first, hf, hm⟩ := hcis htype
      refine ⟨first, hf, fun hsome => ?_⟩
      obtain ⟨p, hp⟩ := hm hsome
      rw [hp]
      rfl
    · unfold processWrite
      rw [if_neg (not_not.mpr hdst)]
      simp only [hd]
      by_cases htype : w.descriptorType = env.ET_COMBINED_IMAGE_SAMPLER
      · obtain ⟨first, hf, hm⟩ := hcis htype
        simp only [htype, if_true, hf]
        by_cases hsome : first.sampler.isSome = true
        · obtain ⟨p, hp⟩ := hm hsome
          simp only [hsome, if_true, hp]
          intro h
          cases hl : processWriteLoop w d (some p) w.count 0 s with
          | error f =>
              rw [hl] at h
              simp only [Except.error.injEq] at h
              exact processWriteLoop_not_assertion w d (some p) w.count 0 s (by rw [hl, h])
          | ok s1 =>
              rw [hl] at h
              cases h
        · simp only [hsome, Bool.false_eq_true, if_false]
          intro h
          cases hl : processWriteLoop w d none w.count 0 s with
          | error f =>
              rw [hl] at h
              simp only [Except.error.injEq] at h
              exact processWriteLoop_not_assertion w d none w.count 0 s (by rw [hl, h])
          | ok s1 =>
              rw [hl] at h
              cases h
      · simp only [htype, if_false]
        intro h
        cases hl : processWriteLoop w d none w.count 0 s with
        | error f =>
            rw [hl] at h
            simp only [Except.error.injEq] at h
            exact processWriteLoop_not_assertion w d none w.count 0 s (by rw [hl, h])
        | ok s1 =>
            rw [hl] at h
            cases h
  · intro c log hdst hv
    unfold validateCopy at hv
    rw [if_neg (not_not.mpr hdst)] at hv
    simp only [Except.ok.injEq] at hv
    have hv1 : (validateCopyLoop s c (List.range env.ET_COUNT)).1 = true := by rw [hv]
    have hall := (validateCopyLoop_spec s c (List.range env.ET_COUNT)).1.mp hv1
    constructor
    · intro t ht
      obtain ⟨hd, hs⟩ := hall t (List.mem_range.mpr ht)
      constructor
      · cases h1 : c.srcSet.getDescriptors t c.srcBinding <;>
          cases h2 : s.getDescriptors t c.dstBinding <;> simp [h1, h2] at hd ⊢
      · cases h1 : c.srcSet.getMutableSamplers c.srcBinding <;>
          cases h2 : s.getMutableSamplers c.dstBinding <;> simp [h1, h2] at hs ⊢
    · obtain ⟨s1, hs1⟩ := processCopyLoop_of_compatible c s (List.range env.ET_COUNT) s rfl rfl hv1
      refine ⟨{ s1 with m_version := env.incrementVersion s1.m_version }, ?_⟩
      unfold processCopy
      rw [if_neg (not_not.mpr hdst), hs1]

/-- C23: `validateCopy(c)` on the destination set returns true exactly when for
every descriptor type the source has descriptors of the type at `c.srcBinding`
if and only if the destination has descriptors of the type at `c.dstBinding`,
and the source has mutable samplers at `c.srcBinding` if and only if the
destination has them at `c.dstBinding`; then nothing is logged. In every other
case it logs one "Incompatible copy" error and returns false. The result does
not depend on `c.count`. -/
theorem validateCopy_true_iff_compatible (env : DescriptorEnv) (s : IGPUDescriptorSet)
    (c : SCopyDescriptorSet) (hdst : c.dstSet = s.address)
    (htypes : env.ET_COMBINED_IMAGE_SAMPLER < env.ET_COUNT) :
    ∃ b log, validateCopy env s c = Except.ok (b, log) ∧
      (b = true ↔
        ((∀ t < env.ET_COUNT, (c.srcSet.getDescriptors t c.srcBinding).isSome =
            (s.getDescriptors t c.dstBinding).isSome) ∧
          (c.srcSet.getMutableSamplers c.srcBinding).isSome =
            (s.getMutableSamplers c.dstBinding).isSome)) ∧
      (b = true → log = []) ∧
      (b = false → ∃ msg, log = [msg] ∧ msg.isIncompatibleCopy = true) ∧
      (∀ n, validateCopy env s { c with count := n } = validateCopy env s c) := by
  obtain ⟨h1, h2, h3⟩ := validateCopyLoop_spec s c (List.range env.ET_COUNT)
  refine ⟨(validateCopyLoop s c (List.range env.ET_COUNT)).1,
    (validateCopyLoop s c (List.range env.ET_COUNT)).2, ?_, ?_, h2, ?_, ?_⟩
  · unfold validateCopy
    rw [if_neg (not_not.mpr hdst)]
  · rw [h1]
    constructor
    · intro hall
      exact ⟨fun t ht => (hall t (List.mem_range.mpr ht)).1,
        (hall _ (List.mem_range.mpr htypes)).2⟩
    · intro hall t ht
      exact ⟨hall.1 t (List.mem_range.mp ht), hall.2⟩
  · intro hb
    exact ⟨_, h3 hb, rfl⟩
  · intro n
    have hloop : ∀ ts, validateCopyLoop s { c with count := n } ts = validateCopyLoop s c ts := by
      intro ts
      induction ts with
      | nil => rfl
      | cons t rest ih => simp only [validateCopyLoop, ih]
    simp only [validateCopy, hloop]

/-- Witness for C22: the write `demoWrite` and the copy `demoCopy` on `demoSet`
both pass validation. -/
theorem validation_suffices_for_processing_witness :
    demoWrite.dstSet = demoSet.address ∧
      validateWrite demoEnv demoSet demoWrite = Except.ok (true, []) ∧
      processWrite demoEnv demoSet demoWrite ≠ Except.error Fault.assertion ∧
      demoCopy.dstSet = demoSet.address ∧
      validateCopy demoEnv demoSet demoCopy = Except.ok (true, []) ∧
      ∃ s1, processCopy demoEnv demoSet demoCopy = Except.ok s1 :=
  ⟨rfl, rfl,
    ((validation_suffices_for_processing demoEnv demoSet).1 demoWrite [] rfl rfl).2.2,
    rfl, rfl,
    ((validation_suffices_for_processing demoEnv demoSet).2 demoCopy [] rfl rfl).2⟩

/-- Witness for C23: the copy `demoCopy` within `demoSet`, in an environment of
three descriptor types. -/
theorem validateCopy_true_iff_compatible_witness :
    demoCopy.dstSet = demoSet.address ∧
      demoEnv.ET_COMBINED_IMAGE_SAMPLER < demoEnv.ET_COUNT ∧
      validateCopy demoEnv demoSet demoCopy = Except.ok (true, []) ∧
      ∃ b log, validateCopy demoEnv demoSet demoCopy = Except.ok (b, log) ∧
        (b = true ↔
          ((∀ t < demoEnv.ET_COUNT, (demoCopy.srcSet.getDescriptors t demoCopy.srcBinding).isSome =
              (demoSet.getDescriptors t demoCopy.dstBinding).isSome) ∧
            (demoCopy.srcSet.getMutableSamplers demoCopy.srcBinding).isSome =
              (demoSet.getMutableSamplers demoCopy.dstBinding).isSome)) ∧
        (b = true → log = []) ∧
        (b = false → ∃ msg, log = [msg] ∧ msg.isIncompatibleCopy = true) ∧
        (∀ n, validateCopy demoEnv demoSet { demoCopy with count := n } =
          validateCopy demoEnv demoSet demoCopy) :=
  ⟨rfl, by decide, rfl, validateCopy_true_iff_compatible demoEnv demoSet demoCopy rfl (by decide)⟩

/-- In the `_NBL_DEBUG` loop a null sampler, the samplers before it passing the
test, ends the call in `sampler->getDebugName()` on the null pointer. -/
theorem validateWriteSamplers_null (env : DescriptorEnv) (s : IGPUDescriptorSet)
    (w : SWriteDescriptorSet) (i : Nat) (post : List Nat)
    (hnull : ∃ e, w.info[i]? = some e ∧ e.sampler = none) :
    ∀ pre : List Nat,
      (∀ k ∈ pre, ∃ e smp, w.info[k]? = some e ∧ e.sampler = some smp ∧
        env.isCompatibleDevicewise smp w.dstSet = true) →
      validateWriteSamplers env s w (pre ++ i :: post) = Except.error Fault.nullDereference := by
  intro pre
  induction pre with
  | nil =>
      intro _
      obtain ⟨e, he, hs⟩ := hnull
      simp only [List.nil_append, validateWriteSamplers, he, hs]
  | cons k pre ih =>
      intro hpre
      obtain ⟨e, smp, he, hs, hc⟩ := hpre k (List.mem_cons_self _ _)
      simp only [List.cons_append, validateWriteSamplers, he, hs, hc, Bool.not_true,
        Bool.false_eq_true, if_false]
      exact ih fun x hx => hpre x (List.mem_cons_of_mem _ hx)

/-- C24: a debug build, a combined-image-sampler write of count 2 to binding 0
of `demoSet` whose first info has sampler 5. With a null sampler in the second
info `validateWrite` does not return: it calls `getDebugName()` through the
null pointer. With sampler 6, not device-compatible, in the second info it
logs the error and returns false. -/
theorem validateWrite_dereferences_null_sampler :
    demoEnv._NBL_DEBUG = true ∧
      demoWriteNullSampler.descriptorType = demoEnv.ET_COMBINED_IMAGE_SAMPLER ∧
      demoWriteNullSampler.dstSet = demoSet.address ∧
      demoWriteNullSampler.count = 2 ∧
      demoWriteNullSampler.info[0]? = some ⟨some 1, some 5⟩ ∧
      demoWriteNullSampler.info[1]? = some ⟨some 2, none⟩ ∧
      validateWrite demoEnv demoSet demoWriteNullSampler =
        Except.error Fault.nullDereference ∧
      validateWrite demoEnv demoSet demoWriteForeignSampler =
        Except.ok (false, [LogMessage.samplerNotCompatible false 6 100]) :=
  ⟨rfl, rfl, rfl, rfl, rfl, rfl, rfl, rfl⟩

theorem constructLoop_spec :
    ∀ (ts : List Nat) (s : IGPUDescriptorSet),
      (∀ t ∈ ts, s.m_storageOffsets t ≠ 4294967295 → (s.getAllDescriptors t).isSome = true) →
      ∃ s1, constructLoop ts s = Except.ok s1 ∧
        s1 = { s with descriptors := s1.descriptors } ∧
        (∀ t ∈ ts, s.m_storageOffsets t ≠ 4294967295 → ∀ p, s.getAllDescriptors t = some p →
          ∀ j < s.getTotalDescriptorCount t, s1.descriptors (p + j) = none) ∧
        (∀ a, s1.descriptors a = none ∨ s1.descriptors a = s.descriptors a) ∧
        (∀ a, (∀ t ∈ ts, s.m_storageOffsets t ≠ 4294967295 → ∀ p, s.getAllDescriptors t = some p →
          ¬ (p ≤ a ∧ a < p + s.getTotalDescriptorCount t)) → s1.descriptors a = s.descriptors a) := by
  intro ts
  induction ts with
  | nil =>
      intro s _
      exact ⟨s, rfl, rfl, by simp, fun _ => Or.inr rfl, fun _ _ => rfl⟩
  | cons t rest ih =>
      intro s hs
      by_cases hoff : s.m_storageOffsets t = 4294967295
      · obtain ⟨s1, h1, h2, h3, h4, h5⟩ := ih s fun x hx => hs x (List.mem_cons_of_mem _ hx)
        refine ⟨s1, by rw [constructLoop, if_pos hoff]; exact h1, h2, ?_, h4, ?_⟩
        · intro x hx hxo
          rcases List.mem_cons.mp hx with rfl | hx
          · exact absurd hoff hxo
          · exact h3 x hx hxo
        · intro a ha
          exact h5 a fun x hx => ha x (List.mem_cons_of_mem _ hx)
      · have hsome := hs t (List.mem_cons_self _ _) hoff
        obtain ⟨p, hp⟩ := Option.isSome_iff_exists.mp hsome
        obtain ⟨s1, h1, h2, h3, h4, h5⟩ := ih
          { s with
            descriptors := uninitialized_default_construct_n s.descriptors p
              (s.getTotalDescriptorCount t) }
          fun x hx => hs x (List.mem_cons_of_mem _ hx)
        refine ⟨s1, ?_, ?_, ?_, ?_, ?_⟩
        · rw [constructLoop, if_neg hoff]
          simp only [hp]
          exact h1
        · exact h2
        · intro x hx hxo q hq j hj
          rcases List.mem_cons.mp hx with rfl | hx
          · rw [hp] at hq
            cases hq
            rcases h4 (p + j) with h | h
            · exact h
            · rw [h]
              simp only [uninitialized_default_construct_n]
              rw [if_pos ⟨by omega, by omega⟩]
          · exact h3 x hx hxo q hq j hj
        · intro a
          rcases h4 a with h | h
          · exact Or.inl h
          · rw [h]
            simp only [uninitialized_default_construct_n]
            split
            · exact Or.inl rfl
            · exact Or.inr rfl
        · intro a ha
          rw [h5 a fun x hx => ha x (List.mem_cons_of_mem _ hx)]
          simp only [uninitialized_default_construct_n]
          rw [if_neg (ha t (List.mem_cons_self _ _) hoff p hp)]

/-- C25: the constructor, for a set whose `getAllDescriptors` is non-null for
every type present (storage offset different from `~0u`) and whose
`getAllMutableSamplers` is non-null when the layout has mutable samplers,
completes; the set has version 0; every descriptor slot of every type present
and every mutable-sampler slot holds a null reference; every other slot of
either storage is left as it was, so that types absent from the set are
skipped and their storage is not touched. -/
theorem construct_nulls_every_slot (env : DescriptorEnv) (self : IGPUDescriptorSet)
    (hd : ∀ t < env.ET_COUNT, self.m_storageOffsets t ≠ 4294967295 →
      (self.getAllDescriptors t).isSome = true)
    (hs : 0 < self.getTotalMutableSamplerCount → self.getAllMutableSamplers.isSome = true) :
    ∃ s, construct env self = Except.ok s ∧
      s.m_version = 0 ∧
      (∀ t < env.ET_COUNT, self.m_storageOffsets t ≠ 4294967295 →
        ∀ p, self.getAllDescriptors t = some p →
          ∀ j < self.getTotalDescriptorCount t, s.descriptors (p + j) = none) ∧
      (∀ p, self.getAllMutableSamplers = some p →
        ∀ j < self.getTotalMutableSamplerCount, s.mutableSamplers (p + j) = none) ∧
      (∀ a, (∀ t < env.ET_COUNT, self.m_storageOffsets t ≠ 4294967295 →
          ∀ p, self.getAllDescriptors t = some p →
            ¬ (p ≤ a ∧ a < p + self.getTotalDescriptorCount t)) →
        s.descriptors a = self.descriptors a) ∧
      (∀ a, (∀ p, self.getAllMutableSamplers = some p →
          ¬ (p ≤ a ∧ a < p + self.getTotalMutableSamplerCount)) →
        s.mutableSamplers a = self.mutableSamplers a) := by
  obtain ⟨s1, h1, h2, h3, _, h5⟩ := constructLoop_spec (List.range env.ET_COUNT)
    { self with m_version := 0 } fun t ht => hd t (List.mem_range.mp ht)
  by_cases hcount : self.getTotalMutableSamplerCount > 0
  · obtain ⟨p, hp⟩ := Option.isSome_iff_exists.mp (hs hcount)
    have hcount1 : s1.getTotalMutableSamplerCount > 0 := by rw [h2]; exact hcount
    have hp1 : s1.getAllMutableSamplers = some p := by rw [h2]; exact hp
    refine ⟨{ s1 with
        mutableSamplers := uninitialized_default_construct_n s1.mutableSamplers p
          s1.getTotalMutableSamplerCount }, ?_, ?_, ?_, ?_, ?_, ?_⟩
    · simp only [construct, h1, hcount1, if_true, hp1]
    · show s1.m_version = 0
      rw [h2]
    · intro t ht hoff q hq j hj
      exact h3 t (List.mem_range.mpr ht) hoff q hq j hj
    · intro q hq j hj
      rw [hp] at hq
      cases hq
      show uninitialized_default_construct_n s1.mutableSamplers p
        s1.getTotalMutableSamplerCount (p + j) = none
      have hj1 : j < s1.getTotalMutableSamplerCount := by rw [h2]; exact hj
      simp only [uninitialized_default_construct_n]
      rw [if_pos ⟨by omega, by omega⟩]
    · intro a ha
      exact h5 a fun t ht => ha t (List.mem_range.mp ht)
    · intro a ha
      show uninitialized_default_construct_n s1.mutableSamplers p
        s1.getTotalMutableSamplerCount a = self.mutableSamplers a
      have hna := ha p hp
      have hc : s1.getTotalMutableSamplerCount = self.getTotalMutableSamplerCount := by rw [h2]
      simp only [uninitialized_default_construct_n]
      rw [if_neg (by rw [hc]; exact hna), h2]
  · have hcount1 : ¬ s1.getTotalMutableSamplerCount > 0 := by rw [h2]; exact hcount
    refine ⟨s1, ?_, ?_, ?_, ?_, ?_, ?_⟩
    · simp only [construct, h1, hcount1, if_false]
    · rw [h2]
    · intro t ht hoff q hq j hj
      exact h3 t (List.mem_range.mpr ht) hoff q hq j hj
    · intro q _ j hj
      omega
    · intro a ha
      exact h5 a fun t ht => ha t (List.mem_range.mp ht)
    · intro a _
      rw [h2]

/-- Witness for C25: `demoSet`, whose storage holds objects before the
construction. Types 0 and 2 are present (slots 0 to 3 and 4, 5), type 1 is
absent; there are 4 mutable samplers from slot 0. -/
theorem construct_nulls_every_slot_witness :
    (∀ t < demoEnv.ET_COUNT, demoSet.m_storageOffsets t ≠ 4294967295 →
        (demoSet.getAllDescriptors t).isSome = true) ∧
      (0 < demoSet.getTotalMutableSamplerCount → demoSet.getAllMutableSamplers.isSome = true) ∧
      ∃ s, construct demoEnv demoSet = Except.ok s ∧
        s.m_version = 0 ∧
        (∀ t < demoEnv.ET_COUNT, demoSet.m_storageOffsets t ≠ 4294967295 →
          ∀ p, demoSet.getAllDescriptors t = some p →
            ∀ j < demoSet.getTotalDescriptorCount t, s.descriptors (p + j) = none) ∧
        (∀ p, demoSet.getAllMutableSamplers = some p →
          ∀ j < demoSet.getTotalMutableSamplerCount, s.mutableSamplers (p + j) = none) ∧
        (∀ a, (∀ t < demoEnv.ET_COUNT, demoSet.m_storageOffsets t ≠ 4294967295 →
            ∀ p, demoSet.getAllDescriptors t = some p →
              ¬ (p ≤ a ∧ a < p + demoSet.getTotalDescriptorCount t)) →
          s.descriptors a = demoSet.descriptors a) ∧
        (∀ a, (∀ p, demoSet.getAllMutableSamplers = some p →
            ¬ (p ≤ a ∧ a < p + demoSet.getTotalMutableSamplerCount)) →
          s.mutableSamplers a = demoSet.mutableSamplers a) :=
  ⟨by decide, by decide,
    construct_nulls_every_slot demoEnv demoSet (by decide) (by decide)⟩

/-- The loop of `processWrite` run on a count above `INT_MAX`: the counter
reaches `INT_MAX` and its increment overflows. -/
theorem processWriteLoop_overflows (w : SWriteDescriptorSet) (d : Nat) (ms : Option Nat)
    (hinfo : ∀ i < 2147483648, ∃ e, w.info[i]? = some e) :
    ∀ (n j : Nat) (s : IGPUDescriptorSet), j ≤ 2147483647 → 2147483647 < j + n →
      processWriteLoop w d ms n j s = Except.error Fault.signedOverflow := by
  intro n
  induction n with
  | zero =>
      intro j s h1 h2
      omega
  | succ n ih =>
      intro j s h1 h2
      obtain ⟨e, he⟩ := hinfo j (by omega)
      rw [processWriteLoop]
      simp only [he]
      by_cases hj : j = 2147483647
      · rw [if_pos hj]
      · rw [if_neg hj]
        exact ih _ _ (by omega) (by omega)

/-- A write of a type other than the combined image sampler whose count is
above `INT_MAX`: `processWrite` ends in the overflow of its loop counter. -/
theorem processWrite_overflows (env : DescriptorEnv) (s : IGPUDescriptorSet)
    (w : SWriteDescriptorSet) (hdst : w.dstSet = s.address) (d : Nat)
    (hd : s.getDescriptors w.descriptorType w.binding = some d)
    (htype : w.descriptorType ≠ env.ET_COMBINED_IMAGE_SAMPLER)
    (hcount : 2147483647 < w.count)
    (hinfo : ∀ i < 2147483648, ∃ e, w.info[i]? = some e) :
    processWrite env s w = Except.error Fault.signedOverflow := by
  unfold processWrite
  rw [if_neg (not_not.mpr hdst)]
  simp only [hd, htype, if_false]
  rw [processWriteLoop_overflows w d none hinfo w.count 0 s (by omega) (by omega)]

/-- The loop of `processWrite` on a range of indices that stays below `INT_MAX`
and inside `info`. -/
theorem processWriteLoop_spec (w : SWriteDescriptorSet) (d : Nat) (ms : Option Nat) :
    ∀ (n j : Nat) (s : IGPUDescriptorSet), j + n ≤ 2147483647 → j + n ≤ w.info.length →
      ∃ s1, processWriteLoop w d ms n j s = Except.ok s1 ∧
        s1 = { s with descriptors := s1.descriptors, mutableSamplers := s1.mutableSamplers } ∧
        (∀ a, s1.descriptors a =
          if d + j ≤ a ∧ a < d + j + n then (w.info[a - d]?).bind (fun e => e.desc)
          else s.descriptors a) ∧
        (ms = none → s1.mutableSamplers = s.mutableSamplers) ∧
        (∀ p, ms = some p → ∀ a, s1.mutableSamplers a =
          if p + j ≤ a ∧ a < p + j + n then (w.info[a - p]?).bind (fun e => e.sampler)
          else s.mutableSamplers a) := by
  intro n
  induction n with
  | zero =>
      intro j s _ _
      refine ⟨s, rfl, rfl, ?_, fun _ => rfl, ?_⟩
      · intro a
        rw [if_neg (by omega)]
      · intro p _ a
        rw [if_neg (by omega)]
  | succ n ih =>
      intro j s h1 h2
      have hj : j < w.info.length := by omega
      have he : w.info[j]? = some w.info[j] := List.getElem?_eq_getElem hj
      have hne : j ≠ 2147483647 := by omega
      rw [processWriteLoop]
      simp only [he, if_neg hne]
      cases ms with
      | none =>
          obtain ⟨s1, e1, e2, e3, e4, _⟩ := ih (j + 1)
            { s with
              descriptors := fun a => if a = d + j then w.info[j].desc else s.descriptors a }
            (by omega) (by omega)
          refine ⟨s1, e1, ?_, ?_, ?_, ?_⟩
          · exact e2
          · intro a
            rw [e3 a]
            by_cases ha : a = d + j
            · subst ha
              rw [if_neg (by omega), if_pos ⟨by omega, by omega⟩]
              simp [he]
            · by_cases hr : d + (j + 1) ≤ a ∧ a < d + (j + 1) + n
              · rw [if_pos hr, if_pos ⟨by omega, by omega⟩]
              · rw [if_neg hr, if_neg (by omega)]
                simp only [ha, if_false]
          · intro _
            exact e4 rfl
          · intro p hp
            cases hp
      | some p =>
          obtain ⟨s1, e1, e2, e3, _, e5⟩ := ih (j + 1)
            { s with
              descriptors := fun a => if a = d + j then w.info[j].desc else s.descriptors a,
              mutableSamplers := fun a =>
                if a = p + j then w.info[j].sampler else s.mutableSamplers a }
            (by omega) (by omega)
          refine ⟨s1, e1, ?_, ?_, ?_, ?_⟩
          · exact e2
          · intro a
            rw [e3 a]
            by_cases ha : a = d + j
            · subst ha
              rw [if_neg (by omega), if_pos ⟨by omega, by omega⟩]
              simp [he]
            · by_cases hr : d + (j + 1) ≤ a ∧ a < d + (j + 1) + n
              · rw [if_pos hr, if_pos ⟨by omega, by omega⟩]
              · rw [if_neg hr, if_neg (by omega)]
                simp only [ha, if_false]
          · intro hp
            cases hp
          · intro q hq a
            cases hq
            rw [e5 p rfl a]
            by_cases ha : a = p + j
            · subst ha
              rw [if_neg (by omega), if_pos ⟨by omega, by omega⟩]
              simp [he]
            · by_cases hr : p + (j + 1) ≤ a ∧ a < p + (j + 1) + n
              · rw [if_pos hr, if_pos ⟨by omega, by omega⟩]
              · rw [if_neg hr, if_neg (by omega)]
                simp only [ha, if_false]

/-- What `processWrite` does for a write that passed `validateWrite`, whose
`info` holds `count` elements, and whose count does not exceed `INT_MAX`: it
stores `info[j].desc` into slot `j` of the binding's descriptors for every
`j < count` and leaves every other descriptor slot as it was; it stores
`info[j].info.image.sampler` into mutable-sampler slot `j` for every
`j < count` when the type is the combined image sampler and the first info has
a sampler, and otherwise leaves the mutable samplers as they were; and it
calls `incrementVersion()` once. -/
theorem processWrite_of_valid (env : DescriptorEnv) (s : IGPUDescriptorSet)
    (w : SWriteDescriptorSet) (log : List LogMessage)
    (hv : validateWrite env s w = Except.ok (true, log))
    (hlen : w.count ≤ w.info.length) (hsmall : w.count ≤ 2147483647) :
    ∃ s1 d, s.getDescriptors w.descriptorType w.binding = some d ∧
      processWrite env s w = Except.ok s1 ∧
      s1.m_version = env.incrementVersion s.m_version ∧
      (∀ j < w.count, s1.descriptors (d + j) = (w.info[j]?).bind (fun e => e.desc)) ∧
      (∀ a, ¬ (d ≤ a ∧ a < d + w.count) → s1.descriptors a = s.descriptors a) ∧
      (∀ first, w.descriptorType = env.ET_COMBINED_IMAGE_SAMPLER → w.info[0]? = some first →
        first.sampler.isSome = true →
        ∃ p, s.getMutableSamplers w.binding = some p ∧
          (∀ j < w.count, s1.mutableSamplers (p + j) = (w.info[j]?).bind (fun e => e.sampler)) ∧
          (∀ a, ¬ (p ≤ a ∧ a < p + w.count) → s1.mutableSamplers a = s.mutableSamplers a)) ∧
      (¬ (w.descriptorType = env.ET_COMBINED_IMAGE_SAMPLER ∧
          ∃ first, w.info[0]? = some first ∧ first.sampler.isSome = true) →
        s1.mutableSamplers = s.mutableSamplers) := by
  obtain ⟨hdst, ⟨d, hd⟩, hcis⟩ := validateWrite_true env s w log hv
  have hdesc : ∀ (ms : Option Nat) (s1 : IGPUDescriptorSet),
      (∀ a, s1.descriptors a =
        if d + 0 ≤ a ∧ a < d + 0 + w.count then (w.info[a - d]?).bind (fun e => e.desc)
        else s.descriptors a) →
      (∀ j < w.count, s1.descriptors (d + j) = (w.info[j]?).bind (fun e => e.desc)) ∧
      (∀ a, ¬ (d ≤ a ∧ a < d + w.count) → s1.descriptors a = s.descriptors a) := by
    intro _ s1 h
    constructor
    · intro j hj
      rw [h (d + j), if_pos ⟨by omega, by omega⟩, Nat.add_sub_cancel_left]
    · intro a ha
      rw [h a, if_neg (by omega)]
  by_cases hsel : w.descriptorType = env.ET_COMBINED_IMAGE_SAMPLER ∧
      ∃ first, w.info[0]? = some first ∧ first.sampler.isSome = true
  · obtain ⟨htype, first, hf, hsome⟩ := hsel
    obtain ⟨first1, hf1, hm⟩ := hcis htype
    rw [hf] at hf1
    cases hf1
    obtain ⟨p, hp⟩ := hm hsome
    obtain ⟨s1, e1, e2, e3, _, e5⟩ := processWriteLoop_spec w d (some p) w.count 0 s
      (by omega) (by omega)
    refine ⟨{ s1 with m_version := env.incrementVersion s1.m_version }, d, hd, ?_, ?_,
      (hdesc (some p) s1 e3).1, (hdesc (some p) s1 e3).2, ?_, ?_⟩
    · unfold processWrite
      rw [if_neg (not_not.mpr hdst)]
      simp only [hd]
      simp only [htype, if_true, hf, hsome, hp, e1]
    · show env.incrementVersion s1.m_version = env.incrementVersion s.m_version
      rw [e2]
    · intro first2 _ hf2 _
      refine ⟨p, hp, ?_, ?_⟩
      · intro j hj
        show s1.mutableSamplers (p + j) = _
        rw [e5 p rfl (p + j), if_pos ⟨by omega, by omega⟩, Nat.add_sub_cancel_left]
      · intro a ha
        show s1.mutableSamplers a = _
        rw [e5 p rfl a, if_neg (by omega)]
    · intro hno
      exact absurd ⟨htype, first, hf, hsome⟩ hno
  · obtain ⟨s1, e1, e2, e3, e4, _⟩ := processWriteLoop_spec w d none w.count 0 s
      (by omega) (by omega)
    refine ⟨{ s1 with m_version := env.incrementVersion s1.m_version }, d, hd, ?_, ?_,
      (hdesc none s1 e3).1, (hdesc none s1 e3).2, ?_, ?_⟩
    · unfold processWrite
      rw [if_neg (not_not.mpr hdst)]
      simp only [hd]
      by_cases htype : w.descriptorType = env.ET_COMBINED_IMAGE_SAMPLER
      · obtain ⟨first, hf, _⟩ := hcis htype
        have hnone : ¬ first.sampler.isSome = true := fun h => hsel ⟨htype, first, hf, h⟩
        simp only [htype, if_true, hf, hnone, Bool.false_eq_true, if_false, e1]
      · simp only [htype, if_false, e1]
    · show env.incrementVersion s1.m_version = env.incrementVersion s.m_version
      rw [e2]
    · intro first htype hf hsome
      exact absurd ⟨htype, first, hf, hsome⟩ hsel
    · intro _
      exact e4 rfl

/-- C26: `hugeWrite` writes `2^31 + 1` descriptors of type 2, taken from an
`info` array of that many elements, to binding 2 of `hugeSet`, which has that
many descriptors of the type; `validateWrite` returns true for it.
`processWrite` does not complete: its `int` loop counter overflows after the
element with index `INT_MAX`, and the version is not increased. -/
theorem processWrite_counter_overflows :
    hugeWrite.count = 2 ^ 31 + 1 ∧
      hugeWrite.info.length = hugeWrite.count ∧
      hugeSet.getTotalDescriptorCount hugeWrite.descriptorType = hugeWrite.count ∧
      hugeWrite.dstSet = hugeSet.address ∧
      validateWrite demoEnv hugeSet hugeWrite = Except.ok (true, []) ∧
      processWrite demoEnv hugeSet hugeWrite = Except.error Fault.signedOverflow := by
  have hinfo : ∀ i < 2147483648, ∃ e, hugeWrite.info[i]? = some e := by
    intro i hi
    refine ⟨⟨some 1, none⟩, ?_⟩
    show (List.replicate 2147483649 (⟨some 1, none⟩ : SDescriptorInfo))[i]? = _
    rw [List.getElem?_replicate, if_pos (by omega)]
  refine ⟨by decide, ?_, rfl, rfl, rfl, ?_⟩
  · show (List.replicate 2147483649 (⟨some 1, none⟩ : SDescriptorInfo)).length = 2147483649
    exact List.length_replicate _ _
  · exact processWrite_overflows demoEnv hugeSet hugeWrite rfl 4 rfl (by decide) (by decide) hinfo

end DescriptorSet

end Nabla
